import Mathlib

/-!
Verification development for the CLOB matching core.

The Rust sources are shallowly embedded: `U256` values become `Nat` with
explicit `2 ^ 256` bounds on every checked operation, fallible operations
return `Option` / `Except`, and the `&mut` book threading of the engine is
made explicit state passing.  The matching engine is embedded generically
over the `Book` trait (a record of operations), exactly as in
`matching_engine/src/engine.rs`; the `BTreeMap`-ladder order book of
`programs/orderbook/src/orderbook.rs` is embedded as sorted association
lists with `(side, price, index)` handles.
-/

namespace Clob

/-- Upper bound of the 256-bit unsigned integer type used for prices and
quantities. -/
def U256LIMIT : Nat := 2 ^ 256

/-- `U256::checked_add`: `none` models overflow past 256 bits. -/
def checkedAdd (a b : Nat) : Option Nat :=
  if a + b < U256LIMIT then some (a + b) else none

/-- `U256::checked_sub`: `none` models underflow below zero. -/
def checkedSub (a b : Nat) : Option Nat :=
  if b ≤ a then some (a - b) else none

/-- `U256::checked_mul`: `none` models overflow past 256 bits. -/
def checkedMul (a b : Nat) : Option Nat :=
  if a * b < U256LIMIT then some (a * b) else none

/-- `Side` from `matching_engine/src/types.rs`. -/
inductive Side where
  | Buy
  | Sell
deriving DecidableEq, Repr

/-- `Side::opposite`. -/
def Side.opposite : Side → Side
  | .Buy => .Sell
  | .Sell => .Buy

/-- `OrderKind` from `matching_engine/src/types.rs`. -/
inductive OrderKind where
  | Limit
  | Market
  | FillOrKill
  | ImmediateOrCancel
deriving DecidableEq, Repr

/-- `IncomingOrder`: the taker request.  `ActorId` is modelled as `Nat`. -/
structure IncomingOrder where
  id : Nat
  side : Side
  kind : OrderKind
  limit_price : Nat
  amount_base : Nat
  owner : Nat
  max_quote : Nat
deriving DecidableEq, Repr

/-- `MakerView`: a resting (maker) order as stored in the book. -/
structure MakerView where
  id : Nat
  owner : Nat
  side : Side
  price : Nat
  remaining_base : Nat
  reserved_quote : Nat
deriving DecidableEq, Repr

/-- `RestingOrder`: a Limit remainder to be inserted as a resting order. -/
structure RestingOrder where
  id : Nat
  owner : Nat
  side : Side
  price : Nat
  remaining_base : Nat
  remaining_quote : Nat
deriving DecidableEq, Repr

/-- `Trade`: one fill produced by matching. -/
structure Trade where
  maker_order_id : Nat
  taker_order_id : Nat
  maker : Nat
  taker : Nat
  price : Nat
  amount_base : Nat
  amount_quote : Nat
deriving DecidableEq, Repr

/-- `Completion` of an execution. -/
inductive Completion where
  | Filled
  | Rejected
  | Cancelled (remaining_base : Nat)
  | Placed (remaining_base : Nat) (remaining_quote : Nat)
deriving DecidableEq, Repr

/-- `ExecutionReport`. -/
structure ExecutionReport where
  trades : List Trade
  completion : Completion
deriving DecidableEq, Repr

/-- `EngineLimits`. -/
structure EngineLimits where
  max_trades : Nat
  max_preview_scans : Nat
deriving DecidableEq, Repr

/-- `BookInvariant` corruption signals. -/
inductive BookInvariant where
  | BestPriceHasNoHead
  | LevelHeadMissingMaker
  | NextInLevelMissingMaker
  | MakerSideMismatch
  | MakerPriceMismatch
  | NextPriceDidNotAdvance
  | NextInLevelSelfLoop
  | MakerZeroRemaining
deriving DecidableEq, Repr

/-- `InvalidOrderReason`. -/
inductive InvalidOrderReason where
  | ZeroAmountBase
  | ZeroLimitPriceForNonMarket
  | PreviewOnlyForFok
  | FokRequiresLimitPrice
  | ZeroMaxQuoteForMarketBuy
  | MaxQuoteOnlyForMarketBuy
  | PreviewOnlyForMarketBuyBudget
  | MarketBuyMaxQuoteExceeded
deriving DecidableEq, Repr

/-- `MatchError`. -/
inductive MatchError where
  | InvalidOrder (r : InvalidOrderReason)
  | MulOverflow
  | AddOverflow
  | SubUnderflow
  | MarketBuyInsufficientLiquidity
  | MarketBuyBudgetCheckInconsistent
  | MarketBuyLiquidityCheckInconsistent
  | MarketBuyMaxQuoteExceeded
  | BrokenBook (b : BookInvariant)
  | FokCheckInconsistent
  | TradeLimitReached (max_trades : Nat)
  | ScanLimitReached (max_scanned : Nat)
deriving DecidableEq, Repr

/-! ## Math (`matching_engine/src/math.rs`)

The source constant is
`const PRICE_PRECISION: u128 = 1_000_000_000_000_000_000_000_000_000_000_000;`
which has 33 zeros, i.e. `10 ^ 33`, although the comment right above it in
the source says "1e30 precision". -/

/-- The precision constant exactly as written in the source (`10 ^ 33`). -/
def PRICE_PRECISION : Nat := 1000000000000000000000000000000000

/-- `calc_quote_floor`: `quote = floor(base * price / PRICE_PRECISION)`. -/
def calc_quote_floor (base price : Nat) : Except MatchError Nat :=
  match checkedMul base price with
  | none => .error .MulOverflow
  | some mul => .ok (mul / PRICE_PRECISION)

/-- `calc_quote_ceil`: `quote = ceil(base * price / PRICE_PRECISION)`. -/
def calc_quote_ceil (base price : Nat) : Except MatchError Nat :=
  match checkedMul base price with
  | none => .error .MulOverflow
  | some mul =>
    let q := mul / PRICE_PRECISION
    let rem := mul % PRICE_PRECISION
    if rem = 0 then .ok q
    else
      match checkedAdd q 1 with
      | none => .error .AddOverflow
      | some r => .ok r

theorem PRICE_PRECISION_eq : PRICE_PRECISION = 10 ^ 33 := by decide

theorem calc_quote_floor_eq (base price : Nat) :
    calc_quote_floor base price =
      if base * price < U256LIMIT then .ok (base * price / PRICE_PRECISION)
      else .error .MulOverflow := by
  unfold calc_quote_floor checkedMul
  by_cases h : base * price < U256LIMIT <;> simp [h]

theorem ceil_carry_no_overflow (mul : Nat) (h : mul < U256LIMIT) :
    mul / PRICE_PRECISION + 1 < U256LIMIT := by
  rcases Nat.eq_zero_or_pos mul with h0 | h0
  · subst h0
    decide
  · have hlt : mul / PRICE_PRECISION < mul := Nat.div_lt_self h0 (by decide)
    omega

theorem ceil_div_eq (mul P : Nat) (hP : 0 < P) :
    (mul + P - 1) / P = if mul % P = 0 then mul / P else mul / P + 1 := by
  have hqr : P * (mul / P) + mul % P = mul := Nat.div_add_mod mul P
  have hr : mul % P < P := Nat.mod_lt _ hP
  by_cases h : mul % P = 0
  · have hE : mul + P - 1 = P * (mul / P) + (P - 1) := by omega
    rw [if_pos h, hE, Nat.mul_add_div hP,
      Nat.div_eq_of_lt (show P - 1 < P by omega), Nat.add_zero]
  · have hexp : P * (mul / P + 1) = P * (mul / P) + P := by ring
    have hE : mul + P - 1 = P * (mul / P + 1) + (mul % P - 1) := by omega
    rw [if_neg h, hE, Nat.mul_add_div hP,
      Nat.div_eq_of_lt (show mul % P - 1 < P by omega), Nat.add_zero]

theorem calc_quote_ceil_eq (base price : Nat) :
    calc_quote_ceil base price =
      if base * price < U256LIMIT then
        .ok ((base * price + PRICE_PRECISION - 1) / PRICE_PRECISION)
      else .error .MulOverflow := by
  unfold calc_quote_ceil checkedMul
  by_cases h : base * price < U256LIMIT
  · have hP : (0:Nat) < PRICE_PRECISION := by decide
    rw [ceil_div_eq _ _ hP]
    by_cases hrem : base * price % PRICE_PRECISION = 0
    · simp [h, hrem]
    · simp only [h, if_pos, if_neg hrem, if_true]
      simp only [checkedAdd, ceil_carry_no_overflow _ h, if_pos]
  · simp [h]

/-! ## Matching engine (`matching_engine/src/engine.rs`)

The engine is generic over the `Book` trait; here the trait is a record of
operations over an abstract book type `B` with handle type `H`.  Mutating
trait methods become functions returning the new book.  The Rust `while`
loops are embedded with an explicit fuel argument; `execute` and the two
previews instantiate the fuel so that the source's own counters
(`max_trades`, `scanned`) always terminate the recursion strictly before
fuel runs out. -/

/-- The `Book` trait as a record of capabilities. -/
structure BookOps (B : Type) (H : Type) where
  best_price : B → Side → Option Nat
  next_price : B → Side → Nat → Option Nat
  level_head : B → Side → Nat → Option H
  next_in_level : B → H → Option H
  get_maker : B → H → Option MakerView
  set_maker_remaining : B → H → Nat → B
  set_maker_reserved_quote : B → H → Nat → B
  remove_maker : B → H → B
  insert_resting : B → RestingOrder → B

/-- `crosses`: does a maker price cross the taker limit? -/
def crosses (taker_side : Side) (taker_limit maker_price : Nat) : Bool :=
  match taker_side with
  | .Buy => maker_price ≤ taker_limit
  | .Sell => taker_limit ≤ maker_price

/-- `validate`: pre-validation of an incoming order. -/
def validate (order : IncomingOrder) : Except MatchError Unit :=
  if order.amount_base = 0 then
    .error (.InvalidOrder .ZeroAmountBase)
  else if order.kind ≠ .Market ∧ order.limit_price = 0 then
    .error (.InvalidOrder .ZeroLimitPriceForNonMarket)
  else if order.kind = .Market then
    match order.side with
    | .Buy =>
      if order.max_quote = 0 then .error (.InvalidOrder .ZeroMaxQuoteForMarketBuy)
      else .ok ()
    | .Sell =>
      if order.max_quote ≠ 0 then .error (.InvalidOrder .MaxQuoteOnlyForMarketBuy)
      else .ok ()
  else if order.max_quote ≠ 0 then
    .error (.InvalidOrder .MaxQuoteOnlyForMarketBuy)
  else .ok ()

/-- `validate_maker_view`: consistency checks on a maker read from the book. -/
def validate_maker_view (maker : MakerView) (expected_side : Side)
    (expected_price : Nat) : Except MatchError Unit :=
  if maker.side ≠ expected_side then
    .error (.BrokenBook .MakerSideMismatch)
  else if maker.price ≠ expected_price then
    .error (.BrokenBook .MakerPriceMismatch)
  else if maker.remaining_base = 0 then
    .error (.BrokenBook .MakerZeroRemaining)
  else .ok ()

/-- Inner/outer scan loop of `preview_market_buy_budget_strict`.
`scanned` is the value of the source's counter before the increment at the
top of the loop body. -/
def mbScan {B H : Type} [DecidableEq H] (ops : BookOps B H) (book : B)
    (maxQuote maxScans : Nat) :
    Nat → Nat → H → Nat → Nat → Nat → Except MatchError Unit
  | 0, _, _, _, _, _ => .error (.ScanLimitReached maxScans)
  | fuel + 1, price, h, remaining, required, scanned =>
    let s := scanned + 1
    if s > maxScans then .error (.ScanLimitReached maxScans)
    else
      match ops.get_maker book h with
      | none => .error (.BrokenBook .LevelHeadMissingMaker)
      | some maker =>
        match validate_maker_view maker .Sell price with
        | .error e => .error e
        | .ok _ =>
          let fill := min remaining maker.remaining_base
          match calc_quote_floor fill price with
          | .error e => .error e
          | .ok q =>
            match checkedAdd required q with
            | none => .error .AddOverflow
            | some required' =>
              if required' > maxQuote then .error .MarketBuyMaxQuoteExceeded
              else
                match checkedSub remaining fill with
                | none => .error .SubUnderflow
                | some remaining' =>
                  if remaining' = 0 then .ok ()
                  else
                    match ops.next_in_level book h with
                    | some nxt =>
                      if nxt = h then .error (.BrokenBook .NextInLevelSelfLoop)
                      else mbScan ops book maxQuote maxScans fuel price nxt remaining' required' s
                    | none =>
                      match ops.next_price book .Sell price with
                      | none => .error .MarketBuyInsufficientLiquidity
                      | some np =>
                        if np = price then .error (.BrokenBook .NextPriceDidNotAdvance)
                        else
                          match ops.level_head book .Sell np with
                          | none => .error (.BrokenBook .BestPriceHasNoHead)
                          | some h' =>
                            mbScan ops book maxQuote maxScans fuel np h' remaining' required' s

/-- `preview_market_buy_budget_strict`: strict budget preview for Market Buy. -/
def preview_market_buy_budget_strict {B H : Type} [DecidableEq H]
    (ops : BookOps B H) (book : B) (order : IncomingOrder)
    (limits : EngineLimits) : Except MatchError Unit :=
  if order.kind ≠ .Market ∨ order.side ≠ .Buy then
    .error (.InvalidOrder .PreviewOnlyForMarketBuyBudget)
  else if order.max_quote = 0 then
    .error (.InvalidOrder .ZeroMaxQuoteForMarketBuy)
  else
    match ops.best_price book .Sell with
    | none => .error .MarketBuyInsufficientLiquidity
    | some price =>
      match ops.level_head book .Sell price with
      | none => .error (.BrokenBook .BestPriceHasNoHead)
      | some h =>
        mbScan ops book order.max_quote limits.max_preview_scans
          (limits.max_preview_scans + 1) price h order.amount_base 0 0

/-- Scan loop of `preview_fillable` (FOK fillability preview). -/
def fokScan {B H : Type} [DecidableEq H] (ops : BookOps B H) (book : B)
    (taker_side : Side) (limit maxScanned : Nat) :
    Nat → Nat → H → Nat → Nat → Except MatchError Bool
  | 0, _, _, _, _ => .error (.ScanLimitReached maxScanned)
  | fuel + 1, price, h, remaining, scanned =>
    let s := scanned + 1
    if s > maxScanned then .error (.ScanLimitReached maxScanned)
    else
      match ops.get_maker book h with
      | none => .error (.BrokenBook .LevelHeadMissingMaker)
      | some maker =>
        match validate_maker_view maker taker_side.opposite price with
        | .error e => .error e
        | .ok _ =>
          let fill := min remaining maker.remaining_base
          match checkedSub remaining fill with
          | none => .error .SubUnderflow
          | some remaining' =>
            if remaining' = 0 then .ok true
            else
              match ops.next_in_level book h with
              | some nxt =>
                if nxt = h then .error (.BrokenBook .NextInLevelSelfLoop)
                else fokScan ops book taker_side limit maxScanned fuel price nxt remaining' s
              | none =>
                match ops.next_price book taker_side.opposite price with
                | none => .ok false
                | some np =>
                  if np = price then .error (.BrokenBook .NextPriceDidNotAdvance)
                  else if ¬ crosses taker_side limit np then .ok false
                  else
                    match ops.level_head book taker_side.opposite np with
                    | none => .error (.BrokenBook .BestPriceHasNoHead)
                    | some h' =>
                      fokScan ops book taker_side limit maxScanned fuel np h' remaining' s

/-- `preview_fillable`: FOK fillability preview, mutating nothing. -/
def preview_fillable {B H : Type} [DecidableEq H] (ops : BookOps B H)
    (book : B) (order : IncomingOrder) (maxScanned : Nat) :
    Except MatchError Bool :=
  if order.kind ≠ .FillOrKill then
    .error (.InvalidOrder .PreviewOnlyForFok)
  else
    match ops.best_price book order.side.opposite with
    | none => .ok false
    | some price =>
      if ¬ crosses order.side order.limit_price price then .ok false
      else
        match ops.level_head book order.side.opposite price with
        | none => .error (.BrokenBook .BestPriceHasNoHead)
        | some h =>
          fokScan ops book order.side order.limit_price maxScanned
            (maxScanned + 1) price h order.amount_base 0

/-- The matching loop of `execute`.  The pair returned carries the book as
it stands when the loop stops, also on error: the Rust engine mutates the
book in place through `&mut`, so mutations made before an in-loop error
persist.  The `.ok` payload is `(trades, remaining, remaining_quote)`. -/
def execLoop {B H : Type} [DecidableEq H] (ops : BookOps B H)
    (order : IncomingOrder) (limits : EngineLimits)
    (isStrictMB trackLBQ : Bool) (maker_side : Side) :
    Nat → B → Nat → List Trade → Nat → Nat →
      B × Except MatchError (List Trade × Nat × Nat)
  | 0, book, _, _, _, _ => (book, .error (.TradeLimitReached limits.max_trades))
  | fuel + 1, book, remaining, trades, spent_quote, remaining_quote =>
    if remaining = 0 then (book, .ok (trades, remaining, remaining_quote))
    else if trades.length ≥ limits.max_trades then
      (book, .error (.TradeLimitReached limits.max_trades))
    else
      match ops.best_price book maker_side with
      | none => (book, .ok (trades, remaining, remaining_quote))
      | some price =>
        if order.kind ≠ .Market ∧ ¬ crosses order.side order.limit_price price then
          (book, .ok (trades, remaining, remaining_quote))
        else
          match ops.level_head book maker_side price with
          | none => (book, .error (.BrokenBook .BestPriceHasNoHead))
          | some h =>
            match ops.get_maker book h with
            | none => (book, .error (.BrokenBook .LevelHeadMissingMaker))
            | some maker =>
              match validate_maker_view maker maker_side price with
              | .error e => (book, .error e)
              | .ok _ =>
                let fill := min remaining maker.remaining_base
                match calc_quote_floor fill price with
                | .error e => (book, .error e)
                | .ok quote =>
                  let spentE : Except MatchError Nat :=
                    if isStrictMB then
                      match checkedAdd spent_quote quote with
                      | none => .error .AddOverflow
                      | some sq =>
                        if sq > order.max_quote then
                          .error .MarketBuyBudgetCheckInconsistent
                        else .ok sq
                    else .ok spent_quote
                  match spentE with
                  | .error e => (book, .error e)
                  | .ok spent' =>
                    let rqE : Except MatchError Nat :=
                      if trackLBQ then
                        match checkedSub remaining_quote quote with
                        | none => .error .SubUnderflow
                        | some rq => .ok rq
                      else .ok remaining_quote
                    match rqE with
                    | .error e => (book, .error e)
                    | .ok rq' =>
                      let tr : Trade :=
                        { maker_order_id := maker.id, taker_order_id := order.id,
                          maker := maker.owner, taker := order.owner,
                          price := price, amount_base := fill, amount_quote := quote }
                      match checkedSub maker.remaining_base fill with
                      | none => (book, .error .SubUnderflow)
                      | some maker_new =>
                        let updE : Except MatchError B :=
                          if maker.side = .Buy then
                            match checkedSub maker.reserved_quote quote with
                            | none => .error .SubUnderflow
                            | some new_rq =>
                              .ok (ops.set_maker_reserved_quote book h new_rq)
                          else .ok book
                        match updE with
                        | .error e => (book, .error e)
                        | .ok book1 =>
                          let book2 :=
                            if maker_new = 0 then ops.remove_maker book1 h
                            else ops.set_maker_remaining book1 h maker_new
                          match checkedSub remaining fill with
                          | none => (book2, .error .SubUnderflow)
                          | some remaining2 =>
                            execLoop ops order limits isStrictMB trackLBQ maker_side
                              fuel book2 remaining2 (trades ++ [tr]) spent' rq'

/-- Finalization of `execute` after the matching loop. -/
def execFinalize {B H : Type} (ops : BookOps B H) (order : IncomingOrder)
    (isStrictMB trackLBQ : Bool) (book : B)
    (trades : List Trade) (remaining remaining_quote : Nat) :
    B × Except MatchError ExecutionReport :=
  if isStrictMB ∧ remaining ≠ 0 then
    (book, .error .MarketBuyLiquidityCheckInconsistent)
  else if remaining = 0 then
    (book, .ok { trades := trades, completion := .Filled })
  else
    match order.kind with
    | .Limit =>
      let rq := if trackLBQ then remaining_quote else 0
      let book' := ops.insert_resting book
        { id := order.id, owner := order.owner, side := order.side,
          price := order.limit_price, remaining_base := remaining,
          remaining_quote := rq }
      (book', .ok { trades := trades, completion := .Placed remaining rq })
    | .Market =>
      (book, .ok { trades := trades, completion := .Cancelled remaining })
    | .ImmediateOrCancel =>
      (book, .ok { trades := trades, completion := .Cancelled remaining })
    | .FillOrKill => (book, .error .FokCheckInconsistent)

/-- Phase of `execute` after validation and previews: set up the Limit-Buy
quote tracker, run the matching loop, finalize. -/
def execRun {B H : Type} [DecidableEq H] (ops : BookOps B H) (book : B)
    (order : IncomingOrder) (limits : EngineLimits) :
    B × Except MatchError ExecutionReport :=
  let isStrictMB : Bool := decide (order.kind = .Market ∧ order.side = .Buy)
  let trackLBQ : Bool := decide (order.kind = .Limit ∧ order.side = .Buy)
  let rq0E : Except MatchError Nat :=
    if trackLBQ then calc_quote_ceil order.amount_base order.limit_price
    else .ok 0
  match rq0E with
  | .error e => (book, .error e)
  | .ok rq0 =>
    match execLoop ops order limits isStrictMB trackLBQ order.side.opposite
        (limits.max_trades + 1) book order.amount_base [] 0 rq0 with
    | (book', .error e) => (book', .error e)
    | (book', .ok (trades, remaining, rqf)) =>
      execFinalize ops order isStrictMB trackLBQ book' trades remaining rqf

/-- `execute`: validation, previews, matching loop, finalization.
Returns the (possibly mutated) book together with the report or error. -/
def execute {B H : Type} [DecidableEq H] (ops : BookOps B H) (book : B)
    (order : IncomingOrder) (limits : EngineLimits) :
    B × Except MatchError ExecutionReport :=
  match validate order with
  | .error e => (book, .error e)
  | .ok _ =>
    let isStrictMB : Bool := decide (order.kind = .Market ∧ order.side = .Buy)
    let afterMB : Except MatchError Unit :=
      if isStrictMB then preview_market_buy_budget_strict ops book order limits
      else .ok ()
    match afterMB with
    | .error e => (book, .error e)
    | .ok _ =>
      if order.kind = .FillOrKill then
        match preview_fillable ops book order limits.max_preview_scans with
        | .error e => (book, .error e)
        | .ok false =>
          (book, .ok { trades := [], completion := .Rejected })
        | .ok true => execRun ops book order limits
      else execRun ops book order limits

/-! ## Concrete order book (`programs/orderbook/src/orderbook.rs`)

The production book keeps one `BTreeMap<U256, PriceLevel>` per side (asks
ascending, bids descending-best) with a FIFO intrusive list per level.  It
is embedded as association lists sorted ascending by price whose values
are the FIFO queues, with `(side, price, index)` handles — the observable
ladder semantics of `OrderBook` (and the very handle shape the repository
itself uses for the engine's reference book in `matching_engine/src/tests.rs`). -/

/-- A price level: the FIFO queue of makers at one price. -/
abbrev Ladder := List (Nat × List MakerView)

/-- Handle pointing at `(side, price level, index within FIFO)`. -/
structure LHandle where
  side : Side
  price : Nat
  idx : Nat
deriving DecidableEq, Repr

/-- The two ladders of the book; both kept ascending by price
(the `BTreeMap` iteration order). -/
structure LBook where
  asks : Ladder
  bids : Ladder
deriving DecidableEq, Repr

/-- First (and under sortedness only) level entry with the given price. -/
def lookupLevel : Ladder → Nat → Option (List MakerView)
  | [], _ => none
  | (k, v) :: t, p => if k = p then some v else lookupLevel t p

/-- Keys of a ladder. -/
def keysOf (lad : Ladder) : List Nat := lad.map Prod.fst

/-- Ladder of one side. -/
def sideMap (b : LBook) : Side → Ladder
  | .Buy => b.bids
  | .Sell => b.asks

/-- Rebuild the book with one side's ladder transformed. -/
def mapSide (b : LBook) (s : Side) (f : Ladder → Ladder) : LBook :=
  match s with
  | .Buy => { b with bids := f b.bids }
  | .Sell => { b with asks := f b.asks }

/-- Modify the `i`-th maker of the level at price `p` in place
(no-op when the level or index is missing), mirroring `arena.get_mut`. -/
def modifyLevelAt (lad : Ladder) (p i : Nat) (f : MakerView → MakerView) : Ladder :=
  match lad with
  | [] => []
  | (k, v) :: t =>
    if k = p then
      match v[i]? with
      | none => (k, v) :: t
      | some mk => (k, v.set i (f mk)) :: t
    else (k, v) :: modifyLevelAt t p i f

/-- Remove the `i`-th maker of the level at price `p`, dropping the level
when it becomes empty (`remove_by_handle`). -/
def eraseLevelAt (lad : Ladder) (p i : Nat) : Ladder :=
  match lad with
  | [] => []
  | (k, v) :: t =>
    if k = p then
      (let v' := v.eraseIdx i
       if v' = [] then t else (k, v') :: t)
    else (k, v) :: eraseLevelAt t p i

/-- `push_maker`: append to the FIFO of the maker's price level, creating
the level (at its sorted `BTreeMap` position) when absent. -/
def pushMaker (lad : Ladder) (p : Nat) (mk : MakerView) : Ladder :=
  match lad with
  | [] => [(p, [mk])]
  | (k, v) :: t =>
    if p < k then (p, [mk]) :: (k, v) :: t
    else if p = k then (k, v ++ [mk]) :: t
    else (k, v) :: pushMaker t p mk

/-- `get_maker` on the concrete book. -/
def lGetMaker (b : LBook) (h : LHandle) : Option MakerView :=
  match lookupLevel (sideMap b h.side) h.price with
  | none => none
  | some l => l[h.idx]?

/-- `Book` instance of the concrete order book. -/
def lbOps : BookOps LBook LHandle where
  best_price := fun b s =>
    match s with
    | .Buy => (keysOf b.bids).getLast?
    | .Sell => (keysOf b.asks).head?
  next_price := fun b s p =>
    match s with
    | .Buy => ((keysOf b.bids).filter (fun k => k < p)).getLast?
    | .Sell => ((keysOf b.asks).filter (fun k => p < k)).head?
  level_head := fun b s p =>
    match lookupLevel (sideMap b s) p with
    | none => none
    | some [] => none
    | some (_ :: _) => some ⟨s, p, 0⟩
  next_in_level := fun b h =>
    match lookupLevel (sideMap b h.side) h.price with
    | none => none
    | some l =>
      if h.idx + 1 < l.length then some ⟨h.side, h.price, h.idx + 1⟩ else none
  get_maker := lGetMaker
  set_maker_remaining := fun b h v =>
    mapSide b h.side fun lad =>
      modifyLevelAt lad h.price h.idx (fun mk => { mk with remaining_base := v })
  set_maker_reserved_quote := fun b h v =>
    mapSide b h.side fun lad =>
      modifyLevelAt lad h.price h.idx (fun mk => { mk with reserved_quote := v })
  remove_maker := fun b h =>
    match lGetMaker b h with
    | none => b
    | some _ => mapSide b h.side fun lad => eraseLevelAt lad h.price h.idx
  insert_resting := fun b o =>
    mapSide b o.side fun lad =>
      pushMaker lad o.price
        { id := o.id, owner := o.owner, side := o.side, price := o.price,
          remaining_base := o.remaining_base, reserved_quote := o.remaining_quote }

/-- Well-formedness of one level entry: non-empty FIFO, makers carry the
ladder's side and the level's price, positive remaining, and Sell makers
reserve no quote. -/
def levelOK (side : Side) (e : Nat × List MakerView) : Prop :=
  e.2 ≠ [] ∧ ∀ mk ∈ e.2, mk.side = side ∧ mk.price = e.1 ∧
    0 < mk.remaining_base ∧ (side = .Sell → mk.reserved_quote = 0)

instance (side : Side) (e : Nat × List MakerView) : Decidable (levelOK side e) := by
  unfold levelOK
  infer_instance

/-- Well-formedness of a ladder: strictly ascending distinct prices and
well-formed levels. -/
def ladderWF (side : Side) (lad : Ladder) : Prop :=
  (keysOf lad).Chain' (· < ·) ∧ ∀ e ∈ lad, levelOK side e

instance (side : Side) (lad : Ladder) : Decidable (ladderWF side lad) := by
  unfold ladderWF
  infer_instance

/-- Well-formedness of the whole book (the `BTreeMap`/arena invariants). -/
def LBook.WF (b : LBook) : Prop := ladderWF .Sell b.asks ∧ ladderWF .Buy b.bids

instance (b : LBook) : Decidable b.WF := by
  unfold LBook.WF
  infer_instance

/-! ## Accounts and settlement (`programs/orderbook/src/state.rs`) -/

/-- `AccountBalances`: per-account free balances of the two assets. -/
structure AccountBalances where
  base : Nat
  quote : Nat
deriving DecidableEq, Repr

/-- `Default::default()` for balances. -/
def zeroBal : AccountBalances := { base := 0, quote := 0 }

/-- `HashMap<ActorId, AccountBalances>` as an association list. -/
abbrev BalMap := List (Nat × AccountBalances)

/-- Read a balance; the `entry(..).or_default()` view of an absent key. -/
def getBal : BalMap → Nat → AccountBalances
  | [], _ => zeroBal
  | (k, v) :: t, who => if k = who then v else getBal t who

/-- Write a balance back: replace the first entry of the key, appending a
fresh entry when absent (the net effect of `entry(..).or_default()`
followed by mutation). -/
def setBal : BalMap → Nat → AccountBalances → BalMap
  | [], who, v => [(who, v)]
  | (k, w) :: t, who, v =>
    if k = who then (k, v) :: t else (k, w) :: setBal t who v

/-- `Asset`. -/
inductive Asset where
  | Base
  | Quote
deriving DecidableEq, Repr

/-- The orderbook program state (the fields the claims concern). -/
structure State where
  next_order_id : Nat
  balances : BalMap
deriving DecidableEq, Repr

/-- `alloc_order_id`: returns the current id and saturating-increments the
64-bit counter. -/
def alloc_order_id (st : State) : Nat × State :=
  (st.next_order_id, { st with next_order_id := min (st.next_order_id + 1) (2 ^ 64 - 1) })

/-- `lock`: debit an account's free balance (`none` models the
`expect("insufficient ...")` panic). -/
def lock (st : State) (who : Nat) (asset : Asset) (amount : Nat) : Option State :=
  if amount = 0 then some st
  else
    let b := getBal st.balances who
    match asset with
    | .Base =>
      match checkedSub b.base amount with
      | none => none
      | some nb => some { st with balances := setBal st.balances who { b with base := nb } }
    | .Quote =>
      match checkedSub b.quote amount with
      | none => none
      | some nq => some { st with balances := setBal st.balances who { b with quote := nq } }

/-- `unlock`: credit an account's free balance (`none` models the
`expect("... overflow")` panic). -/
def unlock (st : State) (who : Nat) (asset : Asset) (amount : Nat) : Option State :=
  if amount = 0 then some st
  else
    let b := getBal st.balances who
    match asset with
    | .Base =>
      match checkedAdd b.base amount with
      | none => none
      | some nb => some { st with balances := setBal st.balances who { b with base := nb } }
    | .Quote =>
      match checkedAdd b.quote amount with
      | none => none
      | some nq => some { st with balances := setBal st.balances who { b with quote := nq } }

/-- `lock_taker_funds`: escrow the taker's spendable asset before
execution, returning `(state, locked_base, locked_quote)`. -/
def lock_taker_funds (st : State) (order : IncomingOrder) :
    Option (State × Nat × Nat) :=
  match order.side with
  | .Sell =>
    match lock st order.owner .Base order.amount_base with
    | none => none
    | some st' => some (st', order.amount_base, 0)
  | .Buy =>
    let lqO : Option Nat :=
      match order.kind with
      | .Market => some order.max_quote
      | _ => (calc_quote_ceil order.amount_base order.limit_price).toOption
    match lqO with
    | none => none
    | some lq =>
      match lock st order.owner .Quote lq with
      | none => none
      | some st' => some (st', 0, lq)

/-- Trade-crediting fold of `settle_execution`: credits taker and maker of
every trade and accumulates the taker's spent quote and base with checked
adds.  Returns `(state, taker_spent_quote, taker_spent_base)`. -/
def settleLoop (taker_side : Side) :
    List Trade → State → Nat → Nat → Option (State × Nat × Nat)
  | [], st, spent_q, spent_b => some (st, spent_q, spent_b)
  | tr :: rest, st, spent_q, spent_b =>
    let accO : Option (Nat × Nat) :=
      match taker_side with
      | .Buy => (checkedAdd spent_q tr.amount_quote).map (fun x => (x, spent_b))
      | .Sell => (checkedAdd spent_b tr.amount_base).map (fun x => (spent_q, x))
    match accO with
    | none => none
    | some (sq, sb) =>
      let credTaker : Option State :=
        match taker_side with
        | .Buy => unlock st tr.taker .Base tr.amount_base
        | .Sell => unlock st tr.taker .Quote tr.amount_quote
      match credTaker with
      | none => none
      | some st1 =>
        let credMaker : Option State :=
          match taker_side.opposite with
          | .Sell => unlock st1 tr.maker .Quote tr.amount_quote
          | .Buy => unlock st1 tr.maker .Base tr.amount_base
        match credMaker with
        | none => none
        | some st2 => settleLoop taker_side rest st2 sq sb

/-- `settle_execution`: apply trade credits, then refund or unlock the
taker's leftovers according to the completion. -/
def settle_execution (st : State) (order : IncomingOrder)
    (rep : ExecutionReport) (locked_base locked_quote : Nat) : Option State :=
  match settleLoop order.side rep.trades st 0 0 with
  | none => none
  | some (st1, spent_q, _spent_b) =>
    match rep.completion with
    | .Rejected =>
      match unlock st1 order.owner .Base locked_base with
      | none => none
      | some st2 => unlock st2 order.owner .Quote locked_quote
    | .Cancelled remaining_base =>
      match order.side with
      | .Sell => unlock st1 order.owner .Base remaining_base
      | .Buy =>
        match checkedSub locked_quote spent_q with
        | none => none
        | some refund => unlock st1 order.owner .Quote refund
    | .Filled =>
      if order.side = .Buy then
        match checkedSub locked_quote spent_q with
        | none => none
        | some extra => unlock st1 order.owner .Quote extra
      else some st1
    | .Placed _ rq =>
      match order.side with
      | .Sell => some st1
      | .Buy =>
        match checkedAdd spent_q rq with
        | none => none
        | some used =>
          match checkedSub locked_quote used with
          | none => none
          | some extra => unlock st1 order.owner .Quote extra

/-! ## Arena (`libraries/intrusive_arena/src/arena.rs`) -/

/-- Arena slot. -/
inductive Entry (T : Type) where
  | Occupied (val : T)
  | Free (next : Option Nat)
deriving DecidableEq, Repr

/-- Generational-free-list slab. -/
structure Arena (T : Type) where
  storage : List (Entry T)
  free_head : Option Nat
deriving DecidableEq, Repr

/-- `Arena::alloc`: reuse the free-list head, else append.  `none` models
the corruption / u32-overflow panics. -/
def Arena.alloc {T : Type} (a : Arena T) (value : T) : Option (Arena T × Nat) :=
  match a.free_head with
  | some idx =>
    match a.storage[idx]? with
    | none => none
    | some (.Free next) =>
      some ({ storage := a.storage.set idx (.Occupied value), free_head := next }, idx)
    | some (.Occupied _) => none
  | none =>
    if a.storage.length < 2 ^ 32 then
      some ({ storage := a.storage ++ [.Occupied value], free_head := none },
        a.storage.length)
    else none

/-- `Arena::get`. -/
def Arena.get {T : Type} (a : Arena T) (index : Nat) : Option T :=
  match a.storage[index]? with
  | some (.Occupied v) => some v
  | _ => none

/-- `Arena::remove`: swap the slot with `Free(free_head)`; push onto the
free list when it was occupied, restore it unchanged when it was already
free.  Out-of-bounds reads return "not present" without mutation. -/
def Arena.remove {T : Type} (a : Arena T) (index : Nat) : Option T × Arena T :=
  match a.storage[index]? with
  | none => (none, a)
  | some (.Occupied val) =>
    (some val,
      { storage := a.storage.set index (.Free a.free_head), free_head := some index })
  | some (.Free next) =>
    (none, { a with storage := a.storage.set index (.Free next) })

/-! ## Order-id allocation sequences -/

/-- Run `alloc_order_id` a number of times, collecting the returned ids. -/
def allocSeq : State → Nat → List Nat × State
  | st, 0 => ([], st)
  | st, n + 1 =>
    let p := alloc_order_id st
    let q := allocSeq p.2 n
    (p.1 :: q.1, q.2)

theorem alloc_order_id_lt (st : State)
    (h : st.next_order_id + 1 ≤ 2 ^ 64 - 1) :
    (alloc_order_id st).2.next_order_id = st.next_order_id + 1 := by
  simp only [alloc_order_id]
  omega

theorem allocSeq_ids (st : State) (n : Nat)
    (h : st.next_order_id + n ≤ 2 ^ 64 - 1) :
    (allocSeq st n).1 = List.range' st.next_order_id n := by
  induction n generalizing st with
  | zero => rfl
  | succ n ih =>
    have h1 : st.next_order_id + 1 ≤ 2 ^ 64 - 1 := by omega
    have hnext : (alloc_order_id st).2.next_order_id = st.next_order_id + 1 :=
      alloc_order_id_lt st h1
    have ih' := ih (alloc_order_id st).2 (by omega)
    have key : (allocSeq st (n + 1)).1 =
        st.next_order_id :: (allocSeq (alloc_order_id st).2 n).1 := rfl
    rw [key, ih', hnext, List.range'_succ]

/-! ## Theorems for the frozen claims: C2, C8, C9 -/

/-- C2: the claim fixes the system-wide precision at `P = 10 ^ 30`, as does
the comment directly above the constant in `math.rs`; the constant actually
written there has 33 zeros.  At `base = 10 ^ 33`, `price = 1` the code
returns `floor(10 ^ 33 / 10 ^ 33) = 1` while the claimed semantics
`floor(base * price / 10 ^ 30)` gives `1000`; the ceil version diverges the
same way.  (The floor/ceil/`MulOverflow` behaviour relative to the
constant the code actually uses is characterised by `calc_quote_floor_eq`
and `calc_quote_ceil_eq`.) -/
theorem spec_C2_precision_code_bug :
    PRICE_PRECISION = 10 ^ 33 ∧ PRICE_PRECISION ≠ 10 ^ 30 ∧
    calc_quote_floor (10 ^ 33) 1 = .ok 1 ∧
    (10 ^ 33 * 1) / 10 ^ 30 = 1000 ∧
    calc_quote_ceil (10 ^ 33 + 1) 1 = .ok 2 ∧
    ((10 ^ 33 + 1) * 1 + 10 ^ 30 - 1) / 10 ^ 30 = 1001 := by
  refine ⟨by decide, by decide, ?_, by decide, ?_, by decide⟩
  · rfl
  · rfl

/-- C8 (counterexample): from a state whose 64-bit counter has saturated,
two consecutive calls of `alloc_order_id` return the same id, so the
returned ids are not strictly increasing and an id is reused. -/
theorem spec_C8_counterexample :
    (allocSeq { next_order_id := 2 ^ 64 - 1, balances := [] } 2).1 =
      [2 ^ 64 - 1, 2 ^ 64 - 1] ∧
    ¬ (allocSeq { next_order_id := 2 ^ 64 - 1, balances := [] } 2).1.Chain'
        (· < ·) := by
  constructor
  · rfl
  · intro h
    have hl : (allocSeq { next_order_id := 2 ^ 64 - 1, balances := [] } 2).1 =
        [2 ^ 64 - 1, 2 ^ 64 - 1] := rfl
    rw [hl] at h
    exact absurd (List.chain'_cons.mp h).1 (lt_irrefl _)

/-- C8 (amended): as long as the 64-bit counter does not saturate, a
sequence of `n` calls of `alloc_order_id` returns the consecutive ids
`next_order_id, next_order_id + 1, …`, which are strictly increasing and
contain no duplicate, so no id is allocated twice before the counter
reaches `2 ^ 64 - 1`. -/
theorem spec_C8_alloc_monotone (st : State) (n : Nat)
    (h : st.next_order_id + n ≤ 2 ^ 64 - 1) :
    (allocSeq st n).1 = List.range' st.next_order_id n ∧
    (allocSeq st n).1.Chain' (· < ·) ∧ (allocSeq st n).1.Nodup := by
  have hids := allocSeq_ids st n h
  refine ⟨hids, ?_, ?_⟩
  · rw [hids]
    exact (List.pairwise_lt_range' ..).chain'
  · rw [hids]
    exact List.nodup_range' _ _

/-- C8 witness. -/
theorem spec_C8_alloc_monotone_witness :
    (allocSeq { next_order_id := 5, balances := [] } 3).1 = List.range' 5 3 ∧
    (allocSeq { next_order_id := 5, balances := [] } 3).1.Chain' (· < ·) ∧
    (allocSeq { next_order_id := 5, balances := [] } 3).1.Nodup :=
  spec_C8_alloc_monotone { next_order_id := 5, balances := [] } 3 (by decide)

/-- C9: once `remove i` has freed slot `i`, a second `remove i` returns
`none` and leaves the arena — storage and free list — exactly as it was,
and an `alloc` performed right after the successful `remove i` reuses the
same index `i` (LIFO). -/
theorem spec_C9_arena_remove_idem_lifo (T : Type) (a : Arena T) (i : Nat)
    (v x : T) (h : (a.remove i).1 = some v) :
    ((a.remove i).2.remove i) = (none, (a.remove i).2) ∧
    ((a.remove i).2.alloc x).map Prod.snd = some i := by
  rcases heq : a.storage[i]? with - | e
  · exfalso
    simp [Arena.remove, heq] at h
  · rcases e with val | nxt
    · have hi : i < a.storage.length := by
        have := List.getElem?_eq_some_iff.mp heq
        exact this.1
      have hrm : a.remove i = (some val,
          { storage := a.storage.set i (.Free a.free_head),
            free_head := some i }) := by
        simp only [Arena.remove, heq]
      have hset : (a.storage.set i (Entry.Free a.free_head))[i]? =
          some (Entry.Free a.free_head) := List.getElem?_set_self hi
      constructor
      · rw [hrm]
        simp only [Arena.remove, hset, List.set_set]
      · rw [hrm]
        simp only [Arena.alloc, hset, Option.map]
    · exfalso
      simp [Arena.remove, heq] at h

/-- A concrete two-slot arena used in the C9 witness. -/
def arenaEx : Arena Nat :=
  { storage := [Entry.Occupied 5, Entry.Occupied 7], free_head := none }

/-- C9 witness. -/
theorem spec_C9_arena_witness :
    ((arenaEx.remove 0).2.remove 0) = (none, (arenaEx.remove 0).2) ∧
    ((arenaEx.remove 0).2.alloc 9).map Prod.snd = some 0 :=
  spec_C9_arena_remove_idem_lifo Nat arenaEx 0 5 9 rfl

/-! ## Balance-map lemmas -/

theorem getBal_setBal (m : BalMap) (who : Nat) (v : AccountBalances) :
    getBal (setBal m who v) who = v := by
  induction m with
  | nil => simp [setBal, getBal]
  | cons e t ih =>
    by_cases h : e.1 = who
    · simp [setBal, getBal, h]
    · simp [setBal, getBal, h, ih]

theorem setBal_setBal (m : BalMap) (who : Nat) (v w : AccountBalances) :
    setBal (setBal m who v) who w = setBal m who w := by
  induction m with
  | nil => simp [setBal]
  | cons e t ih =>
    by_cases h : e.1 = who
    · simp [setBal, h]
    · simp [setBal, h, ih]

theorem getBal_not_present (m : BalMap) (who : Nat)
    (h : who ∉ m.map Prod.fst) : getBal m who = zeroBal := by
  induction m with
  | nil => rfl
  | cons e t ih =>
    simp only [List.map_cons, List.mem_cons] at h
    push_neg at h
    simp only [getBal]
    rw [if_neg (fun he => h.1 he.symm)]
    exact ih h.2

theorem setBal_getBal_self (m : BalMap) (who : Nat)
    (h : who ∈ m.map Prod.fst) : setBal m who (getBal m who) = m := by
  induction m with
  | nil => simp at h
  | cons e t ih =>
    by_cases he : e.1 = who
    · subst he
      simp [setBal, getBal]
    · simp only [List.map_cons, List.mem_cons] at h
      rcases h with h | h
      · exact absurd h.symm he
      · simp only [setBal, getBal, if_neg he]
        rw [ih h]

/-- The U256 type invariant of the ledger: stored balances fit in 256 bits. -/
def BalWF (m : BalMap) : Prop :=
  ∀ e ∈ m, e.2.base < U256LIMIT ∧ e.2.quote < U256LIMIT

theorem getBal_bounds (m : BalMap) (who : Nat) (h : BalWF m) :
    (getBal m who).base < U256LIMIT ∧ (getBal m who).quote < U256LIMIT := by
  induction m with
  | nil =>
    constructor
    · show (0 : Nat) < U256LIMIT
      decide
    · show (0 : Nat) < U256LIMIT
      decide
  | cons e t ih =>
    simp only [getBal]
    by_cases he : e.1 = who
    · rw [if_pos he]
      exact h e (List.mem_cons_self ..)
    · rw [if_neg he]
      exact ih (fun x hx => h x (List.mem_cons_of_mem _ hx))

theorem unlock_zero (st : State) (who : Nat) (a : Asset) :
    unlock st who a 0 = some st := rfl

/-- Unlocking exactly what a successful lock debited restores the state
verbatim. -/
theorem lock_unlock_restore (st st₁ : State) (who : Nat) (a : Asset)
    (x : Nat) (hBW : BalWF st.balances)
    (hlock : lock st who a x = some st₁) :
    unlock st₁ who a x = some st := by
  by_cases hx : x = 0
  · subst hx
    have hl : lock st who a 0 = some st := rfl
    rw [hl] at hlock
    simp only [Option.some.injEq] at hlock
    subst hlock
    rfl
  · have hbound := getBal_bounds st.balances who hBW
    rcases hg : getBal st.balances who with ⟨gb, gq⟩
    rw [hg] at hbound
    rcases a with - | -
    · simp only [lock, if_neg hx, hg, checkedSub] at hlock
      by_cases hle : x ≤ gb
      · rw [if_pos hle] at hlock
        simp only [Option.some.injEq] at hlock
        subst hlock
        have hwho : who ∈ st.balances.map Prod.fst := by
          by_contra habs
          rw [getBal_not_present _ _ habs] at hg
          simp only [zeroBal, AccountBalances.mk.injEq] at hg
          omega
        simp only [unlock, if_neg hx, getBal_setBal, checkedAdd]
        rw [show gb - x + x = gb from by omega, if_pos hbound.1]
        split
        · next heq => exact absurd heq (by simp)
        · next nb heq =>
            obtain rfl : nb = gb := (Option.some.inj heq).symm
            simp only [Option.some.injEq]
            rw [setBal_setBal, ← hg, setBal_getBal_self _ _ hwho]
      · rw [if_neg hle] at hlock
        exact Option.noConfusion hlock
    · simp only [lock, if_neg hx, hg, checkedSub] at hlock
      by_cases hle : x ≤ gq
      · rw [if_pos hle] at hlock
        simp only [Option.some.injEq] at hlock
        subst hlock
        have hwho : who ∈ st.balances.map Prod.fst := by
          by_contra habs
          rw [getBal_not_present _ _ habs] at hg
          simp only [zeroBal, AccountBalances.mk.injEq] at hg
          omega
        simp only [unlock, if_neg hx, getBal_setBal, checkedAdd]
        rw [show gq - x + x = gq from by omega, if_pos hbound.2]
        split
        · next heq => exact absurd heq (by simp)
        · next nq heq =>
            obtain rfl : nq = gq := (Option.some.inj heq).symm
            simp only [Option.some.injEq]
            rw [setBal_setBal, ← hg, setBal_getBal_self _ _ hwho]
      · rw [if_neg hle] at hlock
        exact Option.noConfusion hlock

/-- C4: FOK atomicity.  For a FillOrKill order that passes validation and
whose fillability preview returns `false`, `execute` returns the empty
`Rejected` report with the book untouched, and settling that report after
`lock_taker_funds` gives back exactly the original balance state. -/
theorem spec_C4_fok_atomicity {B H : Type} [DecidableEq H] (ops : BookOps B H)
    (book : B) (order : IncomingOrder) (limits : EngineLimits)
    (st st₁ : State) (lb lq : Nat)
    (hkind : order.kind = .FillOrKill)
    (hval : validate order = .ok ())
    (hprev : preview_fillable ops book order limits.max_preview_scans = .ok false)
    (hBW : BalWF st.balances)
    (hlock : lock_taker_funds st order = some (st₁, lb, lq)) :
    execute ops book order limits =
      (book, .ok { trades := [], completion := .Rejected }) ∧
    settle_execution st₁ order { trades := [], completion := .Rejected } lb lq =
      some st := by
  constructor
  · simp [execute, hval, hkind, hprev]
  · rcases hside : order.side with - | -
    · -- Buy: locked_base = 0, locked_quote = lq
      simp only [lock_taker_funds, hside] at hlock
      rcases hlqO : (match order.kind with
          | OrderKind.Market => some order.max_quote
          | _ => (calc_quote_ceil order.amount_base order.limit_price).toOption) with
        - | lqv
      · rw [hlqO] at hlock
        exact Option.noConfusion hlock
      · rw [hlqO] at hlock
        have hlock' : (match lock st order.owner Asset.Quote lqv with
            | none => none
            | some st' => some (st', (0 : Nat), lqv)) = some (st₁, lb, lq) := hlock
        rcases hl : lock st order.owner .Quote lqv with - | st'
        · rw [hl] at hlock'
          exact Option.noConfusion hlock'
        · rw [hl] at hlock'
          simp only [Option.some.injEq, Prod.mk.injEq] at hlock'
          obtain ⟨rfl, rfl, rfl⟩ := hlock'
          have hrest := lock_unlock_restore st st' order.owner .Quote lqv hBW hl
          simp only [settle_execution, settleLoop, unlock_zero]
          exact hrest
    · -- Sell: locked_base = amount_base, locked_quote = 0
      simp only [lock_taker_funds, hside] at hlock
      rcases hl : lock st order.owner .Base order.amount_base with - | st'
      · rw [hl] at hlock
        exact Option.noConfusion hlock
      · rw [hl] at hlock
        simp only [Option.some.injEq, Prod.mk.injEq] at hlock
        obtain ⟨rfl, rfl, rfl⟩ := hlock
        have hrest := lock_unlock_restore st st' order.owner .Base
          order.amount_base hBW hl
        simp only [settle_execution, settleLoop, hrest, unlock_zero]

/-! ## Classification of engine errors

The errors `InvalidOrder`, `ScanLimitReached`, `MarketBuyMaxQuoteExceeded`
and `MarketBuyInsufficientLiquidity` can only be produced by validation or
the two previews, which run before the mutation loop; the loop itself
never constructs them. -/

/-- Errors that only arise before the mutation loop of `execute`. -/
def isPreLoopError : MatchError → Bool
  | .InvalidOrder _ => true
  | .ScanLimitReached _ => true
  | .MarketBuyMaxQuoteExceeded => true
  | .MarketBuyInsufficientLiquidity => true
  | _ => false

theorem validate_maker_view_error (m : MakerView) (s : Side) (p : Nat)
    (e : MatchError) (h : validate_maker_view m s p = .error e) :
    isPreLoopError e = false := by
  unfold validate_maker_view at h
  split at h
  · exact (Except.error.inj h) ▸ rfl
  · split at h
    · exact (Except.error.inj h) ▸ rfl
    · split at h
      · exact (Except.error.inj h) ▸ rfl
      · exact Except.noConfusion h

theorem calc_quote_floor_error (a b : Nat) (e : MatchError)
    (h : calc_quote_floor a b = .error e) : isPreLoopError e = false := by
  unfold calc_quote_floor at h
  split at h
  · exact (Except.error.inj h) ▸ rfl
  · exact Except.noConfusion h

theorem calc_quote_ceil_error (a b : Nat) (e : MatchError)
    (h : calc_quote_ceil a b = .error e) : isPreLoopError e = false := by
  rw [calc_quote_ceil_eq] at h
  split at h
  · exact Except.noConfusion h
  · exact (Except.error.inj h) ▸ rfl

theorem spentE_error (c : Bool) (a b mq d : Nat) (e : MatchError)
    (h : (if c = true then
        match checkedAdd a b with
        | none => Except.error MatchError.AddOverflow
        | some sq =>
          if sq > mq then Except.error MatchError.MarketBuyBudgetCheckInconsistent
          else Except.ok sq
      else Except.ok d) = .error e) : isPreLoopError e = false := by
  split at h
  · split at h
    · exact (Except.error.inj h) ▸ rfl
    · split at h
      · exact (Except.error.inj h) ▸ rfl
      · exact Except.noConfusion h
  · exact Except.noConfusion h

theorem ifMatchSub_error {α : Type} (c : Bool) (a b : Nat) (f : Nat → α)
    (d : α) (e : MatchError)
    (h : (if c = true then
        match checkedSub a b with
        | none => Except.error MatchError.SubUnderflow
        | some r => Except.ok (f r)
      else Except.ok d) = .error e) : isPreLoopError e = false := by
  split at h
  · split at h
    · exact (Except.error.inj h) ▸ rfl
    · exact Except.noConfusion h
  · exact Except.noConfusion h

theorem ifMatchSubP_error {α : Type} (P : Prop) [Decidable P] (a b : Nat)
    (f : Nat → α) (d : α) (e : MatchError)
    (h : (if P then
        match checkedSub a b with
        | none => Except.error MatchError.SubUnderflow
        | some r => Except.ok (f r)
      else Except.ok d) = .error e) : isPreLoopError e = false := by
  split at h
  · split at h
    · exact (Except.error.inj h) ▸ rfl
    · exact Except.noConfusion h
  · exact Except.noConfusion h

/-- The mutation loop never returns a pre-loop error. -/
theorem execLoop_error_not_preloop {B H : Type} [DecidableEq H]
    (ops : BookOps B H) (order : IncomingOrder) (limits : EngineLimits)
    (sMB tLBQ : Bool) (ms : Side) (e : MatchError) :
    ∀ (fuel : Nat) (book : B) (remaining : Nat) (trades : List Trade)
      (spent rq : Nat) (b' : B),
      execLoop ops order limits sMB tLBQ ms fuel book remaining trades spent rq =
        (b', .error e) → isPreLoopError e = false := by
  intro fuel
  induction fuel with
  | zero =>
    intro book remaining trades spent rq b' h
    simp only [execLoop] at h
    injection h with h1 h2
    injection h2 with h3
    subst h3
    rfl
  | succ fuel ih =>
    intro book remaining trades spent rq b' h
    simp only [execLoop] at h
    repeat' split at h
    all_goals
      first
      | exact ih _ _ _ _ _ _ h
      | exact validate_maker_view_error _ _ _ _ (by
          injection h with h1 h2
          injection h2 with h3
          subst h3
          assumption)
      | exact calc_quote_floor_error _ _ _ (by
          injection h with h1 h2
          injection h2 with h3
          subst h3
          assumption)
      | (injection h with h1 h2
         first
         | exact Except.noConfusion h2
         | (injection h2 with h3
            subst h3
            first
            | rfl
            | exact spentE_error _ _ _ _ _ _ (by assumption)
            | exact ifMatchSub_error _ _ _ _ _ _ (by assumption)
            | exact ifMatchSubP_error _ _ _ _ _ _ (by assumption)))

theorem execFinalize_error {B H : Type} (ops : BookOps B H)
    (order : IncomingOrder) (sMB tLBQ : Bool) (book : B)
    (trades : List Trade) (remaining rq : Nat) (b' : B) (e : MatchError)
    (h : execFinalize ops order sMB tLBQ book trades remaining rq =
      (b', .error e)) :
    (e = .MarketBuyLiquidityCheckInconsistent ∨ e = .FokCheckInconsistent) ∧
      b' = book := by
  unfold execFinalize at h
  repeat' split at h
  all_goals
    injection h with h1 h2
    first
    | exact Except.noConfusion h2
    | (injection h2 with h3
       exact ⟨by simp [← h3], h1.symm⟩)

theorem execRun_error_not_preloop {B H : Type} [DecidableEq H]
    (ops : BookOps B H) (book : B) (order : IncomingOrder)
    (limits : EngineLimits) (b' : B) (e : MatchError)
    (h : execRun ops book order limits = (b', .error e)) :
    isPreLoopError e = false := by
  simp only [execRun] at h
  split at h
  · -- ceil for the Limit-Buy tracker failed
    rename_i e1 heq
    injection h with h1 h2
    injection h2 with h3
    subst h3
    split at heq
    · exact calc_quote_ceil_error _ _ _ heq
    · exact Except.noConfusion heq
  · split at h
    · rename_i book1 e1 heq2
      injection h with h1 h2
      injection h2 with h3
      subst h3
      exact execLoop_error_not_preloop ops order limits _ _ _ _ _ _ _ _ _ _ _ heq2
    · rcases execFinalize_error _ _ _ _ _ _ _ _ _ _ h with ⟨he, -⟩
      rcases he with rfl | rfl <;> rfl

theorem checkedAdd_some (a b c : Nat) (h : checkedAdd a b = some c) :
    c = a + b ∧ a + b < U256LIMIT := by
  unfold checkedAdd at h
  split at h
  · exact ⟨(Option.some.inj h).symm, by assumption⟩
  · exact Option.noConfusion h

theorem checkedSub_some (a b c : Nat) (h : checkedSub a b = some c) :
    c = a - b ∧ b ≤ a := by
  unfold checkedSub at h
  split at h
  · exact ⟨(Option.some.inj h).symm, by assumption⟩
  · exact Option.noConfusion h

theorem validate_error_shape (order : IncomingOrder) (e : MatchError)
    (h : validate order = .error e) : ∃ r, e = .InvalidOrder r := by
  unfold validate at h
  repeat' split at h
  all_goals first
    | exact ⟨_, (Except.error.inj h).symm⟩
    | exact Except.noConfusion h

theorem execFinalize_ok_trades {B H : Type} (ops : BookOps B H)
    (order : IncomingOrder) (sMB tLBQ : Bool) (book : B)
    (trades : List Trade) (remaining rq : Nat) (b' : B)
    (rep : ExecutionReport)
    (h : execFinalize ops order sMB tLBQ book trades remaining rq =
      (b', .ok rep)) : rep.trades = trades := by
  unfold execFinalize at h
  repeat' split at h
  all_goals
    injection h with h1 h2
    first
    | exact Except.noConfusion h2
    | (injection h2 with h3
       exact h3 ▸ rfl)

/-- Trades produced by the loop carry `quote_floor` amounts. -/
theorem execLoop_trades_floor {B H : Type} [DecidableEq H]
    (ops : BookOps B H) (order : IncomingOrder) (limits : EngineLimits)
    (sMB tLBQ : Bool) (ms : Side) :
    ∀ (fuel : Nat) (book : B) (remaining : Nat) (trades : List Trade)
      (spent rq : Nat) (b' : B) (res : List Trade × Nat × Nat),
      execLoop ops order limits sMB tLBQ ms fuel book remaining trades spent rq =
        (b', .ok res) →
      (∀ t ∈ trades, calc_quote_floor t.amount_base t.price = .ok t.amount_quote) →
      ∀ t ∈ res.1, calc_quote_floor t.amount_base t.price = .ok t.amount_quote := by
  intro fuel
  induction fuel with
  | zero =>
    intro book remaining trades spent rq b' res h hinv
    simp only [execLoop] at h
    injection h with h1 h2
    exact Except.noConfusion h2
  | succ fuel ih =>
    intro book remaining trades spent rq b' res h hinv
    simp only [execLoop] at h
    repeat' split at h
    all_goals
      first
      | exact ih _ _ _ _ _ _ _ h (by
          intro t ht
          rcases List.mem_append.mp ht with h1 | h2
          · exact hinv t h1
          · rcases List.mem_singleton.mp h2 with rfl
            assumption)
      | (injection h with h1 h2
         first
         | exact Except.noConfusion h2
         | (injection h2 with h3
            subst h3
            exact hinv))

/-- `settle_execution`'s spent-quote accumulator for a Buy taker is the
sum of the per-trade quote amounts. -/
theorem settleLoop_spent_quote (trades : List Trade) :
    ∀ (st : State) (sq sb : Nat) (st' : State) (sq' sb' : Nat),
      settleLoop .Buy trades st sq sb = some (st', sq', sb') →
      sq' = sq + (trades.map Trade.amount_quote).sum := by
  induction trades with
  | nil =>
    intro st sq sb st' sq' sb' h
    simp only [settleLoop, Option.some.injEq, Prod.mk.injEq] at h
    simp [← h.2.1]
  | cons tr rest ih =>
    intro st sq sb st' sq' sb' h
    simp only [settleLoop] at h
    rcases hacc : checkedAdd sq tr.amount_quote with - | x
    · rw [hacc] at h
      exact Option.noConfusion h
    · rw [hacc] at h
      have hx := (checkedAdd_some _ _ _ hacc).1
      have h' : (match unlock st tr.taker Asset.Base tr.amount_base with
          | none => none
          | some st1 =>
            match unlock st1 tr.maker Asset.Quote tr.amount_quote with
            | none => none
            | some st2 => settleLoop Side.Buy rest st2 x sb) =
          some (st', sq', sb') := h
      rcases h1 : unlock st tr.taker Asset.Base tr.amount_base with - | st1
      · rw [h1] at h'
        exact Option.noConfusion h'
      · rw [h1] at h'
        have h'' : (match unlock st1 tr.maker Asset.Quote tr.amount_quote with
            | none => none
            | some st2 => settleLoop Side.Buy rest st2 x sb) =
            some (st', sq', sb') := h'
        rcases h2 : unlock st1 tr.maker Asset.Quote tr.amount_quote with - | st2
        · rw [h2] at h''
          exact Option.noConfusion h''
        · rw [h2] at h''
          have := ih st2 x sb st' sq' sb' h''
          subst hx
          simp only [List.map_cons, List.sum_cons]
          omega

/-- C7: quote accounting.  Every trade in a successful report satisfies
`amount_quote = calc_quote_floor(amount_base, price)`, and the aggregate
quote a Buy taker is charged at settlement is the sum of the per-trade
floor amounts (not a floor of the total). -/
theorem spec_C7_quote_accounting {B H : Type} [DecidableEq H]
    (ops : BookOps B H) (book : B) (order : IncomingOrder)
    (limits : EngineLimits) (b' : B) (rep : ExecutionReport)
    (h : execute ops book order limits = (b', .ok rep)) :
    (∀ t ∈ rep.trades, calc_quote_floor t.amount_base t.price = .ok t.amount_quote) ∧
    (∀ (st st' : State) (sq sb : Nat),
      settleLoop .Buy rep.trades st 0 0 = some (st', sq, sb) →
      sq = (rep.trades.map Trade.amount_quote).sum) := by
  constructor
  · simp only [execute] at h
    split at h
    · injection h with h1 h2
      exact Except.noConfusion h2
    · split at h
      · injection h with h1 h2
        exact Except.noConfusion h2
      · split at h
        · split at h
          · injection h with h1 h2
            exact Except.noConfusion h2
          · -- FOK preview returned false: empty report
            injection h with h1 h2
            injection h2 with h3
            subst h3
            intro t ht
            simp at ht
          · -- FOK preview returned true: run
            simp only [execRun] at h
            split at h
            · injection h with h1 h2
              exact Except.noConfusion h2
            · split at h
              · injection h with h1 h2
                exact Except.noConfusion h2
              · rename_i book1 trades1 remaining1 rqf1 heq2
                have htr := execFinalize_ok_trades _ _ _ _ _ _ _ _ _ _ h
                rw [htr]
                exact execLoop_trades_floor ops order limits _ _ _ _ _ _ _ _ _ _ _
                  heq2 (by intro t ht; simp at ht)
        · simp only [execRun] at h
          split at h
          · injection h with h1 h2
            exact Except.noConfusion h2
          · split at h
            · injection h with h1 h2
              exact Except.noConfusion h2
            · rename_i book1 trades1 remaining1 rqf1 heq2
              have htr := execFinalize_ok_trades _ _ _ _ _ _ _ _ _ _ h
              rw [htr]
              exact execLoop_trades_floor ops order limits _ _ _ _ _ _ _ _ _ _ _
                heq2 (by intro t ht; simp at ht)
  · intro st st' sq sb hs
    have := settleLoop_spent_quote rep.trades st 0 0 st' sq sb hs
    omega

/-- C3 (amended): whenever `execute` returns one of the errors that can
only be raised before the mutation loop — `InvalidOrder`,
`ScanLimitReached`, `MarketBuyMaxQuoteExceeded`,
`MarketBuyInsufficientLiquidity` — the book is returned exactly as it was
given.  (Errors raised inside the loop can leave the book partially
mutated; see the counterexample.) -/
theorem spec_C3_preloop_errors_book_unchanged {B H : Type} [DecidableEq H]
    (ops : BookOps B H) (book : B) (order : IncomingOrder)
    (limits : EngineLimits) (b' : B) (e : MatchError)
    (hrun : execute ops book order limits = (b', .error e))
    (he : isPreLoopError e = true) : b' = book := by
  simp only [execute] at hrun
  split at hrun
  · injection hrun with h1 h2
    exact h1.symm
  · split at hrun
    · injection hrun with h1 h2
      exact h1.symm
    · split at hrun
      · split at hrun
        · injection hrun with h1 h2
          exact h1.symm
        · injection hrun with h1 h2
          exact Except.noConfusion h2
        · have := execRun_error_not_preloop ops book order limits b' e hrun
          rw [this] at he
          exact Bool.noConfusion he
      · have := execRun_error_not_preloop ops book order limits b' e hrun
        rw [this] at he
        exact Bool.noConfusion he

/-- Book, order and limits exhibiting an in-loop error: three one-lot asks
at 100, a Limit Buy for 3 lots, `max_trades = 1`. -/
def bookC3 : LBook :=
  { asks := [(100, [⟨1, 1, .Sell, 100, 1, 0⟩, ⟨2, 2, .Sell, 100, 1, 0⟩,
      ⟨3, 3, .Sell, 100, 1, 0⟩])], bids := [] }

def ordC3 : IncomingOrder :=
  { id := 10, side := .Buy, kind := .Limit, limit_price := 100,
    amount_base := 3, owner := 9, max_quote := 0 }

def limC3 : EngineLimits := { max_trades := 1, max_preview_scans := 1000 }

/-- C3 (counterexample): `execute` can return an error while the book is
observationally changed.  After the first fill the trade limit aborts the
call with `TradeLimitReached`, yet the filled maker (id 1) is gone: the
level head observation differs from the pre-call book, refuting the claim
that the book is observationally unchanged on any error. -/
theorem spec_C3_counterexample :
    (execute lbOps bookC3 ordC3 limC3).2 = .error (.TradeLimitReached 1) ∧
    lGetMaker (execute lbOps bookC3 ordC3 limC3).1 ⟨.Sell, 100, 0⟩ ≠
      lGetMaker bookC3 ⟨.Sell, 100, 0⟩ := by
  constructor
  · rfl
  · decide

/-- C3 witness: a pre-loop error (`InvalidOrder`) at a concrete input,
with the book returned unchanged via the amended theorem. -/
theorem spec_C3_witness :
    (execute lbOps bookC3
      { id := 1, side := .Buy, kind := .Limit, limit_price := 0,
        amount_base := 5, owner := 9, max_quote := 0 } limC3).1 = bookC3 :=
  spec_C3_preloop_errors_book_unchanged lbOps bookC3
    { id := 1, side := .Buy, kind := .Limit, limit_price := 0,
      amount_base := 5, owner := 9, max_quote := 0 } limC3 _
    (.InvalidOrder .ZeroLimitPriceForNonMarket) rfl rfl

theorem execFinalize_market_shape {B H : Type} (ops : BookOps B H)
    (order : IncomingOrder) (sMB tLBQ : Bool) (book : B)
    (trades : List Trade) (remaining rq : Nat) (b' : B)
    (rep : ExecutionReport) (hkind : order.kind = .Market)
    (h : execFinalize ops order sMB tLBQ book trades remaining rq =
      (b', .ok rep)) :
    rep.completion = .Filled ∨
      ∃ r, r ≠ 0 ∧ rep.completion = .Cancelled r := by
  unfold execFinalize at h
  split at h
  · injection h with h1 h2
    exact Except.noConfusion h2
  · split at h
    · injection h with h1 h2
      injection h2 with h3
      exact Or.inl (h3 ▸ rfl)
    · rw [hkind] at h
      injection h with h1 h2
      injection h2 with h3
      rename_i hrem0
      exact Or.inr ⟨remaining, hrem0, h3 ▸ rfl⟩

/-- C10: asymmetry of the market liquidity handling.
1. A valid Market Sell never fails with `MarketBuyInsufficientLiquidity`.
2. Any successful Market execution either fills completely or reports
   `Cancelled` with the non-zero remainder (the trades made so far are
   kept; nothing is promoted).
3. A Market Buy whose strict budget preview fails is rejected up front:
   `execute` propagates the preview error with the book untouched, so no
   trade is made. -/
theorem spec_C10_market_liquidity_asymmetry {B H : Type} [DecidableEq H]
    (ops : BookOps B H) (book : B) (order : IncomingOrder)
    (limits : EngineLimits) :
    (order.kind = .Market → order.side = .Sell →
      (execute ops book order limits).2 ≠
        .error .MarketBuyInsufficientLiquidity) ∧
    (order.kind = .Market → ∀ b' rep,
      execute ops book order limits = (b', .ok rep) →
      rep.completion = .Filled ∨ ∃ r, r ≠ 0 ∧ rep.completion = .Cancelled r) ∧
    (order.kind = .Market → order.side = .Buy → ∀ e,
      validate order = .ok () →
      preview_market_buy_budget_strict ops book order limits = .error e →
      execute ops book order limits = (book, .error e)) := by
  refine ⟨?_, ?_, ?_⟩
  · intro hkind hside habs
    rcases hex : execute ops book order limits with ⟨b', r⟩
    rw [hex] at habs
    simp only at habs
    subst habs
    simp only [execute] at hex
    split at hex
    · rename_i e1 hval
      injection hex with h1 h2
      injection h2 with h3
      rcases validate_error_shape order e1 hval with ⟨r, rfl⟩
      exact MatchError.noConfusion h3
    · have hsmb : decide (order.kind = OrderKind.Market ∧
          order.side = Side.Buy) = false := by
        simp [hside]
      rw [hsmb] at hex
      simp only [if_neg Bool.false_ne_true] at hex
      rw [if_neg (by rw [hkind]; intro hc; exact OrderKind.noConfusion hc)] at hex
      have := execRun_error_not_preloop ops book order limits b' _ hex
      exact Bool.noConfusion this
  · intro hkind b' rep hex
    simp only [execute] at hex
    split at hex
    · injection hex with h1 h2
      exact Except.noConfusion h2
    · split at hex
      · injection hex with h1 h2
        exact Except.noConfusion h2
      · rw [if_neg (by rw [hkind]; intro hc; exact OrderKind.noConfusion hc)] at hex
        simp only [execRun] at hex
        split at hex
        · injection hex with h1 h2
          exact Except.noConfusion h2
        · split at hex
          · injection hex with h1 h2
            exact Except.noConfusion h2
          · exact execFinalize_market_shape _ _ _ _ _ _ _ _ _ _ hkind hex
  · intro hkind hside e hval hprev
    simp only [execute, hval]
    have hsmb : decide (order.kind = OrderKind.Market ∧
        order.side = Side.Buy) = true := by
      simp [hkind, hside]
    rw [hsmb]
    simp [hprev]

/-! ## Flattened view of the book

Both the matching loop and the previews walk makers best-price-first,
FIFO within a level.  Under the book invariants this walk is exactly the
flattening of the maker-side ladder taken in priority order (ascending
prices for asks, descending for bids).  The loop and the previews are
related below to pure recursions over that flattened list. -/

/-- Flatten a ladder in its list order, tagging makers with their price. -/
def flattenAsc (lad : Ladder) : List (Nat × MakerView) :=
  lad.flatMap (fun e => e.2.map (fun mk => (e.1, mk)))

/-- The maker-side ladder arranged best-price-first. -/
def priorityLadder (ms : Side) (b : LBook) : Ladder :=
  match ms with
  | .Sell => b.asks
  | .Buy => b.bids.reverse

/-- All makers of one side of the book, best first, FIFO within a level. -/
def flattenBest (ms : Side) (b : LBook) : List (Nat × MakerView) :=
  flattenAsc (priorityLadder ms b)

theorem flattenAsc_nil : flattenAsc [] = [] := rfl

theorem flattenAsc_cons (p : Nat) (v : List MakerView) (t : Ladder) :
    flattenAsc ((p, v) :: t) = v.map (fun mk => (p, mk)) ++ flattenAsc t := by
  simp [flattenAsc]

theorem flattenAsc_eq_nil (lad : Ladder)
    (hlv : ∀ e ∈ lad, e.2 ≠ []) (h : flattenAsc lad = []) : lad = [] := by
  cases lad with
  | nil => rfl
  | cons e t =>
    exfalso
    rcases e with ⟨p, v⟩
    have hne : v ≠ [] := hlv (p, v) (List.mem_cons_self ..)
    cases v with
    | nil => exact hne rfl
    | cons mk vt => simp [flattenAsc_cons] at h

theorem flattenAsc_cons_decomp (lad : Ladder)
    (hlv : ∀ e ∈ lad, e.2 ≠ []) (p : Nat) (mk : MakerView)
    (rest : List (Nat × MakerView))
    (h : flattenAsc lad = (p, mk) :: rest) :
    ∃ vt t, lad = (p, mk :: vt) :: t ∧
      rest = vt.map (fun m => (p, m)) ++ flattenAsc t := by
  cases lad with
  | nil => simp [flattenAsc_nil] at h
  | cons e t =>
    rcases e with ⟨k, v⟩
    have hne : v ≠ [] := hlv (k, v) (List.mem_cons_self ..)
    cases v with
    | nil => exact absurd rfl hne
    | cons m vt =>
      rw [flattenAsc_cons] at h
      simp only [List.map_cons, List.cons_append, List.cons.injEq,
        Prod.mk.injEq] at h
      obtain ⟨⟨rfl, rfl⟩, hrest⟩ := h
      exact ⟨vt, t, rfl, hrest.symm⟩

/-! ### Ladder operation lemmas (head-entry forms) -/

/-- `modifyLevelAt`'s effect on a level value. -/
def modVal (v : List MakerView) (i : Nat) (f : MakerView → MakerView) :
    List MakerView :=
  match v[i]? with
  | none => v
  | some mk => v.set i (f mk)

theorem lookupLevel_head (p : Nat) (v : List MakerView) (t : Ladder) :
    lookupLevel ((p, v) :: t) p = some v := by
  simp [lookupLevel]

theorem modifyLevelAt_head (p : Nat) (v : List MakerView) (t : Ladder)
    (i : Nat) (f : MakerView → MakerView) :
    modifyLevelAt ((p, v) :: t) p i f = (p, modVal v i f) :: t := by
  rcases hv : v[i]? with - | mk
  · simp [modifyLevelAt, modVal, hv]
  · simp [modifyLevelAt, modVal, hv]

theorem eraseLevelAt_head (p : Nat) (v : List MakerView) (t : Ladder)
    (i : Nat) :
    eraseLevelAt ((p, v) :: t) p i =
      if v.eraseIdx i = [] then t else (p, v.eraseIdx i) :: t := by
  simp [eraseLevelAt]

/-! ### Ladder operation lemmas (last-entry forms, for the bid side) -/

theorem lookupLevel_append_last (u : Ladder) (p : Nat) (v : List MakerView)
    (hu : ∀ k ∈ keysOf u, k ≠ p) :
    lookupLevel (u ++ [(p, v)]) p = some v := by
  induction u with
  | nil => exact lookupLevel_head p v []
  | cons e t ih =>
    have hne : e.1 ≠ p := hu e.1 (by simp [keysOf])
    rcases e with ⟨k, w⟩
    simp only [List.cons_append, lookupLevel, if_neg hne]
    exact ih (fun k hk => hu k (by simp [keysOf] at hk ⊢; exact Or.inr hk))

theorem modifyLevelAt_append_last (u : Ladder) (p : Nat)
    (v : List MakerView) (i : Nat) (f : MakerView → MakerView)
    (hu : ∀ k ∈ keysOf u, k ≠ p) :
    modifyLevelAt (u ++ [(p, v)]) p i f = u ++ [(p, modVal v i f)] := by
  induction u with
  | nil => exact modifyLevelAt_head p v [] i f
  | cons e t ih =>
    have hne : e.1 ≠ p := hu e.1 (by simp [keysOf])
    rcases e with ⟨k, w⟩
    simp only [List.cons_append, modifyLevelAt, if_neg hne, List.append_eq]
    rw [ih (fun k hk => hu k (by simp [keysOf] at hk ⊢; exact Or.inr hk))]

theorem eraseLevelAt_append_last (u : Ladder) (p : Nat)
    (v : List MakerView) (i : Nat)
    (hu : ∀ k ∈ keysOf u, k ≠ p) :
    eraseLevelAt (u ++ [(p, v)]) p i =
      if v.eraseIdx i = [] then u else u ++ [(p, v.eraseIdx i)] := by
  induction u with
  | nil =>
    rw [List.nil_append, eraseLevelAt_head]
    split <;> rfl
  | cons e t ih =>
    have hne : e.1 ≠ p := hu e.1 (by simp [keysOf])
    rcases e with ⟨k, w⟩
    simp only [List.cons_append, eraseLevelAt, if_neg hne, List.append_eq]
    rw [ih (fun k hk => hu k (by simp [keysOf] at hk ⊢; exact Or.inr hk))]
    split <;> rfl

/-! ### Priority-ordered well-formedness

`priorityWF` restates the book invariants on the priority view: keys
strictly improve toward worse prices (ascending asks, descending bids)
and every level is well-formed. -/

/-- Key order of the priority view: later keys are worse. -/
def priOrder (ms : Side) : Nat → Nat → Prop :=
  match ms with
  | .Sell => (· < ·)
  | .Buy => (· > ·)

instance (ms : Side) : IsTrans Nat (priOrder ms) := by
  cases ms <;> (constructor; intro a b c h1 h2; simp only [priOrder] at *; omega)

/-- Well-formedness of a priority-ordered ladder. -/
def priorityWF (ms : Side) (lad : Ladder) : Prop :=
  (keysOf lad).Chain' (priOrder ms) ∧ ∀ e ∈ lad, levelOK ms e

theorem priWF_of_WF (b : LBook) (hWF : b.WF) (ms : Side) :
    priorityWF ms (priorityLadder ms b) := by
  cases ms with
  | Sell => exact hWF.1
  | Buy =>
    constructor
    · have h := hWF.2.1
      simp only [priorityLadder, keysOf, List.map_reverse]
      rw [List.chain'_reverse]
      exact h.imp (fun a b hab => hab)
    · intro e he
      exact hWF.2.2 e (List.mem_reverse.mp he)

theorem priWF_keys_lt (ms : Side) (p : Nat) (v : List MakerView)
    (t : Ladder) (h : priorityWF ms ((p, v) :: t)) :
    ∀ k ∈ keysOf t, priOrder ms p k := by
  have h1 := h.1
  simp only [keysOf, List.map_cons] at h1
  rw [List.chain'_iff_pairwise] at h1
  intro k hk
  exact (List.pairwise_cons.mp h1).1 k hk

theorem priWF_tail (ms : Side) (p : Nat) (v : List MakerView) (t : Ladder)
    (h : priorityWF ms ((p, v) :: t)) : priorityWF ms t := by
  refine ⟨?_, fun e he => h.2 e (List.mem_cons_of_mem _ he)⟩
  have h1 := h.1
  simp only [keysOf, List.map_cons] at h1
  exact h1.tail

theorem priWF_replace_head (ms : Side) (p : Nat) (mk mk' : MakerView)
    (vt : List MakerView) (t : Ladder)
    (h : priorityWF ms ((p, mk :: vt) :: t))
    (hside : mk'.side = ms) (hprice : mk'.price = p)
    (hrem : 0 < mk'.remaining_base)
    (hres : ms = .Sell → mk'.reserved_quote = 0) :
    priorityWF ms ((p, mk' :: vt) :: t) := by
  refine ⟨h.1, ?_⟩
  intro e he
  rcases List.mem_cons.mp he with rfl | he
  · have hold := h.2 (p, mk :: vt) (List.mem_cons_self ..)
    refine ⟨by simp, ?_⟩
    intro m hm
    rcases List.mem_cons.mp hm with rfl | hm
    · exact ⟨hside, hprice, hrem, hres⟩
    · exact hold.2 m (List.mem_cons_of_mem _ hm)
  · exact h.2 e (List.mem_cons_of_mem _ he)

theorem priWF_drop_head_maker (ms : Side) (p : Nat) (mk : MakerView)
    (vt : List MakerView) (t : Ladder)
    (h : priorityWF ms ((p, mk :: vt) :: t)) (hvt : vt ≠ []) :
    priorityWF ms ((p, vt) :: t) := by
  refine ⟨h.1, ?_⟩
  intro e he
  rcases List.mem_cons.mp he with rfl | he
  · have hold := h.2 (p, mk :: vt) (List.mem_cons_self ..)
    exact ⟨hvt, fun m hm => hold.2 m (List.mem_cons_of_mem _ hm)⟩
  · exact h.2 e (List.mem_cons_of_mem _ he)

/-! ### Book operations in terms of the priority view -/

theorem priority_decomp_buy (b : LBook) (p : Nat) (v : List MakerView)
    (t : Ladder) (h : priorityLadder .Buy b = (p, v) :: t) :
    b.bids = t.reverse ++ [(p, v)] := by
  simp only [priorityLadder] at h
  rw [← List.reverse_reverse b.bids, h]
  simp

theorem keys_front_ne_buy (b : LBook) (p : Nat) (v : List MakerView)
    (t : Ladder) (hpri : priorityWF .Buy (priorityLadder .Buy b))
    (hpl : priorityLadder .Buy b = (p, v) :: t) :
    ∀ k ∈ keysOf t.reverse, k ≠ p := by
  intro k hk
  have hk' : k ∈ keysOf t := by
    simp only [keysOf, List.map_reverse, List.mem_reverse] at hk
    exact hk
  have := priWF_keys_lt .Buy p v t (hpl ▸ hpri) k hk'
  simp only [priOrder] at this
  omega

theorem best_price_at (ms : Side) (b : LBook) (p : Nat)
    (v : List MakerView) (t : Ladder)
    (hpl : priorityLadder ms b = (p, v) :: t) :
    lbOps.best_price b ms = some p := by
  cases ms with
  | Sell =>
    simp only [priorityLadder] at hpl
    simp [lbOps, hpl, keysOf]
  | Buy =>
    have hb := priority_decomp_buy b p v t hpl
    simp only [lbOps, hb, keysOf, List.map_append]
    simp

theorem lookup_at (ms : Side) (b : LBook) (p : Nat) (v : List MakerView)
    (t : Ladder) (hpri : priorityWF ms (priorityLadder ms b))
    (hpl : priorityLadder ms b = (p, v) :: t) :
    lookupLevel (sideMap b ms) p = some v := by
  cases ms with
  | Sell =>
    simp only [priorityLadder] at hpl
    simp only [sideMap, hpl]
    exact lookupLevel_head p v t
  | Buy =>
    have hb := priority_decomp_buy b p v t hpl
    simp only [sideMap, hb]
    exact lookupLevel_append_last _ _ _ (keys_front_ne_buy b p v t hpri hpl)

theorem level_head_at (ms : Side) (b : LBook) (p : Nat) (mk : MakerView)
    (vt : List MakerView) (t : Ladder)
    (hpri : priorityWF ms (priorityLadder ms b))
    (hpl : priorityLadder ms b = (p, mk :: vt) :: t) :
    lbOps.level_head b ms p = some ⟨ms, p, 0⟩ := by
  have hl := lookup_at ms b p (mk :: vt) t hpri hpl
  simp only [lbOps, hl]

theorem get_maker_at (ms : Side) (b : LBook) (p : Nat) (mk : MakerView)
    (vt : List MakerView) (t : Ladder)
    (hpri : priorityWF ms (priorityLadder ms b))
    (hpl : priorityLadder ms b = (p, mk :: vt) :: t) :
    lbOps.get_maker b ⟨ms, p, 0⟩ = some mk := by
  have hl := lookup_at ms b p (mk :: vt) t hpri hpl
  simp only [lbOps, lGetMaker, hl]
  simp

theorem modVal_cons_zero (mk : MakerView) (vt : List MakerView)
    (f : MakerView → MakerView) : modVal (mk :: vt) 0 f = f mk :: vt := by
  simp [modVal]

theorem sideMap_mapSide_same (b : LBook) (ms : Side) (f : Ladder → Ladder) :
    sideMap (mapSide b ms f) ms = f (sideMap b ms) := by
  cases ms <;> rfl

theorem sideMap_mapSide_opp (b : LBook) (ms : Side) (f : Ladder → Ladder) :
    sideMap (mapSide b ms f) ms.opposite = sideMap b ms.opposite := by
  cases ms <;> rfl

theorem priorityLadder_eq_sideMap (ms : Side) (b : LBook) :
    priorityLadder ms b =
      (match ms with
       | .Sell => sideMap b ms
       | .Buy => (sideMap b ms).reverse) := by
  cases ms <;> rfl

theorem modify_at (ms : Side) (b : LBook) (p : Nat) (mk : MakerView)
    (vt : List MakerView) (t : Ladder) (f : MakerView → MakerView)
    (hpri : priorityWF ms (priorityLadder ms b))
    (hpl : priorityLadder ms b = (p, mk :: vt) :: t) :
    priorityLadder ms (mapSide b ms (fun lad => modifyLevelAt lad p 0 f)) =
      (p, f mk :: vt) :: t ∧
    sideMap (mapSide b ms (fun lad => modifyLevelAt lad p 0 f)) ms.opposite =
      sideMap b ms.opposite := by
  refine ⟨?_, sideMap_mapSide_opp b ms _⟩
  cases ms with
  | Sell =>
    simp only [priorityLadder] at hpl ⊢
    show modifyLevelAt b.asks p 0 f = _
    rw [show b.asks = (p, mk :: vt) :: t from hpl, modifyLevelAt_head,
      modVal_cons_zero]
  | Buy =>
    have hb := priority_decomp_buy b p (mk :: vt) t hpl
    simp only [priorityLadder]
    show (modifyLevelAt b.bids p 0 f).reverse = _
    rw [hb, modifyLevelAt_append_last _ _ _ _ _
      (keys_front_ne_buy b p (mk :: vt) t hpri hpl), modVal_cons_zero]
    simp

theorem remove_at (ms : Side) (b : LBook) (p : Nat) (mk : MakerView)
    (vt : List MakerView) (t : Ladder)
    (hpri : priorityWF ms (priorityLadder ms b))
    (hpl : priorityLadder ms b = (p, mk :: vt) :: t) :
    priorityLadder ms (lbOps.remove_maker b ⟨ms, p, 0⟩) =
      (if vt = [] then t else (p, vt) :: t) ∧
    sideMap (lbOps.remove_maker b ⟨ms, p, 0⟩) ms.opposite =
      sideMap b ms.opposite := by
  have hg := get_maker_at ms b p mk vt t hpri hpl
  have hrm : lbOps.remove_maker b ⟨ms, p, 0⟩ =
      mapSide b ms (fun lad => eraseLevelAt lad p 0) := by
    show (match lGetMaker b ⟨ms, p, 0⟩ with
      | none => b
      | some _ => mapSide b ms fun lad => eraseLevelAt lad p 0) = _
    rw [show lGetMaker b ⟨ms, p, 0⟩ = some mk from hg]
  rw [hrm]
  refine ⟨?_, sideMap_mapSide_opp b ms _⟩
  cases ms with
  | Sell =>
    simp only [priorityLadder] at hpl ⊢
    show eraseLevelAt b.asks p 0 = _
    rw [show b.asks = (p, mk :: vt) :: t from hpl, eraseLevelAt_head]
    simp [List.eraseIdx]
  | Buy =>
    have hb := priority_decomp_buy b p (mk :: vt) t hpl
    simp only [priorityLadder]
    show (eraseLevelAt b.bids p 0).reverse = _
    rw [hb, eraseLevelAt_append_last _ _ _ _
      (keys_front_ne_buy b p (mk :: vt) t hpri hpl)]
    simp only [List.eraseIdx]
    split <;> simp

/-- The matching loop replayed on the flattened maker list.  Mirrors
`execLoop` branch for branch; maker validation is omitted because on a
well-formed book it always passes (the simulation theorem proves the two
agree under `LBook.WF`). -/
def execFlat (order : IncomingOrder) (limits : EngineLimits)
    (isStrictMB trackLBQ : Bool) :
    Nat → List (Nat × MakerView) → Nat → List Trade → Nat → Nat →
      List (Nat × MakerView) × Except MatchError (List Trade × Nat × Nat)
  | 0, L, _, _, _, _ => (L, .error (.TradeLimitReached limits.max_trades))
  | fuel + 1, L, remaining, trades, spent_quote, remaining_quote =>
    if remaining = 0 then (L, .ok (trades, remaining, remaining_quote))
    else if trades.length ≥ limits.max_trades then
      (L, .error (.TradeLimitReached limits.max_trades))
    else
      match L with
      | [] => (L, .ok (trades, remaining, remaining_quote))
      | (price, maker) :: rest =>
        if order.kind ≠ .Market ∧ ¬ crosses order.side order.limit_price price then
          ((price, maker) :: rest, .ok (trades, remaining, remaining_quote))
        else
          let fill := min remaining maker.remaining_base
          match calc_quote_floor fill price with
          | .error e => ((price, maker) :: rest, .error e)
          | .ok quote =>
            let spentE : Except MatchError Nat :=
              if isStrictMB then
                match checkedAdd spent_quote quote with
                | none => .error .AddOverflow
                | some sq =>
                  if sq > order.max_quote then
                    .error .MarketBuyBudgetCheckInconsistent
                  else .ok sq
              else .ok spent_quote
            match spentE with
            | .error e => ((price, maker) :: rest, .error e)
            | .ok spent' =>
              let rqE : Except MatchError Nat :=
                if trackLBQ then
                  match checkedSub remaining_quote quote with
                  | none => .error .SubUnderflow
                  | some rq => .ok rq
                else .ok remaining_quote
              match rqE with
              | .error e => ((price, maker) :: rest, .error e)
              | .ok rq' =>
                let tr : Trade :=
                  { maker_order_id := maker.id, taker_order_id := order.id,
                    maker := maker.owner, taker := order.owner,
                    price := price, amount_base := fill, amount_quote := quote }
                match checkedSub maker.remaining_base fill with
                | none => ((price, maker) :: rest, .error .SubUnderflow)
                | some maker_new =>
                  let updE : Except MatchError MakerView :=
                    if maker.side = .Buy then
                      match checkedSub maker.reserved_quote quote with
                      | none => .error .SubUnderflow
                      | some new_rq => .ok { maker with reserved_quote := new_rq }
                    else .ok maker
                  match updE with
                  | .error e => ((price, maker) :: rest, .error e)
                  | .ok maker1 =>
                    let L2 :=
                      if maker_new = 0 then rest
                      else (price, { maker1 with remaining_base := maker_new }) :: rest
                    match checkedSub remaining fill with
                    | none => (L2, .error .SubUnderflow)
                    | some remaining2 =>
                      execFlat order limits isStrictMB trackLBQ fuel L2 remaining2
                        (trades ++ [tr]) spent' rq'

theorem best_price_nil (ms : Side) (b : LBook)
    (hpl : priorityLadder ms b = []) : lbOps.best_price b ms = none := by
  cases ms with
  | Sell =>
    simp only [priorityLadder] at hpl
    simp [lbOps, hpl, keysOf]
  | Buy =>
    simp only [priorityLadder] at hpl
    have hb : b.bids = [] := by
      rw [← List.reverse_reverse b.bids, hpl]
      rfl
    simp [lbOps, hb, keysOf]

theorem set_reserved_eq (b : LBook) (ms : Side) (p x : Nat) :
    lbOps.set_maker_reserved_quote b ⟨ms, p, 0⟩ x =
      mapSide b ms (fun lad =>
        modifyLevelAt lad p 0 (fun mk => { mk with reserved_quote := x })) := rfl

theorem set_remaining_eq (b : LBook) (ms : Side) (p x : Nat) :
    lbOps.set_maker_remaining b ⟨ms, p, 0⟩ x =
      mapSide b ms (fun lad =>
        modifyLevelAt lad p 0 (fun mk => { mk with remaining_base := x })) := rfl

/-- Tail of one loop iteration, shared by the simulation proof: after the
maker update is decided, removing/shrinking the head maker and recursing
agree between the book loop and the flat replay. -/
theorem execLoop_sim_step (order : IncomingOrder) (limits : EngineLimits)
    (sMB tLBQ : Bool) (ms : Side) (fuel : Nat)
    (ih : ∀ (b : LBook) (remaining : Nat) (trades : List Trade)
      (spent rq : Nat) (b' : LBook)
      (r : Except MatchError (List Trade × Nat × Nat))
      (L' : List (Nat × MakerView))
      (r' : Except MatchError (List Trade × Nat × Nat)),
      priorityWF ms (priorityLadder ms b) →
      execLoop lbOps order limits sMB tLBQ ms fuel b remaining trades spent rq =
        (b', r) →
      execFlat order limits sMB tLBQ fuel (flattenBest ms b) remaining trades
        spent rq = (L', r') →
      r = r' ∧ flattenBest ms b' = L' ∧
      sideMap b' ms.opposite = sideMap b ms.opposite ∧
      priorityWF ms (priorityLadder ms b'))
    (book1 : LBook) (p : Nat) (mk1 : MakerView) (vt : List MakerView)
    (t : Ladder) (rest : List (Nat × MakerView))
    (h1pl : priorityLadder ms book1 = (p, mk1 :: vt) :: t)
    (h1pri : priorityWF ms (priorityLadder ms book1))
    (hrest : rest = vt.map (fun m => (p, m)) ++ flattenAsc t)
    (hm1side : mk1.side = ms) (hm1price : mk1.price = p)
    (hm1res : ms = .Sell → mk1.reserved_quote = 0)
    (fill remaining : Nat) (newtrades : List Trade) (spent' rq' maker_new : Nat)
    (b' : LBook) (r : Except MatchError (List Trade × Nat × Nat))
    (L' : List (Nat × MakerView))
    (r' : Except MatchError (List Trade × Nat × Nat))
    (hL : (match checkedSub remaining fill with
      | none =>
        ((if maker_new = 0 then lbOps.remove_maker book1 ⟨ms, p, 0⟩
          else lbOps.set_maker_remaining book1 ⟨ms, p, 0⟩ maker_new),
          Except.error MatchError.SubUnderflow)
      | some remaining2 =>
        execLoop lbOps order limits sMB tLBQ ms fuel
          (if maker_new = 0 then lbOps.remove_maker book1 ⟨ms, p, 0⟩
           else lbOps.set_maker_remaining book1 ⟨ms, p, 0⟩ maker_new)
          remaining2 newtrades spent' rq') = (b', r))
    (hF : (match checkedSub remaining fill with
      | none =>
        ((if maker_new = 0 then rest
          else (p, { mk1 with remaining_base := maker_new }) :: rest),
          Except.error MatchError.SubUnderflow)
      | some remaining2 =>
        execFlat order limits sMB tLBQ fuel
          (if maker_new = 0 then rest
           else (p, { mk1 with remaining_base := maker_new }) :: rest)
          remaining2 newtrades spent' rq') = (L', r')) :
    r = r' ∧ flattenBest ms b' = L' ∧
    sideMap b' ms.opposite = sideMap book1 ms.opposite ∧
    priorityWF ms (priorityLadder ms b') := by
  have h1pri' : priorityWF ms ((p, mk1 :: vt) :: t) := h1pl ▸ h1pri
  -- the mutated book and its characterisation
  by_cases hm0 : maker_new = 0
  · rw [if_pos hm0] at hL hF
    obtain ⟨h2pl, h2opp⟩ := remove_at ms book1 p mk1 vt t h1pri h1pl
    have h2flat : flattenBest ms (lbOps.remove_maker book1 ⟨ms, p, 0⟩) = rest := by
      rw [flattenBest, h2pl, hrest]
      by_cases hvt : vt = []
      · subst hvt
        rw [if_pos rfl]
        simp
      · rw [if_neg hvt, flattenAsc_cons]
    have h2pri : priorityWF ms
        (priorityLadder ms (lbOps.remove_maker book1 ⟨ms, p, 0⟩)) := by
      rw [h2pl]
      by_cases hvt : vt = []
      · subst hvt
        rw [if_pos rfl]
        exact priWF_tail ms p _ t h1pri'
      · rw [if_neg hvt]
        exact priWF_drop_head_maker ms p mk1 vt t h1pri' hvt
    rcases hsub : checkedSub remaining fill with - | remaining2
    · rw [hsub] at hL hF
      injection hL with hL1 hL2
      injection hF with hF1 hF2
      subst hL1
      exact ⟨hL2.symm.trans hF2, h2flat.trans hF1, h2opp, h2pri⟩
    · rw [hsub] at hL hF
      rw [← h2flat] at hF
      obtain ⟨hr, hfl, hop, hpw⟩ := ih _ _ _ _ _ _ _ _ _ h2pri hL hF
      exact ⟨hr, hfl, hop.trans h2opp, hpw⟩
  · rw [if_neg hm0] at hL hF
    rw [set_remaining_eq] at hL
    obtain ⟨h2pl, h2opp⟩ := modify_at ms book1 p mk1 vt t
      (fun m => { m with remaining_base := maker_new }) h1pri h1pl
    have h2flat : flattenBest ms (mapSide book1 ms (fun lad =>
        modifyLevelAt lad p 0 (fun m => { m with remaining_base := maker_new }))) =
        (p, { mk1 with remaining_base := maker_new }) :: rest := by
      rw [flattenBest, h2pl, hrest, flattenAsc_cons]
      simp
    have h2pri : priorityWF ms (priorityLadder ms (mapSide book1 ms (fun lad =>
        modifyLevelAt lad p 0 (fun m => { m with remaining_base := maker_new })))) := by
      rw [h2pl]
      exact priWF_replace_head ms p mk1 _ vt t h1pri' hm1side hm1price
        (by show 0 < maker_new; omega) (fun hsell => hm1res hsell)
    rcases hsub : checkedSub remaining fill with - | remaining2
    · rw [hsub] at hL hF
      injection hL with hL1 hL2
      injection hF with hF1 hF2
      subst hL1
      exact ⟨hL2.symm.trans hF2, h2flat.trans hF1, h2opp, h2pri⟩
    · rw [hsub] at hL hF
      rw [← h2flat] at hF
      obtain ⟨hr, hfl, hop, hpw⟩ := ih _ _ _ _ _ _ _ _ _ h2pri hL hF
      exact ⟨hr, hfl, hop.trans h2opp, hpw⟩

/-- The matching loop on a well-formed book is the flat replay on the
flattened maker side: same result, the final book flattens to the flat
replay's final list, the other side of the book is untouched, and
well-formedness is preserved. -/
theorem execLoop_simulates (order : IncomingOrder) (limits : EngineLimits)
    (sMB tLBQ : Bool) (ms : Side) :
    ∀ (fuel : Nat) (b : LBook) (remaining : Nat) (trades : List Trade)
      (spent rq : Nat) (b' : LBook)
      (r : Except MatchError (List Trade × Nat × Nat))
      (L' : List (Nat × MakerView))
      (r' : Except MatchError (List Trade × Nat × Nat)),
      priorityWF ms (priorityLadder ms b) →
      execLoop lbOps order limits sMB tLBQ ms fuel b remaining trades spent rq =
        (b', r) →
      execFlat order limits sMB tLBQ fuel (flattenBest ms b) remaining trades
        spent rq = (L', r') →
      r = r' ∧ flattenBest ms b' = L' ∧
      sideMap b' ms.opposite = sideMap b ms.opposite ∧
      priorityWF ms (priorityLadder ms b') := by
  intro fuel
  induction fuel with
  | zero =>
    intro b remaining trades spent rq b' r L' r' hpri hL hF
    simp only [execLoop] at hL
    simp only [execFlat] at hF
    injection hL with hL1 hL2
    injection hF with hF1 hF2
    subst hL1
    exact ⟨hL2.symm.trans hF2, hF1, rfl, hpri⟩
  | succ fuel ih =>
    intro b remaining trades spent rq b' r L' r' hpri hL hF
    by_cases hrem : remaining = 0
    · simp only [execLoop, if_pos hrem] at hL
      simp only [execFlat, if_pos hrem] at hF
      injection hL with hL1 hL2
      injection hF with hF1 hF2
      subst hL1
      exact ⟨hL2.symm.trans hF2, hF1, rfl, hpri⟩
    · by_cases htl : trades.length ≥ limits.max_trades
      · simp only [execLoop, if_neg hrem, if_pos htl] at hL
        simp only [execFlat, if_neg hrem, if_pos htl] at hF
        injection hL with hL1 hL2
        injection hF with hF1 hF2
        subst hL1
        exact ⟨hL2.symm.trans hF2, hF1, rfl, hpri⟩
      · have hlv : ∀ e ∈ priorityLadder ms b, e.2 ≠ [] :=
          fun e he => (hpri.2 e he).1
        rcases hflat : flattenBest ms b with - | ⟨⟨p, mk⟩, rest⟩
        · -- ladder exhausted: both exit with the accumulated trades
          have hlad : priorityLadder ms b = [] :=
            flattenAsc_eq_nil _ hlv hflat
          simp only [execLoop, if_neg hrem, if_neg htl,
            best_price_nil ms b hlad] at hL
          rw [hflat] at hF
          simp only [execFlat, if_neg hrem, if_neg htl] at hF
          injection hL with hL1 hL2
          injection hF with hF1 hF2
          subst hL1
          exact ⟨hL2.symm.trans hF2, hflat.trans hF1, rfl, hpri⟩
        · obtain ⟨vt, t, hpl, hrest⟩ :=
            flattenAsc_cons_decomp (priorityLadder ms b) hlv p mk rest hflat
          have hpri' : priorityWF ms ((p, mk :: vt) :: t) := hpl ▸ hpri
          obtain ⟨hmside, hmprice, hmrem, hmres⟩ :=
            (hpri'.2 (p, mk :: vt) (List.mem_cons_self ..)).2 mk
              (List.mem_cons_self ..)
          have hval : validate_maker_view mk ms p = .ok () := by
            unfold validate_maker_view
            rw [if_neg (by simp [hmside]), if_neg (by simp [hmprice]),
              if_neg (by omega)]
          have hbp := best_price_at ms b p (mk :: vt) t hpl
          have hlh := level_head_at ms b p mk vt t hpri hpl
          have hgm := get_maker_at ms b p mk vt t hpri hpl
          simp only [execLoop, if_neg hrem, if_neg htl, hbp, hlh, hgm,
            hval] at hL
          rw [hflat] at hF
          simp only [execFlat, if_neg hrem, if_neg htl] at hF
          by_cases hcr : order.kind ≠ OrderKind.Market ∧
              ¬ crosses order.side order.limit_price p = true
          · rw [if_pos hcr] at hL hF
            injection hL with hL1 hL2
            injection hF with hF1 hF2
            subst hL1
            exact ⟨hL2.symm.trans hF2, hflat.trans hF1, rfl, hpri⟩
          · rw [if_neg hcr] at hL hF
            rcases hq : calc_quote_floor (min remaining mk.remaining_base) p
              with e | q
            · simp only [hq] at hL hF
              injection hL with hL1 hL2
              injection hF with hF1 hF2
              subst hL1
              exact ⟨hL2.symm.trans hF2, hflat.trans hF1, rfl, hpri⟩
            · simp only [hq] at hL hF
              rcases hsp : (if sMB = true then
                  match checkedAdd spent q with
                  | none => Except.error MatchError.AddOverflow
                  | some sq =>
                    if sq > order.max_quote then
                      Except.error MatchError.MarketBuyBudgetCheckInconsistent
                    else Except.ok sq
                else Except.ok spent) with e | spent'
              · simp only [hsp] at hL hF
                injection hL with hL1 hL2
                injection hF with hF1 hF2
                subst hL1
                exact ⟨hL2.symm.trans hF2, hflat.trans hF1, rfl, hpri⟩
              · simp only [hsp] at hL hF
                rcases hrq : (if tLBQ = true then
                    match checkedSub rq q with
                    | none => Except.error MatchError.SubUnderflow
                    | some r0 => Except.ok r0
                  else Except.ok rq) with e | rq'
                · simp only [hrq] at hL hF
                  injection hL with hL1 hL2
                  injection hF with hF1 hF2
                  subst hL1
                  exact ⟨hL2.symm.trans hF2, hflat.trans hF1, rfl, hpri⟩
                · simp only [hrq] at hL hF
                  rcases hms0 : checkedSub mk.remaining_base
                      (min remaining mk.remaining_base) with - | maker_new
                  · simp only [hms0] at hL hF
                    injection hL with hL1 hL2
                    injection hF with hF1 hF2
                    subst hL1
                    exact ⟨hL2.symm.trans hF2, hflat.trans hF1, rfl, hpri⟩
                  · simp only [hms0] at hL hF
                    by_cases hbuy : mk.side = Side.Buy
                    · rw [if_pos hbuy] at hL hF
                      rcases hrs : checkedSub mk.reserved_quote q with - | new_rq
                      · simp only [hrs] at hL hF
                        injection hL with hL1 hL2
                        injection hF with hF1 hF2
                        subst hL1
                        exact ⟨hL2.symm.trans hF2, hflat.trans hF1, rfl, hpri⟩
                      · simp only [hrs] at hL hF
                        rw [set_reserved_eq] at hL
                        obtain ⟨h1pl, h1opp⟩ := modify_at ms b p mk vt t
                          (fun m => { m with reserved_quote := new_rq }) hpri hpl
                        have h1pri : priorityWF ms (priorityLadder ms
                            (mapSide b ms (fun lad => modifyLevelAt lad p 0
                              (fun m => { m with reserved_quote := new_rq })))) := by
                          rw [h1pl]
                          exact priWF_replace_head ms p mk _ vt t hpri'
                            hmside hmprice hmrem
                            (fun hsell => absurd (hmside ▸ hbuy)
                              (by rw [hsell]; simp))
                        obtain ⟨hr, hfl, hop, hpw⟩ :=
                          execLoop_sim_step order limits sMB tLBQ ms fuel ih
                            _ p _ vt t rest h1pl h1pri hrest hmside hmprice
                            (fun hsell => absurd (hmside ▸ hbuy)
                              (by rw [hsell]; simp))
                            (min remaining mk.remaining_base) remaining _
                            spent' rq' maker_new b' r L' r' hL hF
                        exact ⟨hr, hfl, hop.trans h1opp, hpw⟩
                    · rw [if_neg hbuy] at hL hF
                      exact execLoop_sim_step order limits sMB tLBQ ms fuel ih
                        b p mk vt t rest hpl hpri hrest hmside hmprice hmres
                        (min remaining mk.remaining_base) remaining _
                        spent' rq' maker_new b' r L' r' hL hF

/-! ### Trade sequence structure of the flat replay -/

/-- Price/maker-id pair of a trade. -/
def tradeTag (t : Trade) : Nat × Nat := (t.price, t.maker_order_id)

/-- Price/maker-id pair of a flattened book entry. -/
def makerTag (e : Nat × MakerView) : Nat × Nat := (e.1, e.2.id)

/-- The trade record built in one loop iteration. -/
def mkTrade (order : IncomingOrder) (p : Nat) (mk : MakerView)
    (fill q : Nat) : Trade :=
  { maker_order_id := mk.id, taker_order_id := order.id, maker := mk.owner,
    taker := order.owner, price := p, amount_base := fill, amount_quote := q }

/-- Iteration tail of the tag-prefix argument. -/
theorem execFlat_step_tag (order : IncomingOrder) (limits : EngineLimits)
    (sMB tLBQ : Bool) (fuel : Nat)
    (ih : ∀ (L : List (Nat × MakerView)) (remaining : Nat)
      (trades : List Trade) (spent rq : Nat) (L' : List (Nat × MakerView))
      (tr' : List Trade) (r' rq'' : Nat),
      execFlat order limits sMB tLBQ fuel L remaining trades spent rq =
        (L', .ok (tr', r', rq'')) →
      ∃ newtr, tr' = trades ++ newtr ∧
        (newtr.map tradeTag) <+: (L.map makerTag))
    (p : Nat) (mk mk1 : MakerView) (rest : List (Nat × MakerView))
    (hid : mk1.id = mk.id)
    (remaining : Nat) (trades : List Trade) (spent' rq' maker_new q : Nat)
    (L' : List (Nat × MakerView)) (tr' : List Trade) (r' rq'' : Nat)
    (hms0 : checkedSub mk.remaining_base (min remaining mk.remaining_base) =
      some maker_new)
    (hh : (match checkedSub remaining (min remaining mk.remaining_base) with
      | none =>
        ((if maker_new = 0 then rest
          else (p, { mk1 with remaining_base := maker_new }) :: rest),
          Except.error MatchError.SubUnderflow)
      | some remaining2 =>
        execFlat order limits sMB tLBQ fuel
          (if maker_new = 0 then rest
           else (p, { mk1 with remaining_base := maker_new }) :: rest)
          remaining2
          (trades ++ [mkTrade order p mk (min remaining mk.remaining_base) q])
          spent' rq') = (L', Except.ok (tr', r', rq''))) :
    ∃ newtr, tr' = trades ++ newtr ∧
      (newtr.map tradeTag) <+: (((p, mk) :: rest).map makerTag) := by
  rcases hsub : checkedSub remaining (min remaining mk.remaining_base)
    with - | remaining2
  · rw [hsub] at hh
    injection hh with hh1 hh2
    exact Except.noConfusion hh2
  · rw [hsub] at hh
    obtain ⟨newtr2, htr, hpre⟩ := ih _ _ _ _ _ _ _ _ _ hh
    refine ⟨mkTrade order p mk (min remaining mk.remaining_base) q :: newtr2,
      by simp [htr], ?_⟩
    by_cases hm0 : maker_new = 0
    · rw [if_pos hm0] at hpre
      simp only [List.map_cons]
      have htag : tradeTag (mkTrade order p mk
          (min remaining mk.remaining_base) q) = makerTag (p, mk) := rfl
      rw [htag]
      exact (List.prefix_cons_inj _).mpr hpre
    · -- partial fill: the taker is exhausted, the recursion exits at once
      have hrem2 : remaining2 = 0 := by
        obtain ⟨hmn, hle⟩ := checkedSub_some _ _ _ hms0
        obtain ⟨hr2, hle2⟩ := checkedSub_some _ _ _ hsub
        have hfe : min remaining mk.remaining_base = remaining := by omega
        omega
      subst hrem2
      cases fuel with
      | zero =>
        simp only [execFlat] at hh
        injection hh with hh1 hh2
        exact Except.noConfusion hh2
      | succ fuel2 =>
        simp only [execFlat, if_pos rfl] at hh
        injection hh with hh1 hh2
        injection hh2 with hh3
        injection hh3 with hh4 hh5
        have hnil : newtr2 = [] := by
          have := htr.symm.trans hh4.symm
          simpa using this
        subst hnil
        simp only [List.map_cons, List.map_nil]
        have htag : tradeTag (mkTrade order p mk
            (min remaining mk.remaining_base) q) = makerTag (p, mk) := rfl
        rw [htag]
        exact ⟨(rest.map makerTag), by simp⟩

/-- New trades appended by the flat replay tag a prefix of the flattened
maker list: best level first, FIFO within a level, each maker at most
once. -/
theorem execFlat_trades_tag_prefix (order : IncomingOrder)
    (limits : EngineLimits) (sMB tLBQ : Bool) :
    ∀ (fuel : Nat) (L : List (Nat × MakerView)) (remaining : Nat)
      (trades : List Trade) (spent rq : Nat)
      (L' : List (Nat × MakerView)) (tr' : List Trade) (r' rq'' : Nat),
      execFlat order limits sMB tLBQ fuel L remaining trades spent rq =
        (L', .ok (tr', r', rq'')) →
      ∃ newtr, tr' = trades ++ newtr ∧
        (newtr.map tradeTag) <+: (L.map makerTag) := by
  intro fuel
  induction fuel with
  | zero =>
    intro L remaining trades spent rq L' tr' r' rq'' h
    simp only [execFlat] at h
    injection h with h1 h2
    exact Except.noConfusion h2
  | succ fuel ih =>
    intro L remaining trades spent rq L' tr' r' rq'' h
    by_cases hrem : remaining = 0
    · simp only [execFlat, if_pos hrem] at h
      injection h with h1 h2
      injection h2 with h3
      injection h3 with h4 h5
      exact ⟨[], by simp [← h4], List.nil_prefix⟩
    · by_cases htl : trades.length ≥ limits.max_trades
      · simp only [execFlat, if_neg hrem, if_pos htl] at h
        injection h with h1 h2
        exact Except.noConfusion h2
      · rcases L with - | ⟨⟨p, mk⟩, rest⟩
        · simp only [execFlat, if_neg hrem, if_neg htl] at h
          injection h with h1 h2
          injection h2 with h3
          injection h3 with h4 h5
          exact ⟨[], by simp [← h4], List.nil_prefix⟩
        · simp only [execFlat, if_neg hrem, if_neg htl] at h
          by_cases hcr : order.kind ≠ OrderKind.Market ∧
              ¬ crosses order.side order.limit_price p = true
          · rw [if_pos hcr] at h
            injection h with h1 h2
            injection h2 with h3
            injection h3 with h4 h5
            exact ⟨[], by simp [← h4], List.nil_prefix⟩
          · rw [if_neg hcr] at h
            rcases hq : calc_quote_floor (min remaining mk.remaining_base) p
              with e | q
            · simp only [hq] at h
              injection h with h1 h2
              exact Except.noConfusion h2
            · simp only [hq] at h
              rcases hsp : (if sMB = true then
                  match checkedAdd spent q with
                  | none => Except.error MatchError.AddOverflow
                  | some sq =>
                    if sq > order.max_quote then
                      Except.error MatchError.MarketBuyBudgetCheckInconsistent
                    else Except.ok sq
                else Except.ok spent) with e | spent'
              · simp only [hsp] at h
                injection h with h1 h2
                exact Except.noConfusion h2
              · simp only [hsp] at h
                rcases hrq : (if tLBQ = true then
                    match checkedSub rq q with
                    | none => Except.error MatchError.SubUnderflow
                    | some r0 => Except.ok r0
                  else Except.ok rq) with e | rq'
                · simp only [hrq] at h
                  injection h with h1 h2
                  exact Except.noConfusion h2
                · simp only [hrq] at h
                  rcases hms0 : checkedSub mk.remaining_base
                      (min remaining mk.remaining_base) with - | maker_new
                  · simp only [hms0] at h
                    injection h with h1 h2
                    exact Except.noConfusion h2
                  · simp only [hms0] at h
                    by_cases hbuy : mk.side = Side.Buy
                    · rw [if_pos hbuy] at h
                      rcases hrs : checkedSub mk.reserved_quote q with - | new_rq
                      · simp only [hrs] at h
                        injection h with h1 h2
                        exact Except.noConfusion h2
                      · simp only [hrs] at h
                        exact execFlat_step_tag order limits sMB tLBQ fuel ih
                          p mk { mk with reserved_quote := new_rq } rest rfl
                          remaining trades spent' rq' maker_new q L' tr' r' rq''
                          hms0 h
                    · rw [if_neg hbuy] at h
                      exact execFlat_step_tag order limits sMB tLBQ fuel ih
                        p mk mk rest rfl remaining trades spent' rq'
                        maker_new q L' tr' r' rq'' hms0 h

theorem flatten_prices_mem (lad : Ladder) (q : Nat)
    (h : q ∈ (flattenAsc lad).map Prod.fst) : q ∈ keysOf lad := by
  induction lad with
  | nil => simp [flattenAsc_nil] at h
  | cons e t ih =>
    rcases e with ⟨k, v⟩
    rw [flattenAsc_cons] at h
    simp only [List.map_append, List.mem_append, List.map_map] at h
    rcases h with h | h
    · simp only [List.mem_map] at h
      obtain ⟨mk, -, hx⟩ := h
      simp [keysOf, ← hx]
    · simp only [keysOf, List.map_cons, List.mem_cons]
      exact Or.inr (ih h)

theorem chain'_map_const {α : Type} (p : Nat) (v : List α)
    (R : Nat → Nat → Prop) (hR : R p p) :
    (v.map (fun _ => p)).Chain' R := by
  induction v with
  | nil => simp
  | cons x xs ih =>
    cases xs with
    | nil => simp
    | cons y ys =>
      simp only [List.map_cons, List.chain'_cons] at ih ⊢
      exact ⟨hR, ih⟩

theorem flatten_prices_chain (ms : Side) (lad : Ladder)
    (hpri : priorityWF ms lad) :
    ((flattenAsc lad).map Prod.fst).Chain'
      (fun a b => a = b ∨ priOrder ms a b) := by
  induction lad with
  | nil => simp [flattenAsc_nil]
  | cons e t ih =>
    rcases e with ⟨k, v⟩
    rw [flattenAsc_cons]
    simp only [List.map_append, List.map_map]
    rw [List.chain'_append]
    refine ⟨?_, ih (priWF_tail ms k v t hpri), ?_⟩
    · have : (Prod.fst ∘ fun mk => (k, mk)) = fun (_ : MakerView) => k := rfl
      rw [this]
      exact chain'_map_const k v _ (Or.inl rfl)
    · intro x hx y hy
      have hxk : x = k := by
        rw [List.getLast?_map] at hx
        rcases hgl : v.getLast? with - | z
        · rw [hgl] at hx
          simp at hx
        · rw [hgl] at hx
          have hx2 : (Prod.fst ∘ fun mk => (k, mk)) z = x := by
            simpa using hx
          exact hx2.symm
      subst hxk
      right
      have hy' : y ∈ (flattenAsc t).map Prod.fst := by
        have := List.mem_of_mem_head? hy
        exact this
      exact priWF_keys_lt ms x v t hpri y (flatten_prices_mem t y hy')

theorem lookupLevel_not_mem (lad : Ladder) (p : Nat)
    (h : p ∉ keysOf lad) : lookupLevel lad p = none := by
  induction lad with
  | nil => rfl
  | cons e t ih =>
    simp only [keysOf, List.map_cons, List.mem_cons] at h
    push_neg at h
    simp only [lookupLevel]
    rw [if_neg (fun he => h.1 he.symm)]
    exact ih h.2

theorem flatten_filter_key (ms : Side) (lad : Ladder) (p : Nat)
    (hpri : priorityWF ms lad) :
    (flattenAsc lad).filter (fun e => e.1 == p) =
      ((lookupLevel lad p).getD []).map (fun mk => (p, mk)) := by
  induction lad with
  | nil => simp [flattenAsc_nil, lookupLevel]
  | cons e t ih =>
    rcases e with ⟨k, v⟩
    rw [flattenAsc_cons, List.filter_append]
    by_cases hk : k = p
    · subst hk
      have hnot : k ∉ keysOf t := by
        intro hmem
        have := priWF_keys_lt ms k v t hpri k hmem
        cases ms <;> (simp only [priOrder] at this; omega)
      have h2 : (flattenAsc t).filter (fun e => e.1 == k) = [] := by
        rw [List.filter_eq_nil_iff]
        intro e he
        intro habs
        apply hnot
        have hek : e.1 = k := by simpa using habs
        have hm : e.1 ∈ (flattenAsc t).map Prod.fst :=
          List.mem_map_of_mem Prod.fst he
        exact hek ▸ flatten_prices_mem t e.1 hm
      rw [h2, List.append_nil, lookupLevel_head]
      simp only [Option.getD_some]
      rw [List.filter_eq_self.mpr]
      intro e he
      simp only [List.mem_map] at he
      obtain ⟨mk, -, rfl⟩ := he
      simp
    · have h1 : (v.map (fun mk => (k, mk))).filter (fun e => e.1 == p) = [] := by
        rw [List.filter_eq_nil_iff]
        intro e he
        simp only [List.mem_map] at he
        obtain ⟨mk, -, rfl⟩ := he
        simpa using hk
      rw [h1, List.nil_append]
      simp only [lookupLevel]
      rw [if_neg hk]
      exact ih (priWF_tail ms k v t hpri)

theorem keys_chain_nodup (l : List Nat) (h : l.Chain' (· < ·)) : l.Nodup := by
  rw [List.chain'_iff_pairwise] at h
  exact h.imp Nat.ne_of_lt

theorem lookupLevel_append (l₁ l₂ : Ladder) (p : Nat) :
    lookupLevel (l₁ ++ l₂) p =
      match lookupLevel l₁ p with
      | some v => some v
      | none => lookupLevel l₂ p := by
  induction l₁ with
  | nil => rfl
  | cons e t ih =>
    rcases e with ⟨k, v⟩
    simp only [List.cons_append, lookupLevel]
    by_cases hk : k = p
    · rw [if_pos hk, if_pos hk]
    · rw [if_neg hk, if_neg hk]
      exact ih

theorem lookupLevel_reverse (lad : Ladder)
    (hnd : (keysOf lad).Nodup) (p : Nat) :
    lookupLevel lad.reverse p = lookupLevel lad p := by
  induction lad with
  | nil => rfl
  | cons e t ih =>
    rcases e with ⟨k, v⟩
    simp only [keysOf, List.map_cons, List.nodup_cons] at hnd
    rw [List.reverse_cons, lookupLevel_append]
    by_cases hk : k = p
    · subst hk
      have hnone : lookupLevel t.reverse k = none := by
        apply lookupLevel_not_mem
        intro hm
        have hm' : k ∈ (keysOf t).reverse := by
          simpa [keysOf, List.map_reverse] using hm
        exact hnd.1 (List.mem_reverse.mp hm')
      rw [hnone]
      simp [lookupLevel]
    · rw [ih hnd.2]
      rcases hlt : lookupLevel t p with - | w
      · simp [lookupLevel, hk, hlt]
      · simp [lookupLevel, hk, hlt]

theorem lookupLevel_priorityLadder (ms : Side) (b : LBook)
    (hWF : b.WF) (p : Nat) :
    lookupLevel (priorityLadder ms b) p = lookupLevel (sideMap b ms) p := by
  cases ms with
  | Sell => rfl
  | Buy => exact lookupLevel_reverse b.bids (keys_chain_nodup _ hWF.2.1) p

theorem execute_ok_loop {B H : Type} [DecidableEq H] (ops : BookOps B H)
    (book : B) (order : IncomingOrder) (limits : EngineLimits)
    (b' : B) (rep : ExecutionReport)
    (h : execute ops book order limits = (b', .ok rep)) :
    rep.trades = [] ∨
    ∃ rq0 book1 remaining1 rqf1,
      execLoop ops order limits
        (decide (order.kind = .Market ∧ order.side = .Buy))
        (decide (order.kind = .Limit ∧ order.side = .Buy))
        order.side.opposite (limits.max_trades + 1) book order.amount_base
        [] 0 rq0 = (book1, .ok (rep.trades, remaining1, rqf1)) := by
  simp only [execute] at h
  split at h
  · injection h with h1 h2
    exact Except.noConfusion h2
  · split at h
    · injection h with h1 h2
      exact Except.noConfusion h2
    · split at h
      · split at h
        · injection h with h1 h2
          exact Except.noConfusion h2
        · injection h with h1 h2
          injection h2 with h3
          subst h3
          exact Or.inl rfl
        · simp only [execRun] at h
          split at h
          · injection h with h1 h2
            exact Except.noConfusion h2
          · rename_i rq0 heq1
            split at h
            · injection h with h1 h2
              exact Except.noConfusion h2
            · rename_i book1 trades1 remaining1 rqf1 heq2
              have htr := execFinalize_ok_trades _ _ _ _ _ _ _ _ _ _ h
              exact Or.inr ⟨rq0, book1, remaining1, rqf1, by
                rw [htr]; exact heq2⟩
      · simp only [execRun] at h
        split at h
        · injection h with h1 h2
          exact Except.noConfusion h2
        · rename_i rq0 heq1
          split at h
          · injection h with h1 h2
            exact Except.noConfusion h2
          · rename_i book1 trades1 remaining1 rqf1 heq2
            have htr := execFinalize_ok_trades _ _ _ _ _ _ _ _ _ _ h
            exact Or.inr ⟨rq0, book1, remaining1, rqf1, by
              rw [htr]; exact heq2⟩

/-- C6: price-time priority of the trade sequence.  In every successful
`ExecutionReport`, a Buy taker's trade prices are non-decreasing and a
Sell taker's are non-increasing, and for any price `p` the maker order
ids of the trades executed at `p` are a prefix of the FIFO queue at
price level `p` of the opposite side of the pre-call book. -/
theorem spec_C6_price_time_priority (b : LBook) (order : IncomingOrder)
    (limits : EngineLimits) (b' : LBook) (rep : ExecutionReport)
    (hWF : b.WF)
    (hexec : execute lbOps b order limits = (b', .ok rep)) :
    (order.side = .Buy → (rep.trades.map Trade.price).Chain' (· ≤ ·)) ∧
    (order.side = .Sell →
      (rep.trades.map Trade.price).Chain' (fun a c => c ≤ a)) ∧
    (∀ p, ((rep.trades.filter (fun t => t.price == p)).map
        Trade.maker_order_id) <+:
      ((lookupLevel (sideMap b order.side.opposite) p).getD []).map
        MakerView.id) := by
  rcases execute_ok_loop lbOps b order limits b' rep hexec with
    htr | ⟨rq0, book1, remaining1, rqf1, hloop⟩
  · rw [htr]
    exact ⟨fun _ => by simp, fun _ => by simp, fun p => by
      simp only [List.filter_nil, List.map_nil]
      exact List.nil_prefix⟩
  · have hpri := priWF_of_WF b hWF order.side.opposite
    rcases hFe : execFlat order limits
        (decide (order.kind = .Market ∧ order.side = .Buy))
        (decide (order.kind = .Limit ∧ order.side = .Buy))
        (limits.max_trades + 1) (flattenBest order.side.opposite b)
        order.amount_base [] 0 rq0 with ⟨L', r'⟩
    have hsim := execLoop_simulates order limits
      (decide (order.kind = .Market ∧ order.side = .Buy))
      (decide (order.kind = .Limit ∧ order.side = .Buy))
      order.side.opposite (limits.max_trades + 1) b order.amount_base [] 0
      rq0 book1 (.ok (rep.trades, remaining1, rqf1)) L' r' hpri hloop hFe
    rw [← hsim.1] at hFe
    obtain ⟨newtr, hnew, hpre⟩ := execFlat_trades_tag_prefix order limits
      (decide (order.kind = .Market ∧ order.side = .Buy))
      (decide (order.kind = .Limit ∧ order.side = .Buy))
      (limits.max_trades + 1) (flattenBest order.side.opposite b)
      order.amount_base [] 0 rq0 L' rep.trades remaining1 rqf1 hFe
    rw [List.nil_append] at hnew
    rw [← hnew] at hpre
    have hchain := flatten_prices_chain order.side.opposite
      (priorityLadder order.side.opposite b) hpri
    have hpfx1 : rep.trades.map Trade.price <+:
        (flattenBest order.side.opposite b).map Prod.fst := by
      have h1 := List.IsPrefix.map Prod.fst hpre
      rw [List.map_map, List.map_map] at h1
      exact h1
    have hchain' : (rep.trades.map Trade.price).Chain'
        (fun a c => a = c ∨ priOrder order.side.opposite a c) :=
      List.Chain'.prefix hchain hpfx1
    refine ⟨?_, ?_, ?_⟩
    · intro hbuy
      have hms : order.side.opposite = Side.Sell := by rw [hbuy]; rfl
      rw [hms] at hchain'
      refine hchain'.imp ?_
      intro a c hac
      rcases hac with rfl | hac
      · exact le_refl a
      · exact le_of_lt hac
    · intro hsell
      have hms : order.side.opposite = Side.Buy := by rw [hsell]; rfl
      rw [hms] at hchain'
      refine hchain'.imp ?_
      intro a c hac
      rcases hac with rfl | hac
      · exact le_refl a
      · exact le_of_lt hac
    · intro p
      have hf := List.IsPrefix.filter (fun e => e.1 == p) hpre
      rw [List.filter_map, List.filter_map] at hf
      have hf2 := List.IsPrefix.map Prod.snd hf
      rw [List.map_map, List.map_map] at hf2
      have hcast : ((flattenBest order.side.opposite b).filter
            ((fun e => e.1 == p) ∘ makerTag)).map (Prod.snd ∘ makerTag) =
          ((lookupLevel (sideMap b order.side.opposite) p).getD []).map
            MakerView.id := by
        have h1 : (flattenBest order.side.opposite b).filter
            ((fun e => e.1 == p) ∘ makerTag) =
            ((lookupLevel (priorityLadder order.side.opposite b) p).getD
              []).map (fun mk => (p, mk)) :=
          flatten_filter_key order.side.opposite
            (priorityLadder order.side.opposite b) p hpri
        rw [h1, List.map_map, lookupLevel_priorityLadder
          order.side.opposite b hWF p]
        rfl
      rw [← hcast]
      exact hf2

/-- Concrete book for the C6 witness: two makers queued at one ask level
and one maker at a worse level. -/
def bookC6 : LBook :=
  { asks := [(10 ^ 33,
      [⟨1, 11, .Sell, 10 ^ 33, 1, 0⟩, ⟨2, 12, .Sell, 10 ^ 33, 1, 0⟩]),
     (2 * 10 ^ 33, [⟨3, 13, .Sell, 2 * 10 ^ 33, 1, 0⟩])],
    bids := [] }

/-- Concrete taker for the C6 witness. -/
def ordC6 : IncomingOrder :=
  ⟨99, .Buy, .Limit, 2 * 10 ^ 33, 3, 7, 0⟩

/-- Limits for the C6 witness. -/
def limC6 : EngineLimits := ⟨10, 10⟩

/-- The report `execute` produces on `bookC6`/`ordC6`/`limC6`. -/
def repC6 : ExecutionReport :=
  { trades := [⟨1, 99, 11, 7, 10 ^ 33, 1, 1⟩, ⟨2, 99, 12, 7, 10 ^ 33, 1, 1⟩,
      ⟨3, 99, 13, 7, 2 * 10 ^ 33, 1, 2⟩],
    completion := .Filled }

/-! ### Market-Buy budget preview on the flattened ladder (for C5) -/

/-- The scan of `preview_market_buy_budget_strict` replayed on the
flattened ask list.  Mirrors `mbScan` branch for branch; advancing inside
a level and hopping to the next level both become taking the tail. -/
def mbFlat (maxQuote maxScans : Nat) :
    Nat → List (Nat × MakerView) → Nat → Nat → Nat → Except MatchError Unit
  | 0, _, _, _, _ => .error (.ScanLimitReached maxScans)
  | fuel + 1, L, remaining, required, scanned =>
    let s := scanned + 1
    if s > maxScans then .error (.ScanLimitReached maxScans)
    else
      match L with
      | [] => .error (.BrokenBook .LevelHeadMissingMaker)
      | (price, maker) :: rest =>
        match validate_maker_view maker .Sell price with
        | .error e => .error e
        | .ok _ =>
          let fill := min remaining maker.remaining_base
          match calc_quote_floor fill price with
          | .error e => .error e
          | .ok q =>
            match checkedAdd required q with
            | none => .error .AddOverflow
            | some required' =>
              if required' > maxQuote then .error .MarketBuyMaxQuoteExceeded
              else
                match checkedSub remaining fill with
                | none => .error .SubUnderflow
                | some remaining' =>
                  if remaining' = 0 then .ok ()
                  else
                    match rest with
                    | [] => .error .MarketBuyInsufficientLiquidity
                    | _ :: _ =>
                      mbFlat maxQuote maxScans fuel rest remaining' required' s

theorem validate_maker_view_ok (maker : MakerView) (s : Side) (p : Nat)
    (h : validate_maker_view maker s p = .ok ()) :
    maker.side = s ∧ maker.price = p ∧ maker.remaining_base ≠ 0 := by
  unfold validate_maker_view at h
  split at h
  · exact Except.noConfusion h
  · split at h
    · exact Except.noConfusion h
    · split at h
      · exact Except.noConfusion h
      · rename_i h1 h2 h3
        exact ⟨not_not.mp h1, not_not.mp h2, h3⟩

theorem checkedSub_of_le (a b : Nat) (h : b ≤ a) :
    checkedSub a b = some (a - b) := by
  unfold checkedSub
  rw [if_pos h]

/-- In strict Market-Buy mode the loop's own budget guard keeps the total
spent quote within `max_quote`, independently of the preview. -/
theorem execFlat_budget (order : IncomingOrder) (limits : EngineLimits)
    (tLBQ : Bool) :
    ∀ (fuel : Nat) (L : List (Nat × MakerView)) (remaining : Nat)
      (trades : List Trade) (spent rq : Nat)
      (L' : List (Nat × MakerView)) (tr' : List Trade) (rem2 rq2 : Nat),
      execFlat order limits true tLBQ fuel L remaining trades spent rq =
        (L', .ok (tr', rem2, rq2)) →
      spent ≤ order.max_quote →
      ∃ newtr, tr' = trades ++ newtr ∧
        spent + (newtr.map Trade.amount_quote).sum ≤ order.max_quote := by
  intro fuel
  induction fuel with
  | zero =>
    intro L remaining trades spent rq L' tr' rem2 rq2 h hsp
    simp only [execFlat] at h
    injection h with h1 h2
    exact Except.noConfusion h2
  | succ fuel ih =>
    intro L remaining trades spent rq L' tr' rem2 rq2 h hsp
    by_cases hrem : remaining = 0
    · simp only [execFlat, if_pos hrem] at h
      injection h with h1 h2
      injection h2 with h3
      injection h3 with h4 h5
      exact ⟨[], by simp [← h4], by simpa using hsp⟩
    · by_cases htl : trades.length ≥ limits.max_trades
      · simp only [execFlat, if_neg hrem, if_pos htl] at h
        injection h with h1 h2
        exact Except.noConfusion h2
      · rcases L with - | ⟨⟨price, maker⟩, rest⟩
        · simp only [execFlat, if_neg hrem, if_neg htl] at h
          injection h with h1 h2
          injection h2 with h3
          injection h3 with h4 h5
          exact ⟨[], by simp [← h4], by simpa using hsp⟩
        · simp only [execFlat, if_neg hrem, if_neg htl] at h
          by_cases hcr : order.kind ≠ .Market ∧
              ¬ crosses order.side order.limit_price price
          · rw [if_pos hcr] at h
            injection h with h1 h2
            injection h2 with h3
            injection h3 with h4 h5
            exact ⟨[], by simp [← h4], by simpa using hsp⟩
          · rw [if_neg hcr] at h
            rcases hq : calc_quote_floor (min remaining maker.remaining_base)
                price with e | quote
            · simp only [hq] at h
              injection h with h1 h2
              exact Except.noConfusion h2
            · simp only [hq] at h
              rcases hadd : checkedAdd spent quote with - | sq
              · simp only [hadd] at h
                injection h with h1 h2
                exact Except.noConfusion h2
              · simp only [hadd] at h
                by_cases hgt : sq > order.max_quote
                · rw [if_pos hgt] at h
                  injection h with h1 h2
                  exact Except.noConfusion h2
                · rw [if_neg hgt] at h
                  simp only [if_true] at h
                  rcases hrqE : (if tLBQ = true then
                      match checkedSub rq quote with
                      | none => Except.error MatchError.SubUnderflow
                      | some rq => Except.ok rq
                    else Except.ok rq) with e | rq'
                  · simp only [hrqE] at h
                    injection h with h1 h2
                    exact Except.noConfusion h2
                  · simp only [hrqE] at h
                    rcases hmn : checkedSub maker.remaining_base
                        (min remaining maker.remaining_base) with - | maker_new
                    · simp only [hmn] at h
                      injection h with h1 h2
                      exact Except.noConfusion h2
                    · simp only [hmn] at h
                      rcases hupd : (if maker.side = Side.Buy then
                          match checkedSub maker.reserved_quote quote with
                          | none => Except.error MatchError.SubUnderflow
                          | some new_rq =>
                            Except.ok { maker with reserved_quote := new_rq }
                        else Except.ok maker) with e | maker1
                      · simp only [hupd] at h
                        injection h with h1 h2
                        exact Except.noConfusion h2
                      · simp only [hupd] at h
                        rcases hr2 : checkedSub remaining
                            (min remaining maker.remaining_base)
                            with - | remaining2
                        · simp only [hr2] at h
                          injection h with h1 h2
                          exact Except.noConfusion h2
                        · simp only [hr2] at h
                          have hsq := (checkedAdd_some _ _ _ hadd).1
                          obtain ⟨newtr', hcat, hb⟩ :=
                            ih _ _ _ _ _ _ _ _ _ h (by omega)
                          refine ⟨mkTrade order price maker
                            (min remaining maker.remaining_base) quote ::
                              newtr', ?_, ?_⟩
                          · rw [hcat, List.append_assoc]
                            rfl
                          · simp only [List.map_cons, List.sum_cons, mkTrade]
                            omega

/-- Agreement of the flat preview with the flat matching loop: when the
preview scan accepts, the loop either hits the trade limit or fills the
order completely — the inconsistency errors and early exits are
unreachable. -/
theorem mbFlat_execFlat_shape (order : IncomingOrder) (limits : EngineLimits)
    (maxScans : Nat) (hkind : order.kind = .Market) :
    ∀ (fuelE : Nat) (L : List (Nat × MakerView)) (remaining : Nat)
      (trades : List Trade) (spent rq : Nat) (fuelP scanned : Nat)
      (L' : List (Nat × MakerView))
      (r' : Except MatchError (List Trade × Nat × Nat)),
      (remaining = 0 ∨
        mbFlat order.max_quote maxScans fuelP L remaining spent scanned =
          .ok ()) →
      execFlat order limits true false fuelE L remaining trades spent rq =
        (L', r') →
      r' = .error (.TradeLimitReached limits.max_trades) ∨
      ∃ tr' rq2, r' = .ok (tr', 0, rq2) := by
  intro fuelE
  induction fuelE with
  | zero =>
    intro L remaining trades spent rq fuelP scanned L' r' h0 hF
    simp only [execFlat] at hF
    injection hF with h1 h2
    exact Or.inl h2.symm
  | succ fuelE ih =>
    intro L remaining trades spent rq fuelP scanned L' r' h0 hF
    by_cases hrem : remaining = 0
    · simp only [execFlat, if_pos hrem] at hF
      injection hF with h1 h2
      right
      refine ⟨trades, rq, ?_⟩
      rw [← h2, hrem]
    · by_cases htl : trades.length ≥ limits.max_trades
      · simp only [execFlat, if_neg hrem, if_pos htl] at hF
        injection hF with h1 h2
        exact Or.inl h2.symm
      · rcases h0 with h0 | hmb
        · exact absurd h0 hrem
        · rcases fuelP with - | fp
          · simp only [mbFlat] at hmb
            exact Except.noConfusion hmb
          · simp only [mbFlat] at hmb
            by_cases hs : scanned + 1 > maxScans
            · rw [if_pos hs] at hmb
              exact Except.noConfusion hmb
            · rw [if_neg hs] at hmb
              rcases L with - | ⟨⟨price, maker⟩, rest⟩
              · exact Except.noConfusion hmb
              · rcases hvm : validate_maker_view maker .Sell price with e | u
                · simp only [hvm] at hmb
                  exact Except.noConfusion hmb
                · simp only [hvm] at hmb
                  rcases hq : calc_quote_floor
                      (min remaining maker.remaining_base) price with e | q
                  · simp only [hq] at hmb
                    exact Except.noConfusion hmb
                  · simp only [hq] at hmb
                    rcases hadd : checkedAdd spent q with - | required'
                    · simp only [hadd] at hmb
                      exact Except.noConfusion hmb
                    · simp only [hadd] at hmb
                      by_cases hgt : required' > order.max_quote
                      · rw [if_pos hgt] at hmb
                        exact Except.noConfusion hmb
                      · rw [if_neg hgt] at hmb
                        rcases hrs : checkedSub remaining
                            (min remaining maker.remaining_base)
                            with - | remaining'
                        · simp only [hrs] at hmb
                          exact Except.noConfusion hmb
                        · simp only [hrs] at hmb
                          obtain ⟨hmside, hmprice, hmrem⟩ :=
                            validate_maker_view_ok _ _ _ hvm
                          have hnb : ¬ (maker.side = Side.Buy) := by
                            rw [hmside]
                            exact fun h => Side.noConfusion h
                          have hmn : checkedSub maker.remaining_base
                              (min remaining maker.remaining_base) =
                              some (maker.remaining_base -
                                min remaining maker.remaining_base) :=
                            checkedSub_of_le _ _ (Nat.min_le_right _ _)
                          simp only [execFlat, if_neg hrem, if_neg htl] at hF
                          rw [if_neg (fun hc => hc.1 hkind)] at hF
                          simp only [hq, hadd, eq_self_iff_true, if_true,
                            if_neg hgt, Bool.false_eq_true, if_false,
                            if_neg hnb, hmn, hrs] at hF
                          by_cases hr0 : remaining' = 0
                          · exact ih _ _ _ _ _ fp (scanned + 1) _ _
                              (Or.inl hr0) hF
                          · rw [if_neg hr0] at hmb
                            rcases rest with - | ⟨r1, rs⟩
                            · exact Except.noConfusion hmb
                            · have hsub := checkedSub_some _ _ _ hrs
                              have hmn0 : maker.remaining_base -
                                  min remaining maker.remaining_base = 0 := by
                                omega
                              rw [hmn0] at hF
                              simp only [eq_self_iff_true, if_true] at hF
                              exact ih _ _ _ _ _ fp (scanned + 1) _ _
                                (Or.inr hmb) hF

theorem keys_decomp_bounds (pre : Ladder) (p : Nat) (v : List MakerView)
    (t : Ladder) (hch : (keysOf (pre ++ (p, v) :: t)).Chain' (· < ·)) :
    (∀ k ∈ keysOf pre, k < p) ∧ (∀ k ∈ keysOf t, p < k) := by
  have hk : keysOf (pre ++ (p, v) :: t) = keysOf pre ++ p :: keysOf t := by
    simp [keysOf]
  rw [hk, List.chain'_iff_pairwise, List.pairwise_append] at hch
  obtain ⟨h1, h2, h3⟩ := hch
  rw [List.pairwise_cons] at h2
  exact ⟨fun k hk_ => h3 k hk_ p (List.mem_cons_self ..), h2.1⟩

theorem lookup_decomp (pre : Ladder) (p : Nat) (v : List MakerView)
    (t : Ladder) (hne : ∀ k ∈ keysOf pre, k ≠ p) :
    lookupLevel (pre ++ (p, v) :: t) p = some v := by
  rw [lookupLevel_append]
  rw [lookupLevel_not_mem pre p (fun hm => hne p hm rfl)]
  simp [lookupLevel]

theorem filter_keys_gt_nil (p : Nat) (ks : List Nat)
    (hlt : ∀ k ∈ ks, k < p) : ks.filter (fun k => p < k) = [] := by
  rw [List.filter_eq_nil_iff]
  intro k hk
  have := hlt k hk
  simp only [decide_eq_true_eq]
  omega

theorem filter_keys_gt_all (p : Nat) (ks : List Nat)
    (hgt : ∀ k ∈ ks, p < k) : ks.filter (fun k => p < k) = ks := by
  rw [List.filter_eq_self]
  intro k hk
  simpa using hgt k hk

theorem sell_get_maker_at (b : LBook) (pre : Ladder) (p : Nat)
    (v : List MakerView) (t : Ladder) (i : Nat)
    (hasks : b.asks = pre ++ (p, v) :: t)
    (hne : ∀ k ∈ keysOf pre, k ≠ p) :
    lbOps.get_maker b (⟨.Sell, p, i⟩ : LHandle) = v[i]? := by
  have hlk : lookupLevel (sideMap b Side.Sell) p = some v := by
    show lookupLevel b.asks p = some v
    rw [hasks]
    exact lookup_decomp pre p v t hne
  show (match lookupLevel (sideMap b Side.Sell) p with
    | none => none
    | some l => l[i]?) = v[i]?
  rw [hlk]

theorem sell_next_in_level_at (b : LBook) (pre : Ladder) (p : Nat)
    (v : List MakerView) (t : Ladder) (i : Nat)
    (hasks : b.asks = pre ++ (p, v) :: t)
    (hne : ∀ k ∈ keysOf pre, k ≠ p) :
    lbOps.next_in_level b (⟨.Sell, p, i⟩ : LHandle) =
      if i + 1 < v.length then some (⟨.Sell, p, i + 1⟩ : LHandle) else none := by
  have hlk : lookupLevel (sideMap b Side.Sell) p = some v := by
    show lookupLevel b.asks p = some v
    rw [hasks]
    exact lookup_decomp pre p v t hne
  show (match lookupLevel (sideMap b Side.Sell) p with
    | none => none
    | some l =>
      if i + 1 < l.length then some (⟨Side.Sell, p, i + 1⟩ : LHandle)
      else none) = _
  rw [hlk]

theorem sell_level_head_at (b : LBook) (q : Nat) (w : List MakerView)
    (hlk : lookupLevel b.asks q = some w) (hne : w ≠ []) :
    lbOps.level_head b .Sell q = some ⟨.Sell, q, 0⟩ := by
  rcases w with - | ⟨w0, ws⟩
  · exact absurd rfl hne
  · show (match lookupLevel (sideMap b Side.Sell) q with
      | none => none
      | some [] => none
      | some (_ :: _) => some (⟨Side.Sell, q, 0⟩ : LHandle)) = _
    have hlk' : lookupLevel (sideMap b Side.Sell) q = some (w0 :: ws) := hlk
    rw [hlk']

theorem sell_next_price_at (b : LBook) (pre : Ladder) (p : Nat)
    (v : List MakerView) (t : Ladder)
    (hasks : b.asks = pre ++ (p, v) :: t)
    (hlt : ∀ k ∈ keysOf pre, k < p) (hgt : ∀ k ∈ keysOf t, p < k) :
    lbOps.next_price b .Sell p = (keysOf t).head? := by
  show ((keysOf b.asks).filter (fun k => p < k)).head? = _
  rw [hasks]
  have hk : keysOf (pre ++ (p, v) :: t) = keysOf pre ++ p :: keysOf t := by
    simp [keysOf]
  rw [hk, List.filter_append, filter_keys_gt_nil p _ hlt, List.nil_append,
    List.filter_cons]
  rw [if_neg (by simp)]
  rw [filter_keys_gt_all p _ hgt]

theorem sell_best_price_at (b : LBook) (p : Nat) (v : List MakerView)
    (t : Ladder) (hasks : b.asks = (p, v) :: t) :
    lbOps.best_price b .Sell = some p := by
  show (keysOf b.asks).head? = some p
  rw [hasks]
  rfl

/-- The budget-preview scan on a well-formed book equals the flat scan
on the flattened remainder of the ask ladder. -/
theorem mbScan_simulates (b : LBook) (hWF : b.WF) (maxQuote maxScans : Nat) :
    ∀ (fuel : Nat) (pre : Ladder) (price : Nat) (v : List MakerView)
      (t : Ladder) (i remaining required scanned : Nat),
      b.asks = pre ++ (price, v) :: t →
      i < v.length →
      mbScan lbOps b maxQuote maxScans fuel price ⟨.Sell, price, i⟩
        remaining required scanned =
      mbFlat maxQuote maxScans fuel
        ((v.drop i).map (fun mk => (price, mk)) ++ flattenAsc t)
        remaining required scanned := by
  intro fuel
  induction fuel with
  | zero =>
    intro pre price v t i remaining required scanned hasks hi
    rfl
  | succ fuel ih =>
    intro pre price v t i remaining required scanned hasks hi
    have hch := hWF.1.1
    rw [hasks] at hch
    obtain ⟨hlt, hgt⟩ := keys_decomp_bounds pre price v t hch
    have hne : ∀ k ∈ keysOf pre, k ≠ price :=
      fun k hk => Nat.ne_of_lt (hlt k hk)
    have hget := sell_get_maker_at b pre price v t i hasks hne
    have hvi : v[i]? = some v[i] := List.getElem?_eq_getElem hi
    have hdropi := List.drop_eq_getElem_cons hi
    simp only [mbScan, mbFlat]
    by_cases hs : scanned + 1 > maxScans
    · rw [if_pos hs, if_pos hs]
    · rw [if_neg hs, if_neg hs]
      simp only [hdropi, List.map_cons, List.cons_append, hget, hvi]
      rcases hvm : validate_maker_view v[i] .Sell price with e | u
      · simp only [hvm]
      · simp only [hvm]
        rcases hq : calc_quote_floor
            (min remaining (v[i]).remaining_base) price with e | q
        · simp only [hq]
        · simp only [hq]
          rcases hadd : checkedAdd required q with - | required'
          · simp only [hadd]
          · simp only [hadd]
            by_cases hgt' : required' > maxQuote
            · rw [if_pos hgt', if_pos hgt']
            · rw [if_neg hgt', if_neg hgt']
              rcases hrs : checkedSub remaining
                  (min remaining (v[i]).remaining_base) with - | remaining'
              · simp only [hrs]
              · simp only [hrs]
                by_cases hr0 : remaining' = 0
                · rw [if_pos hr0, if_pos hr0]
                · rw [if_neg hr0, if_neg hr0]
                  have hnil := sell_next_in_level_at b pre price v t i
                    hasks hne
                  by_cases hi1 : i + 1 < v.length
                  · have hnil1 : lbOps.next_in_level b
                        (⟨.Sell, price, i⟩ : LHandle) =
                        some ⟨.Sell, price, i + 1⟩ := by
                      rw [hnil, if_pos hi1]
                    have hdrop1 := List.drop_eq_getElem_cons hi1
                    simp only [hnil1, hdrop1, List.map_cons,
                      List.cons_append]
                    rw [if_neg (show ¬ ((⟨Side.Sell, price, i + 1⟩ : LHandle)
                      = ⟨Side.Sell, price, i⟩) from by simp)]
                    rw [ih pre price v t (i + 1) remaining' required'
                      (scanned + 1) hasks hi1]
                    simp only [hdrop1, List.map_cons, List.cons_append]
                  · have hnil0 : lbOps.next_in_level b
                        (⟨.Sell, price, i⟩ : LHandle) = none := by
                      rw [hnil, if_neg hi1]
                    have hdropn : v.drop (i + 1) = [] :=
                      List.drop_eq_nil_of_le (by omega)
                    have hnp := sell_next_price_at b pre price v t hasks
                      hlt hgt
                    simp only [hnil0, hdropn, List.map_nil, List.nil_append]
                    rcases t with - | ⟨⟨p2, v2⟩, t2⟩
                    · simp only [hnp]
                      simp [flattenAsc_nil, keysOf]
                    · have hp2 : lbOps.next_price b .Sell price = some p2 := by
                        rw [hnp]
                        rfl
                      have hppre2 : b.asks =
                          (pre ++ [(price, v)]) ++ (p2, v2) :: t2 := by
                        rw [hasks]
                        simp
                      have hp2gt : price < p2 := hgt p2 (by simp [keysOf])
                      have hne2 : ∀ k ∈ keysOf (pre ++ [(price, v)]),
                          k ≠ p2 := by
                        intro k hk
                        simp only [keysOf, List.map_append,
                          List.mem_append] at hk
                        rcases hk with hk | hk
                        · exact Nat.ne_of_lt (lt_trans (hlt k hk) hp2gt)
                        · simp at hk
                          subst hk
                          exact Nat.ne_of_lt hp2gt
                      have hlk2 : lookupLevel b.asks p2 = some v2 := by
                        rw [hppre2]
                        exact lookup_decomp _ p2 v2 t2 hne2
                      have hv2ne : v2 ≠ [] := by
                        have hlv := hWF.1.2 (p2, v2) (by rw [hasks]; simp)
                        exact hlv.1
                      have hlh2 := sell_level_head_at b p2 v2 hlk2 hv2ne
                      have hp2ne : ¬ (p2 = price) := by omega
                      simp only [hp2, if_neg hp2ne, hlh2]
                      rcases v2 with - | ⟨m2, v2t⟩
                      · exact absurd rfl hv2ne
                      · rw [ih (pre ++ [(price, v)]) p2 (m2 :: v2t) t2 0
                          remaining' required' (scanned + 1) hppre2
                          (by simp)]
                        simp [flattenAsc_cons]

/-- A successful strict budget preview on a well-formed book yields a
successful flat scan over the flattened ask ladder. -/
theorem preview_ok_mbFlat (b : LBook) (hWF : b.WF) (order : IncomingOrder)
    (limits : EngineLimits)
    (hprev : preview_market_buy_budget_strict lbOps b order limits =
      .ok ()) :
    mbFlat order.max_quote limits.max_preview_scans
      (limits.max_preview_scans + 1) (flattenAsc b.asks)
      order.amount_base 0 0 = .ok () := by
  unfold preview_market_buy_budget_strict at hprev
  split at hprev
  · exact Except.noConfusion hprev
  · split at hprev
    · exact Except.noConfusion hprev
    · rcases hasks : b.asks with - | ⟨⟨p0, v0⟩, t0⟩
      · have hbp : lbOps.best_price b .Sell = none := by
          show (keysOf b.asks).head? = none
          rw [hasks]
          rfl
        simp only [hbp] at hprev
        exact Except.noConfusion hprev
      · have hbp := sell_best_price_at b p0 v0 t0 hasks
        simp only [hbp] at hprev
        have hv0ne : v0 ≠ [] := (hWF.1.2 (p0, v0) (by rw [hasks]; simp)).1
        have hlk0 : lookupLevel b.asks p0 = some v0 := by
          rw [hasks]
          exact lookup_decomp [] p0 v0 t0
            (fun k hk => by simp [keysOf] at hk)
        have hlh0 := sell_level_head_at b p0 v0 hlk0 hv0ne
        simp only [hlh0] at hprev
        rcases v0 with - | ⟨m0, v0t⟩
        · exact absurd rfl hv0ne
        · rw [mbScan_simulates b hWF order.max_quote
            limits.max_preview_scans (limits.max_preview_scans + 1) []
            p0 (m0 :: v0t) t0 0 order.amount_base 0 0 hasks
            (by simp)] at hprev
          rw [flattenAsc_cons]
          simpa using hprev

/-- C5: strict Market-Buy budget preview and preview-vs-execute
agreement.  If the preview fails, `execute` returns the same error with
the book untouched (the mutation loop is never entered); if the preview
succeeds on a well-formed book, the loop can only fail with
`TradeLimitReached` — the budget/liquidity inconsistency errors are
unreachable — and a successful execution fills the order completely with
total spent quote within `max_quote`. -/
theorem spec_C5_market_buy_preview (b : LBook) (order : IncomingOrder)
    (limits : EngineLimits) (hWF : b.WF) (hkind : order.kind = .Market)
    (hside : order.side = .Buy) (hval : validate order = .ok ()) :
    (∀ e, preview_market_buy_budget_strict lbOps b order limits =
        .error e →
      execute lbOps b order limits = (b, .error e)) ∧
    (preview_market_buy_budget_strict lbOps b order limits = .ok () →
      (∀ b' e, execute lbOps b order limits = (b', .error e) →
        e = .TradeLimitReached limits.max_trades) ∧
      (∀ b' rep, execute lbOps b order limits = (b', .ok rep) →
        rep.completion = .Filled ∧
        (rep.trades.map Trade.amount_quote).sum ≤ order.max_quote)) := by
  have hsMB : decide (order.kind = .Market ∧ order.side = .Buy) = true := by
    simp [hkind, hside]
  have htLBQ : decide (order.kind = .Limit ∧ order.side = .Buy) = false := by
    simp [hkind]
  have hms : order.side.opposite = Side.Sell := by
    rw [hside]
    rfl
  constructor
  · intro e hpe
    simp [execute, hval, hkind, hside, hpe]
  · intro hprev
    have hflat := preview_ok_mbFlat b hWF order limits hprev
    have hred : execute lbOps b order limits =
        execRun lbOps b order limits := by
      simp [execute, hval, hkind, hside, hprev]
    have key : ∀ bres r, execRun lbOps b order limits = (bres, r) →
        r = .error (.TradeLimitReached limits.max_trades) ∨
        ∃ tr, r = .ok { trades := tr, completion := .Filled } ∧
          (tr.map Trade.amount_quote).sum ≤ order.max_quote := by
      intro bres r hrun
      simp only [execRun] at hrun
      split at hrun
      · rename_i e heq1
        rw [htLBQ] at heq1
        simp only [Bool.false_eq_true, if_false] at heq1
        exact Except.noConfusion heq1
      · rename_i rq0 heq1
        rw [htLBQ] at heq1
        simp only [Bool.false_eq_true, if_false] at heq1
        have hrq0 : rq0 = 0 := by
          injection heq1 with h
          exact h.symm
        subst hrq0
        have hpri := priWF_of_WF b hWF Side.Sell
        split at hrun
        · rename_i book1 e heq2
          rw [hsMB, htLBQ, hms] at heq2
          injection hrun with hb1 hr1
          rcases hFe : execFlat order limits true false
              (limits.max_trades + 1) (flattenBest Side.Sell b)
              order.amount_base [] 0 0 with ⟨L', r'⟩
          have hsim := execLoop_simulates order limits true false Side.Sell
            (limits.max_trades + 1) b order.amount_base [] 0 0 book1
            (.error e) L' r' hpri heq2 hFe
          have hshape := mbFlat_execFlat_shape order limits
            limits.max_preview_scans hkind (limits.max_trades + 1)
            (flattenBest Side.Sell b) order.amount_base [] 0 0
            (limits.max_preview_scans + 1) 0 L' r' (Or.inr hflat) hFe
          rcases hshape with hTL | ⟨tr', rq2, hok⟩
          · left
            rw [← hr1]
            rw [← hsim.1] at hTL
            injection hTL with he
            rw [he]
          · rw [← hsim.1] at hok
            exact Except.noConfusion hok
        · rename_i book1 trades1 remaining1 rqf1 heq2
          rw [hsMB, htLBQ, hms] at heq2
          rcases hFe : execFlat order limits true false
              (limits.max_trades + 1) (flattenBest Side.Sell b)
              order.amount_base [] 0 0 with ⟨L', r'⟩
          have hsim := execLoop_simulates order limits true false Side.Sell
            (limits.max_trades + 1) b order.amount_base [] 0 0 book1
            (.ok (trades1, remaining1, rqf1)) L' r' hpri heq2 hFe
          have hshape := mbFlat_execFlat_shape order limits
            limits.max_preview_scans hkind (limits.max_trades + 1)
            (flattenBest Side.Sell b) order.amount_base [] 0 0
            (limits.max_preview_scans + 1) 0 L' r' (Or.inr hflat) hFe
          rcases hshape with hTL | ⟨tr', rq2, hok⟩
          · rw [← hsim.1] at hTL
            exact Except.noConfusion hTL
          · rw [← hsim.1] at hok
            injection hok with hok1
            injection hok1 with htr hok2
            injection hok2 with hrem hrq
            subst htr
            subst hrem
            rw [hsMB, htLBQ] at hrun
            have hfin : execFinalize lbOps order true false book1 trades1
                0 rqf1 = (book1,
                  .ok { trades := trades1, completion := .Filled }) := by
              unfold execFinalize
              rw [if_neg (by simp), if_pos rfl]
            rw [hfin] at hrun
            injection hrun with hb1 hr1
            rw [← hsim.1] at hFe
            obtain ⟨newtr, hcat, hsum⟩ := execFlat_budget order limits
              false (limits.max_trades + 1) (flattenBest Side.Sell b)
              order.amount_base [] 0 0 L' trades1 0 rqf1 hFe
              (Nat.zero_le _)
            rw [List.nil_append] at hcat
            right
            refine ⟨trades1, hr1.symm, ?_⟩
            rw [hcat]
            simpa using hsum
    constructor
    · intro b' e hexec
      rw [hred] at hexec
      rcases key b' (.error e) hexec with h | ⟨tr, habs, -⟩
      · exact Except.error.inj h
      · exact Except.noConfusion habs
    · intro b' rep hexec
      rw [hred] at hexec
      rcases key b' (.ok rep) hexec with h | ⟨tr, hok, hsum⟩
      · exact Except.noConfusion h
      · injection hok with hrep
        rw [hrep]
        exact ⟨rfl, hsum⟩

/-- Concrete book for the C5 witness. -/
def bookC5 : LBook :=
  { asks := [(10 ^ 33, [⟨1, 11, .Sell, 10 ^ 33, 2, 0⟩])], bids := [] }

/-- Concrete Market Buy taker for the C5 witness. -/
def ordC5 : IncomingOrder := ⟨99, .Buy, .Market, 0, 2, 7, 5⟩

/-- Limits for the C5 witness. -/
def limC5 : EngineLimits := ⟨10, 10⟩

/-- The report `execute` produces on `bookC5`/`ordC5`/`limC5`. -/
def repC5 : ExecutionReport :=
  { trades := [⟨1, 99, 11, 7, 10 ^ 33, 2, 2⟩], completion := .Filled }

theorem bookC5_WF : bookC5.WF := by
  refine ⟨⟨?_, ?_⟩, ⟨List.chain'_nil, ?_⟩⟩
  · show List.Chain' (· < ·) [10 ^ 33]
    exact List.chain'_singleton _
  · intro e he
    simp only [bookC5, List.mem_cons, List.not_mem_nil, or_false] at he
    rcases he with rfl
    refine ⟨by simp, ?_⟩
    intro mk hmk
    simp only [List.mem_cons, List.not_mem_nil, or_false] at hmk
    rcases hmk with rfl
    exact ⟨rfl, rfl, by norm_num, fun _ => rfl⟩
  · intro e he
    cases he

/-- Witness for C5: on a concrete one-level book the strict budget
preview accepts a Market Buy and the execution fills it completely,
spending within `max_quote`. -/
theorem spec_C5_witness :
    preview_market_buy_budget_strict lbOps bookC5 ordC5 limC5 = .ok () ∧
    repC5.completion = .Filled ∧
    (repC5.trades.map Trade.amount_quote).sum ≤ ordC5.max_quote := by
  have h := spec_C5_market_buy_preview bookC5 ordC5 limC5 bookC5_WF rfl rfl
    rfl
  have h2 := (h.2 (by rfl)).2 { asks := [], bids := [] } repC5 (by rfl)
  exact ⟨rfl, h2.1, h2.2⟩

/-! ### Value sums for conservation (C1) -/

/-- Total free quote across the ledger. -/
def sumQuote (m : BalMap) : Nat := (m.map (fun e => e.2.quote)).sum

/-- Total free base across the ledger. -/
def sumBase (m : BalMap) : Nat := (m.map (fun e => e.2.base)).sum

/-- Total remaining base resting in a ladder. -/
def ladderBase (lad : Ladder) : Nat :=
  (lad.map (fun e => (e.2.map MakerView.remaining_base).sum)).sum

/-- Total reserved quote resting in a ladder. -/
def ladderReserved (lad : Ladder) : Nat :=
  (lad.map (fun e => (e.2.map MakerView.reserved_quote).sum)).sum

/-- Total remaining base in a flattened maker list. -/
def flatBase (L : List (Nat × MakerView)) : Nat :=
  (L.map (fun e => e.2.remaining_base)).sum

/-- One account's base viewed as the claim counts it: free base plus the
remaining base of the account's resting Sell makers. -/
def acctBaseTotal (st : State) (b : LBook) (who : Nat) : Nat :=
  (getBal st.balances who).base +
  (((flattenAsc b.asks ++ flattenAsc b.bids).filter
      (fun e => e.2.owner == who && e.2.side == Side.Sell)).map
    (fun e => e.2.remaining_base)).sum

/-- One account's quote as the claim counts it: free quote plus the
reserved quote of the account's resting Buy makers. -/
def acctQuoteTotal (st : State) (b : LBook) (who : Nat) : Nat :=
  (getBal st.balances who).quote +
  (((flattenAsc b.asks ++ flattenAsc b.bids).filter
      (fun e => e.2.owner == who && e.2.side == Side.Buy)).map
    (fun e => e.2.reserved_quote)).sum

theorem sumQuote_setBal (m : BalMap) (who : Nat) (v : AccountBalances) :
    sumQuote (setBal m who v) + (getBal m who).quote =
      sumQuote m + v.quote := by
  induction m with
  | nil => simp [setBal, getBal, sumQuote, zeroBal]
  | cons e t ih =>
    rcases e with ⟨k, w⟩
    by_cases hk : k = who
    · simp only [setBal, getBal, if_pos hk, sumQuote, List.map_cons,
        List.sum_cons]
      omega
    · simp only [setBal, getBal, if_neg hk, sumQuote, List.map_cons,
        List.sum_cons]
      simp only [sumQuote] at ih
      omega

theorem sumBase_setBal (m : BalMap) (who : Nat) (v : AccountBalances) :
    sumBase (setBal m who v) + (getBal m who).base =
      sumBase m + v.base := by
  induction m with
  | nil => simp [setBal, getBal, sumBase, zeroBal]
  | cons e t ih =>
    rcases e with ⟨k, w⟩
    by_cases hk : k = who
    · simp only [setBal, getBal, if_pos hk, sumBase, List.map_cons,
        List.sum_cons]
      omega
    · simp only [setBal, getBal, if_neg hk, sumBase, List.map_cons,
        List.sum_cons]
      simp only [sumBase] at ih
      omega

theorem setBal_update_quote (m : BalMap) (who nq : Nat) :
    sumQuote (setBal m who ⟨(getBal m who).base, nq⟩) +
      (getBal m who).quote = sumQuote m + nq ∧
    sumBase (setBal m who ⟨(getBal m who).base, nq⟩) = sumBase m := by
  have e1 : sumQuote (setBal m who ⟨(getBal m who).base, nq⟩) +
      (getBal m who).quote = sumQuote m + nq :=
    sumQuote_setBal m who ⟨(getBal m who).base, nq⟩
  have e2 : sumBase (setBal m who ⟨(getBal m who).base, nq⟩) +
      (getBal m who).base = sumBase m + (getBal m who).base :=
    sumBase_setBal m who ⟨(getBal m who).base, nq⟩
  exact ⟨e1, by omega⟩

theorem setBal_update_base (m : BalMap) (who nb : Nat) :
    sumBase (setBal m who ⟨nb, (getBal m who).quote⟩) +
      (getBal m who).base = sumBase m + nb ∧
    sumQuote (setBal m who ⟨nb, (getBal m who).quote⟩) = sumQuote m := by
  have e1 : sumBase (setBal m who ⟨nb, (getBal m who).quote⟩) +
      (getBal m who).base = sumBase m + nb :=
    sumBase_setBal m who ⟨nb, (getBal m who).quote⟩
  have e2 : sumQuote (setBal m who ⟨nb, (getBal m who).quote⟩) +
      (getBal m who).quote = sumQuote m + (getBal m who).quote :=
    sumQuote_setBal m who ⟨nb, (getBal m who).quote⟩
  exact ⟨e1, by omega⟩

theorem lock_quote_sum (st : State) (who a : Nat) (st' : State)
    (h : lock st who .Quote a = some st') :
    sumQuote st'.balances + a = sumQuote st.balances ∧
    sumBase st'.balances = sumBase st.balances := by
  simp only [lock] at h
  split at h
  · rename_i ha
    injection h with h'
    subst h'
    simp [ha]
  · rcases hs : checkedSub (getBal st.balances who).quote a with - | nq
    · rw [hs] at h
      exact Option.noConfusion h
    · rw [hs] at h
      injection h with h'
      subst h'
      obtain ⟨hnq, hle⟩ := checkedSub_some _ _ _ hs
      obtain ⟨e1, e2⟩ := setBal_update_quote st.balances who nq
      constructor
      · show sumQuote (setBal st.balances who
          ⟨(getBal st.balances who).base, nq⟩) + a = sumQuote st.balances
        omega
      · show sumBase (setBal st.balances who
          ⟨(getBal st.balances who).base, nq⟩) = sumBase st.balances
        omega

theorem unlock_quote_sum (st : State) (who a : Nat) (st' : State)
    (h : unlock st who .Quote a = some st') :
    sumQuote st'.balances = sumQuote st.balances + a ∧
    sumBase st'.balances = sumBase st.balances := by
  simp only [unlock] at h
  split at h
  · rename_i ha
    injection h with h'
    subst h'
    simp [ha]
  · rcases hs : checkedAdd (getBal st.balances who).quote a with - | nq
    · rw [hs] at h
      exact Option.noConfusion h
    · rw [hs] at h
      injection h with h'
      subst h'
      obtain ⟨hnq, hlt⟩ := checkedAdd_some _ _ _ hs
      obtain ⟨e1, e2⟩ := setBal_update_quote st.balances who nq
      constructor
      · show sumQuote (setBal st.balances who
          ⟨(getBal st.balances who).base, nq⟩) = sumQuote st.balances + a
        omega
      · show sumBase (setBal st.balances who
          ⟨(getBal st.balances who).base, nq⟩) = sumBase st.balances
        omega

theorem lock_base_sum (st : State) (who a : Nat) (st' : State)
    (h : lock st who .Base a = some st') :
    sumBase st'.balances + a = sumBase st.balances ∧
    sumQuote st'.balances = sumQuote st.balances := by
  simp only [lock] at h
  split at h
  · rename_i ha
    injection h with h'
    subst h'
    simp [ha]
  · rcases hs : checkedSub (getBal st.balances who).base a with - | nb
    · rw [hs] at h
      exact Option.noConfusion h
    · rw [hs] at h
      injection h with h'
      subst h'
      obtain ⟨hnb, hle⟩ := checkedSub_some _ _ _ hs
      obtain ⟨e1, e2⟩ := setBal_update_base st.balances who nb
      constructor
      · show sumBase (setBal st.balances who
          ⟨nb, (getBal st.balances who).quote⟩) + a = sumBase st.balances
        omega
      · show sumQuote (setBal st.balances who
          ⟨nb, (getBal st.balances who).quote⟩) = sumQuote st.balances
        omega

theorem unlock_base_sum (st : State) (who a : Nat) (st' : State)
    (h : unlock st who .Base a = some st') :
    sumBase st'.balances = sumBase st.balances + a ∧
    sumQuote st'.balances = sumQuote st.balances := by
  simp only [unlock] at h
  split at h
  · rename_i ha
    injection h with h'
    subst h'
    simp [ha]
  · rcases hs : checkedAdd (getBal st.balances who).base a with - | nb
    · rw [hs] at h
      exact Option.noConfusion h
    · rw [hs] at h
      injection h with h'
      subst h'
      obtain ⟨hnb, hlt⟩ := checkedAdd_some _ _ _ hs
      obtain ⟨e1, e2⟩ := setBal_update_base st.balances who nb
      constructor
      · show sumBase (setBal st.balances who
          ⟨nb, (getBal st.balances who).quote⟩) = sumBase st.balances + a
        omega
      · show sumQuote (setBal st.balances who
          ⟨nb, (getBal st.balances who).quote⟩) = sumQuote st.balances
        omega

/-- Settlement of a Buy taker's trades credits the taker with the traded
base and the makers with the traded quote. -/
theorem settleLoop_buy_sums (trades : List Trade) :
    ∀ (st : State) (sq0 sb0 : Nat) (st' : State) (sq sb : Nat),
      settleLoop .Buy trades st sq0 sb0 = some (st', sq, sb) →
      sumQuote st'.balances =
        sumQuote st.balances + (trades.map Trade.amount_quote).sum ∧
      sumBase st'.balances =
        sumBase st.balances + (trades.map Trade.amount_base).sum := by
  induction trades with
  | nil =>
    intro st sq0 sb0 st' sq sb h
    simp only [settleLoop, Option.some.injEq, Prod.mk.injEq] at h
    rw [← h.1]
    simp
  | cons tr rest ih =>
    intro st sq0 sb0 st' sq sb h
    simp only [settleLoop] at h
    rcases hacc : checkedAdd sq0 tr.amount_quote with - | x
    · rw [hacc] at h
      exact Option.noConfusion h
    · rw [hacc] at h
      have h' : (match unlock st tr.taker Asset.Base tr.amount_base with
          | none => none
          | some st1 =>
            match unlock st1 tr.maker Asset.Quote tr.amount_quote with
            | none => none
            | some st2 => settleLoop Side.Buy rest st2 x sb0) =
          some (st', sq, sb) := h
      rcases h1 : unlock st tr.taker Asset.Base tr.amount_base with - | st1
      · rw [h1] at h'
        exact Option.noConfusion h'
      · rw [h1] at h'
        have h'' : (match unlock st1 tr.maker Asset.Quote tr.amount_quote with
            | none => none
            | some st2 => settleLoop Side.Buy rest st2 x sb0) =
            some (st', sq, sb) := h'
        rcases h2 : unlock st1 tr.maker Asset.Quote tr.amount_quote
            with - | st2
        · rw [h2] at h''
          exact Option.noConfusion h''
        · rw [h2] at h''
          obtain ⟨ihq, ihb⟩ := ih st2 x sb0 st' sq sb h''
          obtain ⟨u1b, u1q⟩ := unlock_base_sum st tr.taker tr.amount_base
            st1 h1
          obtain ⟨u2q, u2b⟩ := unlock_quote_sum st1 tr.maker
            tr.amount_quote st2 h2
          simp only [List.map_cons, List.sum_cons]
          omega

/-- Flattening preserves the resting-base total. -/
theorem flatBase_flattenAsc (lad : Ladder) :
    flatBase (flattenAsc lad) = ladderBase lad := by
  induction lad with
  | nil => rfl
  | cons e t ih =>
    rcases e with ⟨p, v⟩
    rw [flattenAsc_cons]
    simp only [flatBase, ladderBase, List.map_append, List.sum_append,
      List.map_cons, List.sum_cons, List.map_map]
    simp only [flatBase, ladderBase] at ih
    rw [ih]
    congr 1

/-- `push_maker` adds exactly the new maker's reserved quote. -/
theorem pushMaker_reserved (lad : Ladder) (p : Nat) (mk : MakerView) :
    ladderReserved (pushMaker lad p mk) =
      ladderReserved lad + mk.reserved_quote := by
  induction lad with
  | nil => simp [pushMaker, ladderReserved]
  | cons e t ih =>
    rcases e with ⟨k, v⟩
    simp only [pushMaker]
    by_cases h1 : p < k
    · rw [if_pos h1]
      simp only [ladderReserved, List.map_cons, List.sum_cons,
        List.map_nil, List.sum_nil]
      omega
    · rw [if_neg h1]
      by_cases h2 : p = k
      · rw [if_pos h2]
        simp only [ladderReserved, List.map_cons, List.sum_cons,
          List.map_append, List.sum_append]
        simp
        omega
      · rw [if_neg h2]
        simp only [ladderReserved, List.map_cons, List.sum_cons]
        simp only [ladderReserved] at ih
        omega

theorem flatBase_cons (p : Nat) (mk : MakerView)
    (rest : List (Nat × MakerView)) :
    flatBase ((p, mk) :: rest) = mk.remaining_base + flatBase rest := by
  simp [flatBase]

/-- The flat loop moves exactly the traded base out of the ladder, and in
Limit-Buy tracking mode decrements the taker's remaining quote by exactly
the traded quote. -/
theorem execFlat_sums (order : IncomingOrder) (limits : EngineLimits)
    (sMB tLBQ : Bool) :
    ∀ (fuel : Nat) (L : List (Nat × MakerView)) (remaining : Nat)
      (trades : List Trade) (spent rq : Nat)
      (L' : List (Nat × MakerView)) (tr' : List Trade) (rem2 rq2 : Nat),
      execFlat order limits sMB tLBQ fuel L remaining trades spent rq =
        (L', .ok (tr', rem2, rq2)) →
      ∃ newtr, tr' = trades ++ newtr ∧
        flatBase L' + (newtr.map Trade.amount_base).sum = flatBase L ∧
        (tLBQ = true → rq2 + (newtr.map Trade.amount_quote).sum = rq) := by
  intro fuel
  induction fuel with
  | zero =>
    intro L remaining trades spent rq L' tr' rem2 rq2 h
    simp only [execFlat] at h
    injection h with h1 h2
    exact Except.noConfusion h2
  | succ fuel ih =>
    intro L remaining trades spent rq L' tr' rem2 rq2 h
    by_cases hrem : remaining = 0
    · simp only [execFlat, if_pos hrem] at h
      injection h with h1 h2
      injection h2 with h3
      injection h3 with h4 h5
      injection h5 with h5a h5b
      exact ⟨[], by simp [← h4], by simp [← h1], fun _ => by simp [← h5b]⟩
    · by_cases htl : trades.length ≥ limits.max_trades
      · simp only [execFlat, if_neg hrem, if_pos htl] at h
        injection h with h1 h2
        exact Except.noConfusion h2
      · rcases L with - | ⟨⟨price, maker⟩, rest⟩
        · simp only [execFlat, if_neg hrem, if_neg htl] at h
          injection h with h1 h2
          injection h2 with h3
          injection h3 with h4 h5
          injection h5 with h5a h5b
          exact ⟨[], by simp [← h4], by simp [← h1],
            fun _ => by simp [← h5b]⟩
        · simp only [execFlat, if_neg hrem, if_neg htl] at h
          by_cases hcr : order.kind ≠ .Market ∧
              ¬ crosses order.side order.limit_price price
          · rw [if_pos hcr] at h
            injection h with h1 h2
            injection h2 with h3
            injection h3 with h4 h5
            injection h5 with h5a h5b
            exact ⟨[], by simp [← h4], by simp [← h1],
              fun _ => by simp [← h5b]⟩
          · rw [if_neg hcr] at h
            rcases hq : calc_quote_floor (min remaining maker.remaining_base)
                price with e | quote
            · simp only [hq] at h
              injection h with h1 h2
              exact Except.noConfusion h2
            · simp only [hq] at h
              rcases hspE : (if sMB = true then
                  match checkedAdd spent quote with
                  | none => Except.error MatchError.AddOverflow
                  | some sq =>
                    if sq > order.max_quote then
                      Except.error MatchError.MarketBuyBudgetCheckInconsistent
                    else Except.ok sq
                else Except.ok spent) with e | spent'
              · simp only [hspE] at h
                injection h with h1 h2
                exact Except.noConfusion h2
              · simp only [hspE] at h
                rcases hrqE : (if tLBQ = true then
                    match checkedSub rq quote with
                    | none => Except.error MatchError.SubUnderflow
                    | some rq => Except.ok rq
                  else Except.ok rq) with e | rq'
                · simp only [hrqE] at h
                  injection h with h1 h2
                  exact Except.noConfusion h2
                · simp only [hrqE] at h
                  rcases hmn : checkedSub maker.remaining_base
                      (min remaining maker.remaining_base) with - | maker_new
                  · simp only [hmn] at h
                    injection h with h1 h2
                    exact Except.noConfusion h2
                  · simp only [hmn] at h
                    rcases hupd : (if maker.side = Side.Buy then
                        match checkedSub maker.reserved_quote quote with
                        | none => Except.error MatchError.SubUnderflow
                        | some new_rq =>
                          Except.ok { maker with reserved_quote := new_rq }
                      else Except.ok maker) with e | maker1
                    · simp only [hupd] at h
                      injection h with h1 h2
                      exact Except.noConfusion h2
                    · simp only [hupd] at h
                      rcases hr2 : checkedSub remaining
                          (min remaining maker.remaining_base)
                          with - | remaining2
                      · simp only [hr2] at h
                        injection h with h1 h2
                        exact Except.noConfusion h2
                      · simp only [hr2] at h
                        obtain ⟨hmnv, hmnle⟩ := checkedSub_some _ _ _ hmn
                        obtain ⟨newtr', hcat, hbase, hrq⟩ :=
                          ih _ _ _ _ _ _ _ _ _ h
                        have hL2 : flatBase (if maker_new = 0 then rest
                            else (price,
                              { maker1 with remaining_base := maker_new })
                              :: rest) = maker_new + flatBase rest := by
                          by_cases hm0 : maker_new = 0
                          · rw [if_pos hm0, hm0]
                            omega
                          · rw [if_neg hm0, flatBase_cons]
                        rw [hL2] at hbase
                        refine ⟨mkTrade order price maker
                          (min remaining maker.remaining_base) quote ::
                            newtr', ?_, ?_, ?_⟩
                        · rw [hcat, List.append_assoc]
                          rfl
                        · rw [flatBase_cons]
                          simp only [List.map_cons, List.sum_cons, mkTrade]
                          omega
                        · intro htq
                          rw [htq] at hrqE
                          simp only [if_true] at hrqE
                          rcases hcs : checkedSub rq quote with - | x
                          · rw [hcs] at hrqE
                            exact Except.noConfusion hrqE
                          · rw [hcs] at hrqE
                            injection hrqE with hx
                            obtain ⟨hxv, hxle⟩ := checkedSub_some _ _ _ hcs
                            have hrq' := hrq htq
                            simp only [List.map_cons, List.sum_cons, mkTrade]
                            omega

theorem execFinalize_ok_cases {B H : Type} (ops : BookOps B H)
    (order : IncomingOrder) (sMB tLBQ : Bool) (book : B)
    (trades : List Trade) (remaining rqf : Nat) (b' : B)
    (rep : ExecutionReport)
    (h : execFinalize ops order sMB tLBQ book trades remaining rqf =
      (b', .ok rep)) :
    rep.trades = trades ∧
    ((remaining = 0 ∧ b' = book ∧ rep.completion = .Filled) ∨
     (remaining ≠ 0 ∧ order.kind = .Limit ∧
       b' = ops.insert_resting book
         { id := order.id, owner := order.owner, side := order.side,
           price := order.limit_price, remaining_base := remaining,
           remaining_quote := if tLBQ then rqf else 0 } ∧
       rep.completion = .Placed remaining (if tLBQ then rqf else 0)) ∨
     (remaining ≠ 0 ∧
       (order.kind = .Market ∨ order.kind = .ImmediateOrCancel) ∧
       b' = book ∧ rep.completion = .Cancelled remaining)) := by
  simp only [execFinalize] at h
  split at h
  · injection h with h1 h2
    exact Except.noConfusion h2
  · split at h
    · rename_i hr0
      injection h with h1 h2
      injection h2 with h3
      refine ⟨by rw [← h3], Or.inl ⟨hr0, h1.symm, by rw [← h3]⟩⟩
    · rename_i hr0
      split at h
      · rename_i hk
        injection h with h1 h2
        injection h2 with h3
        exact ⟨by rw [← h3],
          Or.inr (Or.inl ⟨hr0, hk, h1.symm, by rw [← h3]⟩)⟩
      · rename_i hk
        injection h with h1 h2
        injection h2 with h3
        exact ⟨by rw [← h3],
          Or.inr (Or.inr ⟨hr0, Or.inl hk, h1.symm, by rw [← h3]⟩)⟩
      · rename_i hk
        injection h with h1 h2
        injection h2 with h3
        exact ⟨by rw [← h3],
          Or.inr (Or.inr ⟨hr0, Or.inr hk, h1.symm, by rw [← h3]⟩)⟩
      · injection h with h1 h2
        exact Except.noConfusion h2

theorem execute_ok_cases {B H : Type} [DecidableEq H] (ops : BookOps B H)
    (book : B) (order : IncomingOrder) (limits : EngineLimits)
    (b' : B) (rep : ExecutionReport)
    (h : execute ops book order limits = (b', .ok rep)) :
    (b' = book ∧ rep = { trades := [], completion := .Rejected }) ∨
    ∃ rq0 book1 remaining1 rqf1,
      (if decide (order.kind = .Limit ∧ order.side = .Buy) = true then
          calc_quote_ceil order.amount_base order.limit_price
        else .ok 0) = .ok rq0 ∧
      execLoop ops order limits
        (decide (order.kind = .Market ∧ order.side = .Buy))
        (decide (order.kind = .Limit ∧ order.side = .Buy))
        order.side.opposite (limits.max_trades + 1) book order.amount_base
        [] 0 rq0 = (book1, .ok (rep.trades, remaining1, rqf1)) ∧
      execFinalize ops order
        (decide (order.kind = .Market ∧ order.side = .Buy))
        (decide (order.kind = .Limit ∧ order.side = .Buy))
        book1 rep.trades remaining1 rqf1 = (b', .ok rep) := by
  simp only [execute] at h
  split at h
  · injection h with h1 h2
    exact Except.noConfusion h2
  · split at h
    · injection h with h1 h2
      exact Except.noConfusion h2
    · split at h
      · split at h
        · injection h with h1 h2
          exact Except.noConfusion h2
        · injection h with h1 h2
          injection h2 with h3
          exact Or.inl ⟨h1.symm, h3.symm⟩
        · simp only [execRun] at h
          split at h
          · injection h with h1 h2
            exact Except.noConfusion h2
          · rename_i rq0 heq1
            split at h
            · injection h with h1 h2
              exact Except.noConfusion h2
            · rename_i book1 trades1 remaining1 rqf1 heq2
              have htr := execFinalize_ok_trades _ _ _ _ _ _ _ _ _ _ h
              rw [← htr] at heq2 h
              exact Or.inr ⟨rq0, book1, remaining1, rqf1, heq1, heq2, h⟩
      · simp only [execRun] at h
        split at h
        · injection h with h1 h2
          exact Except.noConfusion h2
        · rename_i rq0 heq1
          split at h
          · injection h with h1 h2
            exact Except.noConfusion h2
          · rename_i book1 trades1 remaining1 rqf1 heq2
            have htr := execFinalize_ok_trades _ _ _ _ _ _ _ _ _ _ h
            rw [← htr] at heq2 h
            exact Or.inr ⟨rq0, book1, remaining1, rqf1, heq1, heq2, h⟩

theorem lock_buy_aux (st : State) (who : Nat) (lqO : Option Nat)
    (st1 : State) (lb lq : Nat)
    (h : (match lqO with
      | none => none
      | some lqv =>
        match lock st who .Quote lqv with
        | none => none
        | some st' => some (st', 0, lqv)) = some (st1, lb, lq)) :
    lb = 0 ∧ lock st who .Quote lq = some st1 := by
  rcases lqO with - | lqv
  · exact Option.noConfusion h
  · rcases hlk : lock st who .Quote lqv with - | st'
    · simp only [hlk] at h
      exact Option.noConfusion h
    · simp only [hlk] at h
      injection h with h'
      injection h' with ha hb
      injection hb with hb1 hb2
      refine ⟨hb1.symm, ?_⟩
      rw [← hb2, hlk, ha]

theorem lock_taker_funds_buy (st : State) (order : IncomingOrder)
    (st1 : State) (lb lq : Nat) (hside : order.side = .Buy)
    (h : lock_taker_funds st order = some (st1, lb, lq)) :
    lb = 0 ∧ lock st order.owner .Quote lq = some st1 := by
  simp only [lock_taker_funds, hside] at h
  exact lock_buy_aux st order.owner _ st1 lb lq h

/-- C1 (amended): global value conservation for a Buy taker.  Across
`lock_taker_funds`, a successful `execute` and a successful
`settle_execution`, the total free quote plus the book's reserved quote
and the total free base plus the book's resting base are both unchanged,
and the Placed refund credits back exactly
`locked_quote - (Σ trade quote + remaining_quote)`.  (Per-account
per-asset conservation, as the spec states it, is false — trading moves
value between accounts and Sell-taker rounding can destroy reserved
dust; see the counterexample.) -/
theorem spec_C1_buy_conservation (st0 : State) (b : LBook)
    (order : IncomingOrder) (limits : EngineLimits)
    (st1 : State) (lb lq : Nat) (b' : LBook) (rep : ExecutionReport)
    (st2 : State)
    (hWF : b.WF) (hside : order.side = .Buy)
    (hlock : lock_taker_funds st0 order = some (st1, lb, lq))
    (hexec : execute lbOps b order limits = (b', .ok rep))
    (hsettle : settle_execution st1 order rep lb lq = some st2) :
    sumQuote st2.balances + ladderReserved b'.bids =
      sumQuote st0.balances + ladderReserved b.bids ∧
    sumBase st2.balances + ladderBase b'.asks =
      sumBase st0.balances + ladderBase b.asks ∧
    (∀ r rq, rep.completion = .Placed r rq →
      ∃ st1' sq sb, settleLoop .Buy rep.trades st1 0 0 =
          some (st1', sq, sb) ∧
        sq = (rep.trades.map Trade.amount_quote).sum ∧
        sq + rq ≤ lq ∧
        unlock st1' order.owner .Quote (lq - (sq + rq)) = some st2) := by
  obtain ⟨hlb0, hlockq⟩ := lock_taker_funds_buy st0 order st1 lb lq hside
    hlock
  subst hlb0
  obtain ⟨hq1, hb1⟩ := lock_quote_sum st0 order.owner lq st1 hlockq
  rcases execute_ok_cases lbOps b order limits b' rep hexec with
    ⟨hb'eq, hrep⟩ | ⟨rq0, book1, remaining1, rqf1, hrq0, hloop, hfin⟩
  · -- FOK rejected: no trades, full refund
    subst hb'eq
    subst hrep
    simp only [settle_execution, settleLoop, hside] at hsettle
    have hU0 : unlock st1 order.owner Asset.Base 0 = some st1 := rfl
    rw [hU0] at hsettle
    obtain ⟨huq, hub⟩ := unlock_quote_sum st1 order.owner lq st2 hsettle
    refine ⟨by omega, by omega, ?_⟩
    intro r rq hc
    exact Completion.noConfusion hc
  · have hms : order.side.opposite = Side.Sell := by
      rw [hside]
      rfl
    rw [hms] at hloop
    have hpri := priWF_of_WF b hWF Side.Sell
    rcases hFe : execFlat order limits
        (decide (order.kind = .Market ∧ order.side = .Buy))
        (decide (order.kind = .Limit ∧ order.side = .Buy))
        (limits.max_trades + 1) (flattenBest Side.Sell b)
        order.amount_base [] 0 rq0 with ⟨L', r'⟩
    have hsim := execLoop_simulates order limits
      (decide (order.kind = .Market ∧ order.side = .Buy))
      (decide (order.kind = .Limit ∧ order.side = .Buy)) Side.Sell
      (limits.max_trades + 1) b order.amount_base [] 0 rq0 book1
      (.ok (rep.trades, remaining1, rqf1)) L' r' hpri hloop hFe
    rw [← hsim.1] at hFe
    obtain ⟨newtr, hcat, hbase, hrqcl⟩ := execFlat_sums order limits _ _
      (limits.max_trades + 1) (flattenBest Side.Sell b) order.amount_base
      [] 0 rq0 L' rep.trades remaining1 rqf1 hFe
    rw [List.nil_append] at hcat
    have hfb : flatBase (flattenBest Side.Sell b) = ladderBase b.asks :=
      flatBase_flattenAsc b.asks
    have hfb1 : flatBase L' = ladderBase book1.asks := by
      rw [← hsim.2.1]
      exact flatBase_flattenAsc book1.asks
    have hbids1 : book1.bids = b.bids := hsim.2.2.1
    obtain ⟨-, hcases⟩ := execFinalize_ok_cases lbOps order _ _ book1
      rep.trades remaining1 rqf1 b' rep hfin
    rcases hsl : settleLoop Side.Buy rep.trades st1 0 0 with - | ⟨st1', sq, sb⟩
    · simp only [settle_execution, hside, hsl] at hsettle
      exact Option.noConfusion hsettle
    · obtain ⟨hslq, hslb⟩ := settleLoop_buy_sums rep.trades st1 0 0 st1'
        sq sb hsl
      have hsq := settleLoop_spent_quote rep.trades st1 0 0 st1' sq sb hsl
      simp only [settle_execution, hside, hsl] at hsettle
      rcases hcases with ⟨hr0, hb'eq, hcomp⟩ |
        ⟨hr0, hk, hb'eq, hcomp⟩ | ⟨hr0, hk2, hb'eq, hcomp⟩
      · -- Filled
        simp only [hcomp] at hsettle
        simp only [if_true] at hsettle
        rcases hcsub : checkedSub lq sq with - | extra
        · rw [hcsub] at hsettle
          exact Option.noConfusion hsettle
        · simp only [hcsub] at hsettle
          obtain ⟨hex, hle⟩ := checkedSub_some _ _ _ hcsub
          obtain ⟨huq, hub⟩ := unlock_quote_sum st1' order.owner extra st2
            hsettle
          have hRb : ladderReserved b'.bids = ladderReserved b.bids := by
            rw [hb'eq, hbids1]
          have hBa : ladderBase b'.asks = ladderBase book1.asks := by
            rw [hb'eq]
          refine ⟨by rw [hRb]; omega, ?_, ?_⟩
          · rw [hBa, ← hfb1]
            rw [hcat] at *
            omega
          · intro r rq hc
            rw [hcomp] at hc
            exact Completion.noConfusion hc
      · -- Placed (Limit remainder)
        have htlbq : decide (order.kind = .Limit ∧ order.side = .Buy) =
            true := by
          simp [hk, hside]
        rw [htlbq] at hb'eq hcomp
        simp only [eq_self_iff_true, if_true] at hb'eq hcomp
        simp only [hcomp] at hsettle
        rcases hadd2 : checkedAdd sq rqf1 with - | used
        · rw [hadd2] at hsettle
          exact Option.noConfusion hsettle
        · simp only [hadd2] at hsettle
          obtain ⟨husd, hlt2⟩ := checkedAdd_some _ _ _ hadd2
          rcases hsub2 : checkedSub lq used with - | extra
          · rw [hsub2] at hsettle
            exact Option.noConfusion hsettle
          · simp only [hsub2] at hsettle
            obtain ⟨hex, hle⟩ := checkedSub_some _ _ _ hsub2
            obtain ⟨huq, hub⟩ := unlock_quote_sum st1' order.owner extra
              st2 hsettle
            have hins : b'.bids = pushMaker book1.bids order.limit_price
                { id := order.id, owner := order.owner, side := Side.Buy,
                  price := order.limit_price, remaining_base := remaining1,
                  reserved_quote := rqf1 } := by
              rw [hb'eq, hside]
              rfl
            have hinsa : b'.asks = book1.asks := by
              rw [hb'eq, hside]
              rfl
            have hres : ladderReserved b'.bids =
                ladderReserved book1.bids + rqf1 := by
              rw [hins, pushMaker_reserved]
            refine ⟨?_, ?_, ?_⟩
            · rw [hres, hbids1]
              omega
            · rw [hinsa, ← hfb1]
              rw [hcat] at *
              omega
            · intro r rq hc
              rw [hcomp] at hc
              injection hc with hc1 hc2
              subst hc2
              refine ⟨st1', sq, sb, rfl, by omega, by omega, ?_⟩
              have hext : lq - (sq + rqf1) = extra := by omega
              rw [hext]
              exact hsettle
      · -- Cancelled (Market / IOC remainder)
        simp only [hcomp] at hsettle
        rcases hcsub : checkedSub lq sq with - | extra
        · rw [hcsub] at hsettle
          exact Option.noConfusion hsettle
        · simp only [hcsub] at hsettle
          obtain ⟨hex, hle⟩ := checkedSub_some _ _ _ hcsub
          obtain ⟨huq, hub⟩ := unlock_quote_sum st1' order.owner extra st2
            hsettle
          have hRb : ladderReserved b'.bids = ladderReserved b.bids := by
            rw [hb'eq, hbids1]
          have hBa : ladderBase b'.asks = ladderBase book1.asks := by
            rw [hb'eq]
          refine ⟨by rw [hRb]; omega, ?_, ?_⟩
          · rw [hBa, ← hfb1]
            rw [hcat] at *
            omega
          · intro r rq hc
            rw [hcomp] at hc
            exact Completion.noConfusion hc

/-- Ledger for scenario (a) of the C1 counterexample: account 1 is a
resting Sell maker, account 2 the Buy taker. -/
def stC1a : State := ⟨1, [(1, ⟨100, 0⟩), (2, ⟨0, 10⟩)]⟩

/-- Book for scenario (a): account 1's Sell maker of 5 base. -/
def bookC1a : LBook :=
  { asks := [(10 ^ 33, [⟨1, 1, .Sell, 10 ^ 33, 5, 0⟩])], bids := [] }

/-- Buy Limit taker of scenario (a). -/
def ordC1a : IncomingOrder := ⟨50, .Buy, .Limit, 10 ^ 33, 5, 2, 0⟩

/-- Limits shared by both C1 scenarios. -/
def limC1 : EngineLimits := ⟨10, 10⟩

/-- Scenario (a) state after `lock_taker_funds`. -/
def stC1a1 : State := ⟨1, [(1, ⟨100, 0⟩), (2, ⟨0, 5⟩)]⟩

/-- Scenario (a) execution report. -/
def repC1a : ExecutionReport :=
  { trades := [⟨1, 50, 1, 2, 10 ^ 33, 5, 5⟩], completion := .Filled }

/-- Scenario (a) final ledger. -/
def stC1a2 : State := ⟨1, [(1, ⟨100, 5⟩), (2, ⟨5, 5⟩)]⟩

/-- Scenario (a) final book (the maker is fully consumed). -/
def bookC1a2 : LBook := { asks := [], bids := [] }

/-- Ledger for scenario (b): account 9 is the Sell taker, account 1 the
resting Buy maker whose reserved quote came from an earlier lock. -/
def stC1b : State := ⟨1, [(9, ⟨1, 0⟩), (1, ⟨0, 5⟩)]⟩

/-- Book for scenario (b): a Buy maker at raw price 1 with one reserved
quote unit; `quote_floor(1, 1) = 0` at the 10^33 precision. -/
def bookC1b : LBook :=
  { asks := [], bids := [(1, [⟨1, 1, .Buy, 1, 1, 1⟩])] }

/-- Market Sell taker of scenario (b). -/
def ordC1b : IncomingOrder := ⟨60, .Sell, .Market, 0, 1, 9, 0⟩

/-- Scenario (b) state after `lock_taker_funds`. -/
def stC1b1 : State := ⟨1, [(9, ⟨0, 0⟩), (1, ⟨0, 5⟩)]⟩

/-- Scenario (b) execution report: the trade carries zero quote. -/
def repC1b : ExecutionReport :=
  { trades := [⟨1, 60, 1, 9, 1, 1, 0⟩], completion := .Filled }

/-- Scenario (b) final ledger. -/
def stC1b2 : State := ⟨1, [(9, ⟨0, 0⟩), (1, ⟨1, 5⟩)]⟩

/-- Scenario (b) final book: the maker was removed together with its
remaining reserved quote unit. -/
def bookC1b2 : LBook := { asks := [], bids := [] }

/-- C1 counterexample.  (a) Per-account per-asset conservation fails on a
complete successful lifecycle: account 1's base total (free plus own
Sell-maker remaining) drops from 105 to 100 — trading exchanges value
between accounts, so the per-account sum of the claim is not invariant.
(b) Even globally, a Sell Market taker against a Buy maker whose price
rounds the trade quote to zero destroys the maker's remaining reserved
quote: total quote (free plus book-reserved) drops from 6 to 5. -/
theorem spec_C1_counterexample :
    (lock_taker_funds stC1a ordC1a = some (stC1a1, 0, 5) ∧
     execute lbOps bookC1a ordC1a limC1 = (bookC1a2, .ok repC1a) ∧
     settle_execution stC1a1 ordC1a repC1a 0 5 = some stC1a2 ∧
     acctBaseTotal stC1a bookC1a 1 = 105 ∧
     acctBaseTotal stC1a2 bookC1a2 1 = 100) ∧
    (lock_taker_funds stC1b ordC1b = some (stC1b1, 1, 0) ∧
     execute lbOps bookC1b ordC1b limC1 = (bookC1b2, .ok repC1b) ∧
     settle_execution stC1b1 ordC1b repC1b 1 0 = some stC1b2 ∧
     sumQuote stC1b.balances + ladderReserved bookC1b.bids = 6 ∧
     sumQuote stC1b2.balances + ladderReserved bookC1b2.bids = 5) :=
  ⟨⟨rfl, rfl, rfl, rfl, rfl⟩, ⟨rfl, rfl, rfl, rfl, rfl⟩⟩

theorem bookC1a_WF : bookC1a.WF := by
  refine ⟨⟨?_, ?_⟩, ⟨List.chain'_nil, ?_⟩⟩
  · show List.Chain' (· < ·) [10 ^ 33]
    exact List.chain'_singleton _
  · intro e he
    simp only [bookC1a, List.mem_cons, List.not_mem_nil, or_false] at he
    rcases he with rfl
    refine ⟨by simp, ?_⟩
    intro mk hmk
    simp only [List.mem_cons, List.not_mem_nil, or_false] at hmk
    rcases hmk with rfl
    exact ⟨rfl, rfl, by norm_num, fun _ => rfl⟩
  · intro e he
    cases he

/-- Witness for the amended C1: on scenario (a)'s full lifecycle, the
global quote and base totals (ledger plus book) are conserved. -/
theorem spec_C1_witness :
    sumQuote stC1a2.balances + ladderReserved bookC1a2.bids =
      sumQuote stC1a.balances + ladderReserved bookC1a.bids ∧
    sumBase stC1a2.balances + ladderBase bookC1a2.asks =
      sumBase stC1a.balances + ladderBase bookC1a.asks := by
  have h := spec_C1_buy_conservation stC1a bookC1a ordC1a limC1 stC1a1 0 5
    bookC1a2 repC1a stC1a2 bookC1a_WF rfl rfl rfl rfl
  exact ⟨h.1, h.2.1⟩

/-- Empty book for the C4 witness. -/
def bookC4 : LBook := ⟨[], []⟩

/-- FOK Sell order for the C4 witness; nothing rests to fill it. -/
def ordC4 : IncomingOrder := ⟨1, .Sell, .FillOrKill, 10 ^ 33, 1, 3, 0⟩

/-- Limits for the C4 witness. -/
def limC4 : EngineLimits := ⟨10, 10⟩

/-- Ledger for the C4 witness. -/
def stC4 : State := ⟨1, [(3, ⟨2, 0⟩)]⟩

/-- Ledger after the C4 taker's base is escrowed. -/
def stC4e : State := ⟨1, [(3, ⟨1, 0⟩)]⟩

/-- Witness for C4: an unfillable FOK order is rejected with the book
untouched, and settling the rejection restores the original ledger. -/
theorem spec_C4_witness :
    execute lbOps bookC4 ordC4 limC4 =
      (bookC4, .ok { trades := [], completion := .Rejected }) ∧
    settle_execution stC4e ordC4 { trades := [], completion := .Rejected }
      1 0 = some stC4 :=
  spec_C4_fok_atomicity lbOps bookC4 ordC4 limC4 stC4 stC4e 1 0 rfl rfl rfl
    (by
      intro e he
      simp only [stC4, List.mem_cons, List.not_mem_nil, or_false] at he
      rcases he with rfl
      exact ⟨by decide, by decide⟩)
    rfl

/-- Book for the C7 witness. -/
def bookC7 : LBook := ⟨[(10 ^ 33, [⟨1, 11, .Sell, 10 ^ 33, 1, 0⟩])], []⟩

/-- Buy Limit taker for the C7 witness. -/
def ordC7 : IncomingOrder := ⟨99, .Buy, .Limit, 10 ^ 33, 1, 7, 0⟩

/-- Limits for the C7 witness. -/
def limC7 : EngineLimits := ⟨10, 10⟩

/-- The single trade the C7 witness produces. -/
def trC7 : Trade := ⟨1, 99, 11, 7, 10 ^ 33, 1, 1⟩

/-- The report of the C7 witness execution. -/
def repC7 : ExecutionReport := { trades := [trC7], completion := .Filled }

/-- Pre-settlement ledger for the C7 witness. -/
def stC7w : State := ⟨1, [(7, ⟨0, 0⟩), (11, ⟨0, 0⟩)]⟩

/-- Post-settlement ledger for the C7 witness. -/
def stC7w2 : State := ⟨1, [(7, ⟨1, 0⟩), (11, ⟨0, 1⟩)]⟩

/-- Witness for C7: the concrete trade carries the floor quote, and the
settlement accumulator equals the trade-quote sum. -/
theorem spec_C7_witness :
    calc_quote_floor trC7.amount_base trC7.price = .ok trC7.amount_quote ∧
    (1 : Nat) = (repC7.trades.map Trade.amount_quote).sum := by
  have h := spec_C7_quote_accounting lbOps bookC7 ordC7 limC7
    { asks := [], bids := [] } repC7 (by rfl)
  refine ⟨h.1 trC7 (by simp [repC7]), ?_⟩
  exact h.2 stC7w stC7w2 1 0 (by decide)

/-- Book for the C10 witness: one resting Buy maker. -/
def bookC10 : LBook := ⟨[], [(10 ^ 33, [⟨1, 11, .Buy, 10 ^ 33, 1, 1⟩])]⟩

/-- Market Sell taker for the C10 witness. -/
def ordC10s : IncomingOrder := ⟨3, .Sell, .Market, 0, 1, 5, 0⟩

/-- Limits for the C10 witness. -/
def limC10 : EngineLimits := ⟨10, 10⟩

/-- Report of the C10 Market Sell execution. -/
def repC10 : ExecutionReport :=
  { trades := [⟨1, 3, 11, 5, 10 ^ 33, 1, 1⟩], completion := .Filled }

/-- Empty book for the C10 Market Buy preview failure. -/
def bookC10e : LBook := ⟨[], []⟩

/-- Market Buy taker for the C10 preview-failure part. -/
def ordC10b : IncomingOrder := ⟨2, .Buy, .Market, 0, 1, 5, 7⟩

/-- Witness for C10: a Market Sell never raises the Market-Buy liquidity
error and completes as Filled; a Market Buy on an empty book propagates
the preview's liquidity error with the book unchanged. -/
theorem spec_C10_witness :
    (execute lbOps bookC10 ordC10s limC10).2 ≠
      .error .MarketBuyInsufficientLiquidity ∧
    (repC10.completion = .Filled ∨
      ∃ r, r ≠ 0 ∧ repC10.completion = .Cancelled r) ∧
    execute lbOps bookC10e ordC10b limC10 =
      (bookC10e, .error .MarketBuyInsufficientLiquidity) := by
  have h1 := spec_C10_market_liquidity_asymmetry lbOps bookC10 ordC10s
    limC10
  have h2 := spec_C10_market_liquidity_asymmetry lbOps bookC10e ordC10b
    limC10
  exact ⟨h1.1 rfl rfl,
    h1.2.1 rfl { asks := [], bids := [] } repC10 (by rfl),
    h2.2.2 rfl rfl .MarketBuyInsufficientLiquidity rfl rfl⟩

theorem bookC6_WF : bookC6.WF := by
  refine ⟨⟨?_, ?_⟩, ⟨List.chain'_nil, ?_⟩⟩
  · show List.Chain' (· < ·) [10 ^ 33, 2 * 10 ^ 33]
    rw [List.chain'_pair]
    norm_num
  · intro e he
    simp only [bookC6, List.mem_cons, List.not_mem_nil, or_false] at he
    rcases he with rfl | rfl
    · refine ⟨by simp, ?_⟩
      intro mk hmk
      simp only [List.mem_cons, List.not_mem_nil, or_false] at hmk
      rcases hmk with rfl | rfl
      · exact ⟨rfl, rfl, Nat.one_pos, fun _ => rfl⟩
      · exact ⟨rfl, rfl, Nat.one_pos, fun _ => rfl⟩
    · refine ⟨by simp, ?_⟩
      intro mk hmk
      simp only [List.mem_cons, List.not_mem_nil, or_false] at hmk
      rcases hmk with rfl
      exact ⟨rfl, rfl, Nat.one_pos, fun _ => rfl⟩
  · intro e he
    cases he

/-- Witness for C6: a concrete Buy taker sweeping two price levels gets
non-decreasing trade prices, and the fills at the best level respect the
FIFO queue. -/
theorem spec_C6_witness :
    (repC6.trades.map Trade.price).Chain' (· ≤ ·) ∧
    ((repC6.trades.filter (fun t => t.price == 10 ^ 33)).map
        Trade.maker_order_id) <+:
      ((lookupLevel (sideMap bookC6 ordC6.side.opposite) (10 ^ 33)).getD
        []).map MakerView.id := by
  have h := spec_C6_price_time_priority bookC6 ordC6 limC6
    { asks := [], bids := [] } repC6 bookC6_WF (by rfl)
  exact ⟨h.1 rfl, h.2.2 (10 ^ 33)⟩

end Clob
